import Mathlib

/-!
# OAST domain recognition, validation and decoding

A shallow embedding of the C core of the `oast` extension
(`oast_base32.c`, `oast_domains.c`, `oast_validate.c`, `oast_decode.c`,
`oast_extract.c`) together with theorems about it.

Conventions of the embedding:

* a byte is a natural number (`0 .. 255`); a C buffer given as a pointer and a
  length is the list of its bytes, so `f(p, n)` becomes `f (p.take n)` where the
  code passes a prefix of a longer buffer;
* index reads `text[i]` are `text.getD i 0`;
* `tolower` is the one of the "C" locale;
* `uint64_t`, `uint32_t`, `uint16_t` arithmetic is arithmetic on `Nat` reduced
  modulo `2 ^ 64`, `2 ^ 32`, `2 ^ 16`; the cast `(int)dot_pos` is `int_of_size_t`;
* loops whose cursor is changed in the body run on an explicit fuel, and the
  lemmas show the fuel given by the caller is enough.
-/

namespace Oast

/-! ## Bytes and `<ctype.h>` -/

/-- The bytes of an ASCII string literal. -/
def bytes (s : String) : List Nat := s.toList.map Char.toNat

/-- Embeds `tolower` in the "C" locale: `A .. Z` are moved to `a .. z`, every other
byte is left alone. -/
def tolower (c : Nat) : Nat := if 65 ≤ c ∧ c ≤ 90 then c + 32 else c

/-- Embeds `strchr(s, c)` on a NUL-terminated array `s`: the offset of the first byte
equal to `c`, looking at the bytes up to and including the terminating NUL. -/
def strchr : List Nat → Nat → Option Nat
  | [], _ => none
  | x :: xs, c =>
    if x = c then some 0
    else if x = 0 then none
    else (strchr xs c).map (· + 1)

/-! ## oast_base32.c -/

/-- Embeds `const char BASE32HEX_ALPHABET[33]`: the 32 symbols and the terminating NUL. -/
def BASE32HEX_ALPHABET : List Nat := bytes "0123456789abcdefghijklmnopqrstuv" ++ [0]

/-- Embeds `const char ZBASE32_ALPHABET[33]`: the 32 symbols and the terminating NUL. -/
def ZBASE32_ALPHABET : List Nat := bytes "ybndrfg8ejkmcpqxot1uwisza345h769" ++ [0]

/-- Embeds `is_base32hex_char`: `strchr(BASE32HEX_ALPHABET, tolower(c)) != NULL`. -/
def is_base32hex_char (c : Nat) : Bool := (strchr BASE32HEX_ALPHABET (tolower c)).isSome

/-- Embeds `is_zbase32_char`: `strchr(ZBASE32_ALPHABET, tolower(c)) != NULL`. -/
def is_zbase32_char (c : Nat) : Bool := (strchr ZBASE32_ALPHABET (tolower c)).isSome

/-- Embeds `base32hex_char_value`: the value `0 .. 31` of a symbol, `-1` for any other byte. -/
def base32hex_char_value (c : Nat) : Int :=
  if 48 ≤ c ∧ c ≤ 57 then (c : Int) - 48
  else if 97 ≤ c ∧ c ≤ 118 then (c : Int) - 97 + 10
  else if 65 ≤ c ∧ c ≤ 86 then (c : Int) - 65 + 10
  else -1

/-- The local variables of the loop of `base32hex_decode`. `output` holds the
bytes `output[0 .. byte_index)` stored so far, so `byte_index = output.length`. -/
structure decode_state where
  bit_buffer : Nat
  bit_count : Nat
  output : List Nat
  deriving DecidableEq, Repr

/-- The inner loop `while (bit_count >= 8 && byte_index < 12)` of
`base32hex_decode`, on a fuel that bounds the number of turns. -/
def extract_bytes : Nat → decode_state → decode_state
  | 0, st => st
  | fuel + 1, st =>
    if 8 ≤ st.bit_count ∧ st.output.length < 12 then
      let bit_count := st.bit_count - 8
      extract_bytes fuel
        { bit_buffer := st.bit_buffer
          bit_count := bit_count
          output := st.output ++ [(st.bit_buffer >>> bit_count) &&& 0xFF] }
    else st

/-- The outer loop `for (i = 0; i < input_len; i++)` of `base32hex_decode` over
the remaining input bytes: `(false, st)` when an invalid character stopped it. -/
def decode_loop : List Nat → decode_state → Bool × decode_state
  | [], st => (true, st)
  | c :: rest, st =>
    let val := base32hex_char_value c
    if val < 0 then (false, st)
    else
      let bit_buffer := ((st.bit_buffer <<< 5) ||| val.toNat) % 2 ^ 64
      let bit_count := st.bit_count + 5
      decode_loop rest
        (extract_bytes bit_count
          { bit_buffer := bit_buffer, bit_count := bit_count, output := st.output })

/-- What `base32hex_decode` hands back: the return code, the bytes stored in
`output` and `*output_len`. -/
structure decode_result where
  ret : Int
  output : List Nat
  output_len : Nat
  deriving DecidableEq, Repr

/-- Embeds `base32hex_decode(input, input_len, output, output_len)`. -/
def base32hex_decode (input : List Nat) : decode_result :=
  if input.length ≠ 20 then { ret := -1, output := [], output_len := 0 }
  else
    match decode_loop input { bit_buffer := 0, bit_count := 0, output := [] } with
    | (false, st) => { ret := -1, output := st.output, output_len := 0 }
    | (true, st) => { ret := 0, output := st.output, output_len := st.output.length }

/-! ## oast_domains.c -/

/-- Embeds `KNOWN_OAST_DOMAINS`, without the closing `NULL`. -/
def KNOWN_OAST_DOMAINS : List (List Nat) :=
  [bytes "oast.pro", bytes "oast.live", bytes "oast.site", bytes "oast.online",
   bytes "oast.fun", bytes "oast.me", bytes "interact.sh", bytes "interactsh.com"]

/-- The loop of `is_known_oast_domain` over the rest of the table. -/
def is_known_oast_domain_loop : List (List Nat) → List Nat → Option (List Nat)
  | [], _ => none
  | suffix :: rest, domain =>
    if suffix.length ≤ domain.length
        ∧ domain.drop (domain.length - suffix.length) = suffix
        ∧ (domain.length = suffix.length
            ∨ domain.getD (domain.length - suffix.length - 1) 0 = 46) then
      some suffix
    else is_known_oast_domain_loop rest domain

/-- Embeds `is_known_oast_domain(domain, domain_len)`: the matching table entry, or
`none` for `NULL`. -/
def is_known_oast_domain (domain : List Nat) : Option (List Nat) :=
  is_known_oast_domain_loop KNOWN_OAST_DOMAINS domain

/-- Embeds `get_oast_subdomain(full, full_len, subdomain_out)`: the returned length and
the value left in `*subdomain_out` (`none` when it is not written). The
subtraction `full_len - suffix_len - 1` cannot wrap: the suffix matched and
`full_len` differs from `suffix_len`, so `full_len > suffix_len`. -/
def get_oast_subdomain (full : List Nat) : Nat × Option (List Nat) :=
  match is_known_oast_domain full with
  | none => (0, none)
  | some suffix =>
    if full.length = suffix.length then (0, none)
    else (full.length - suffix.length - 1, some full)

/-! ## oast_validate.c -/

/-- Embeds `oast_is_valid_preamble(s, len)`. -/
def oast_is_valid_preamble (s : List Nat) : Bool :=
  if s.length ≠ 20 then false else s.all is_base32hex_char

/-- Embeds `oast_is_valid_subdomain(s, len)`. -/
def oast_is_valid_subdomain (s : List Nat) : Bool :=
  if s.length < 33 then false
  else if !oast_is_valid_preamble (s.take 20) then false
  else (s.drop 20).all is_zbase32_char

/-- Embeds `oast_validate(input, input_len)`. The local `subdomain` starts as `NULL`
(`none`) and is set by `get_oast_subdomain` whenever that returns a length
other than 0. -/
def oast_validate (input : List Nat) : Bool :=
  match is_known_oast_domain input with
  | none => false
  | some _ =>
    let r := get_oast_subdomain input
    if r.1 = 0 then false
    else
      match r.2 with
      | some subdomain => oast_is_valid_subdomain (subdomain.take r.1)
      | none => false

/-! ## oast_decode.c -/

/-- Embeds `read_be32`: a big-endian `uint32_t` from four bytes. -/
def read_be32 (b : List Nat) : Nat :=
  ((b.getD 0 0 <<< 24) ||| (b.getD 1 0 <<< 16) ||| (b.getD 2 0 <<< 8) ||| b.getD 3 0) % 2 ^ 32

/-- Embeds `read_be16`: a big-endian `uint16_t` from two bytes. -/
def read_be16 (b : List Nat) : Nat :=
  ((b.getD 0 0 <<< 8) ||| b.getD 1 0) % 2 ^ 16

/-- Embeds `read_be24`: a 24-bit big-endian value from three bytes, as a `uint32_t`. -/
def read_be24 (b : List Nat) : Nat :=
  ((b.getD 0 0 <<< 16) ||| (b.getD 1 0 <<< 8) ||| b.getD 2 0) % 2 ^ 32

/-- The C string that a `char` array holds: the bytes before its first NUL. -/
def c_string (b : List Nat) : List Nat := b.takeWhile (fun c => c != 0)

/-- Embeds `oast_decoded_t`. The `char` arrays `original`, `nonce`, `ksort` and
`campaign` carry no length, so each is kept as the C string it holds, the bytes
before its first NUL; `error` is the message text. -/
structure oast_decoded_t where
  original : List Nat
  timestamp : Nat
  machine_id : List Nat
  pid : Nat
  counter : Nat
  nonce : List Nat
  ksort : List Nat
  campaign : List Nat
  valid : Bool
  error : String
  deriving DecidableEq, Repr

/-- The result after `memset(result, 0, sizeof(*result))`. -/
def oast_decoded_zero : oast_decoded_t :=
  { original := [], timestamp := 0, machine_id := [0, 0, 0], pid := 0, counter := 0,
    nonce := [], ksort := [], campaign := [], valid := false, error := "" }

/-- The loop of `oast_decode` that looks for the first dot: its index, or the
length of the input when there is none. -/
def first_dot : List Nat → Nat
  | [] => 0
  | c :: rest => if c = 46 then 0 else first_dot rest + 1

/-- Embeds `oast_decode(input, input_len, result)`: the return code and `*result`. -/
def oast_decode (input : List Nat) : Int × oast_decoded_t :=
  let copy_len := if input.length < 255 then input.length else 255
  let r0 := { oast_decoded_zero with original := c_string (input.take copy_len) }
  if input.length = 0 then (-1, { r0 with error := "empty input" })
  else
    let subdomain_len := first_dot input
    if 256 ≤ subdomain_len then (-1, { r0 with error := "subdomain too long" })
    else
      let subdomain_lower := (input.take subdomain_len).map tolower
      if subdomain_len < 20 then
        (-1, { r0 with error := "subdomain too short: " ++ toString subdomain_len
                                  ++ " chars (minimum 20)" })
      else
        let preamble := subdomain_lower
        if !oast_is_valid_preamble (preamble.take 20) then
          (-1, { r0 with error := "preamble contains invalid base32hex characters" })
        else
          let r1 :=
            if 20 < subdomain_len ∧ subdomain_len - 20 < 128 then
              { r0 with nonce := c_string ((subdomain_lower.drop 20).take (subdomain_len - 20)) }
            else r0
          let d := base32hex_decode (preamble.take 20)
          if d.ret ≠ 0 ∨ d.output_len ≠ 12 then
            (-1, { r1 with error := "failed to decode preamble" })
          else
            let b := d.output
            (0, { r1 with
                    timestamp := read_be32 b
                    machine_id := [b.getD 4 0, b.getD 5 0, b.getD 6 0]
                    pid := read_be16 (b.drop 7)
                    counter := read_be24 (b.drop 9)
                    ksort := c_string (preamble.take 6)
                    campaign := c_string ((preamble.drop 6).take 5)
                    valid := true })

/-! ## oast_extract.c -/

/-- Embeds `oast_match_t`. The pointers `full` and `subdomain` are kept as offsets into
the scanned text, `domain` as the table entry it points to. -/
structure oast_match_t where
  full : Nat
  full_len : Nat
  subdomain : Nat
  subdomain_len : Nat
  domain : List Nat
  start_idx : Nat
  end_idx : Nat
  deriving DecidableEq, Repr

/-- Embeds `is_subdomain_char`. -/
def is_subdomain_char (c : Nat) : Bool :=
  let c := tolower c
  (48 ≤ c && c ≤ 57) || (97 ≤ c && c ≤ 122) || c == 45 || c == 95

/-- The cast `(int)dot_pos` of a `size_t` to a 32-bit `int`: the value modulo
`2 ^ 32`, read as a two's complement number, as gcc, clang and MSVC define the
conversion. -/
def int_of_size_t (n : Nat) : Int :=
  if n % 2 ^ 32 < 2 ^ 31 then ((n % 2 ^ 32 : Nat) : Int) else ((n % 2 ^ 32 : Nat) : Int) - 2 ^ 32

/-- The conversion of an `int` to `size_t`. -/
def size_t_of_int (i : Int) : Nat := (i % 2 ^ 64).toNat

/-- The loop `while (pos >= 0 && is_subdomain_char(text[pos])) pos--` of
`find_subdomain_start`, on a fuel that bounds the number of turns. -/
def walk_back (text : List Nat) : Nat → Int → Int
  | 0, pos => pos
  | fuel + 1, pos =>
    if 0 ≤ pos ∧ is_subdomain_char (text.getD pos.toNat 0) = true then
      walk_back text fuel (pos - 1)
    else pos

/-- Embeds `find_subdomain_start(text, dot_pos)`: the start of the subdomain, or `-1`.
`pos` and `start` are `int`, `subdomain_len` and the index `start + i` are
`size_t`. A read outside the text gives 0 here; for a `dot_pos` inside the text
it happens only when `start` is negative, and then the result is negative
whatever is read. -/
def find_subdomain_start (text : List Nat) (dot_pos : Nat) : Int :=
  if dot_pos = 0 then -1
  else
    let pos := walk_back text dot_pos (int_of_size_t dot_pos - 1)
    let start : Int := pos + 1
    let subdomain_len : Nat := (dot_pos + 2 ^ 64 - size_t_of_int start) % 2 ^ 64
    if subdomain_len < 33 then -1
    else if !(List.range 20).all
        (fun i => is_base32hex_char (text.getD ((size_t_of_int start + i) % 2 ^ 64) 0)) then -1
    else if !(List.range' 20 (subdomain_len - 20)).all
        (fun i =>
          let c := tolower (text.getD ((size_t_of_int start + i) % 2 ^ 64) 0)
          !(!is_zbase32_char c && c != 45 && c != 95)) then -1
    else start

/-- The comparison loop of `oast_extract`: does `domain` stand at `pos`, letter
case apart. -/
def domain_at (text domain : List Nat) (pos : Nat) : Bool :=
  (List.range domain.length).all
    (fun j => tolower (text.getD (pos + j) 0) == tolower (domain.getD j 0))

/-- The loop `for (pos = 0; pos <= text_len - domain_len; pos++)` of
`oast_extract` for one table entry, from cursor `pos` on: the matches it stores,
in the order it stores them. The fuel bounds the number of turns. -/
def scan_domain (text domain : List Nat) : Nat → Nat → List oast_match_t
  | 0, _ => []
  | fuel + 1, pos =>
    if pos ≤ text.length - domain.length then
      if !domain_at text domain pos then scan_domain text domain fuel (pos + 1)
      else if pos = 0 ∨ text.getD (pos - 1) 0 ≠ 46 then
        scan_domain text domain fuel (pos + 1)
      else
        let dot_pos := pos - 1
        let subdomain_start := find_subdomain_start text dot_pos
        if subdomain_start < 0 then scan_domain text domain fuel (pos + 1)
        else if 0 < subdomain_start
            ∧ is_subdomain_char (text.getD (subdomain_start - 1).toNat 0) = true then
          scan_domain text domain fuel (pos + 1)
        else
          let domain_end := pos + domain.length
          if domain_end < text.length
              ∧ (is_subdomain_char (text.getD domain_end 0) = true
                  ∨ text.getD domain_end 0 = 46) then
            scan_domain text domain fuel (pos + 1)
          else
            { full := subdomain_start.toNat
              full_len := domain_end - subdomain_start.toNat
              subdomain := subdomain_start.toNat
              subdomain_len := dot_pos - subdomain_start.toNat
              domain := domain
              start_idx := subdomain_start.toNat
              end_idx := domain_end } :: scan_domain text domain fuel (domain_end - 1 + 1)
    else []

/-- The loop of `oast_extract` over the rest of the table. -/
def extract_loop (text : List Nat) : List (List Nat) → List oast_match_t
  | [] => []
  | domain :: rest =>
    if text.length < domain.length then extract_loop text rest
    else scan_domain text domain (text.length + 1) 0 ++ extract_loop text rest

/-- Embeds `oast_extract(text, text_len, matches_out, match_count_out)`: the array left
in `*matches_out` (of length `*match_count_out`), allocation succeeding. -/
def oast_extract (text : List Nat) : List oast_match_t :=
  if text.length = 0 then [] else extract_loop text KNOWN_OAST_DOMAINS

/-! ## Vocabulary of the specification -/

/-- A symbol of the base32hex alphabet in either letter case: one of `0-9`,
`a-v`, `A-V`. -/
def in_base32hex (c : Nat) : Prop :=
  (48 ≤ c ∧ c ≤ 57) ∨ (97 ≤ c ∧ c ≤ 118) ∨ (65 ≤ c ∧ c ≤ 86)

instance in_base32hex_decidable (c : Nat) : Decidable (in_base32hex c) := by
  unfold in_base32hex
  infer_instance

/-- The 32 symbols of the z-base-32 alphabet. -/
def zbase32_symbols : List Nat := bytes "ybndrfg8ejkmcpqxot1uwisza345h769"

/-- A z-base-32 symbol in either letter case. -/
def in_zbase32 (c : Nat) : Prop := tolower c ∈ zbase32_symbols

instance in_zbase32_decidable (c : Nat) : Decidable (in_zbase32 c) := by
  unfold in_zbase32
  infer_instance

/-- The value `0 .. 31` of a base32hex symbol as a natural number. -/
def symbol_value (c : Nat) : Nat := (base32hex_char_value c).toNat

/-- The number `N = sum of v_i * 32 ^ (19 - i)` spelled by a 20-character
preamble with symbol values `v_0 .. v_19`. -/
def preamble_number (p : List Nat) : Nat :=
  ((List.range 20).map (fun i => symbol_value (p.getD i 0) * 32 ^ (19 - i))).sum

/-- The big-endian number of a sequence of bytes. -/
def be_number (b : List Nat) : Nat := b.foldl (fun acc x => acc * 256 + x) 0

/-- The base32hex symbol of a value `0 .. 31`: the entry of
`0123456789abcdefghijklmnopqrstuv` at that index. -/
def base32hex_symbol (v : Nat) : Nat := BASE32HEX_ALPHABET.getD v 0

/-- The RFC 4648 base32hex encoding, without padding characters, of 12 bytes:
the 96 bits followed by 4 zero bits, cut into twenty 5-bit groups from the most
significant one, each mapped through `0123456789abcdefghijklmnopqrstuv`. The
repository has no encoder; this one follows the words of the specification. -/
def base32hex_encode (b : List Nat) : List Nat :=
  (List.range 20).map (fun i => base32hex_symbol (be_number b * 16 / 32 ^ (19 - i) % 32))

/-- What the specification promises of a match `m` of `oast_extract` on
`text`: a known suffix stands, letter case apart, right after the dot that ends
the subdomain; the subdomain has at least 33 bytes, 20 base32hex symbols and
then z-base-32 symbols, `-` or `_`; the offsets and lengths agree; and the match
is bounded on both sides. -/
def sound_match (text : List Nat) (m : oast_match_t) : Prop :=
  m.domain ∈ KNOWN_OAST_DOMAINS
  ∧ 33 ≤ m.subdomain_len
  ∧ text.getD (m.start_idx + m.subdomain_len) 0 = 46
  ∧ (∀ j, j < m.domain.length →
      tolower (text.getD (m.start_idx + m.subdomain_len + 1 + j) 0)
        = tolower (m.domain.getD j 0))
  ∧ m.end_idx = m.start_idx + m.subdomain_len + 1 + m.domain.length
  ∧ m.end_idx ≤ text.length
  ∧ m.full_len = m.end_idx - m.start_idx
  ∧ m.full = m.start_idx ∧ m.subdomain = m.start_idx
  ∧ (∀ i, i < 20 → in_base32hex (text.getD (m.start_idx + i) 0))
  ∧ (∀ i, 20 ≤ i → i < m.subdomain_len →
      in_zbase32 (text.getD (m.start_idx + i) 0)
        ∨ text.getD (m.start_idx + i) 0 = 45 ∨ text.getD (m.start_idx + i) 0 = 95)
  ∧ (∀ i, i < m.subdomain_len → is_subdomain_char (text.getD (m.start_idx + i) 0) = true)
  ∧ (m.start_idx = 0 ∨ is_subdomain_char (text.getD (m.start_idx - 1) 0) = false)
  ∧ (m.end_idx = text.length
      ∨ (is_subdomain_char (text.getD m.end_idx 0) = false ∧ text.getD m.end_idx 0 ≠ 46))

/-- An ASCII letter switched to the other case; every other byte unchanged. -/
def swap_case (c : Nat) : Nat :=
  if 65 ≤ c ∧ c ≤ 90 then c + 32 else if 97 ≤ c ∧ c ≤ 122 then c - 32 else c

/-- The text with the letters marked by `mask` switched to the other case. -/
def switch_case : List Bool → List Nat → List Nat
  | b :: bs, c :: cs => (if b then swap_case c else c) :: switch_case bs cs
  | [], cs => cs
  | _ :: _, [] => []

/-- The index of the first entry of a table equal to a suffix (the length of
the table when there is none). -/
def index_in : List (List Nat) → List Nat → Nat
  | [], _ => 0
  | d :: rest, x => if d = x then 0 else index_in rest x + 1

/-- The index of the matched suffix of a match in the known-suffix list. -/
def suffix_index (m : oast_match_t) : Nat := index_in KNOWN_OAST_DOMAINS m.domain

/-- An input without a dot whose nonce has 128 characters: the preamble
`bst1o05anf609kg004m0` followed by 128 times `y`. -/
def long_nonce_input : List Nat := bytes "bst1o05anf609kg004m0" ++ List.replicate 128 121

/-- An input without a dot of 255 bytes, the longest subdomain `oast_decode`
takes: the preamble `bst1o05anf609kg004m0` followed by 235 times `y`. -/
def longest_input : List Nat := bytes "bst1o05anf609kg004m0" ++ List.replicate 235 121

/-- The messages of `oast_decode` for a subdomain of `0 .. 19` characters, with
the count written in decimal. -/
def too_short_messages : List String :=
  ["subdomain too short: 0 chars (minimum 20)", "subdomain too short: 1 chars (minimum 20)",
   "subdomain too short: 2 chars (minimum 20)", "subdomain too short: 3 chars (minimum 20)",
   "subdomain too short: 4 chars (minimum 20)", "subdomain too short: 5 chars (minimum 20)",
   "subdomain too short: 6 chars (minimum 20)", "subdomain too short: 7 chars (minimum 20)",
   "subdomain too short: 8 chars (minimum 20)", "subdomain too short: 9 chars (minimum 20)",
   "subdomain too short: 10 chars (minimum 20)", "subdomain too short: 11 chars (minimum 20)",
   "subdomain too short: 12 chars (minimum 20)", "subdomain too short: 13 chars (minimum 20)",
   "subdomain too short: 14 chars (minimum 20)", "subdomain too short: 15 chars (minimum 20)",
   "subdomain too short: 16 chars (minimum 20)", "subdomain too short: 17 chars (minimum 20)",
   "subdomain too short: 18 chars (minimum 20)", "subdomain too short: 19 chars (minimum 20)"]

/-- The 16 lower-case preambles that share the first 19 symbols of `p`, letter
case apart, and the top bit of its 20th symbol value. -/
def lower_preimages (p : List Nat) : List (List Nat) :=
  (List.range 16).map
    (fun r => (p.take 19).map tolower
      ++ [base32hex_symbol (16 * (symbol_value (p.getD 19 0) / 16) + r)])

/-- The start of the maximal run of subdomain characters that ends just before
offset `d`. -/
def run_start (text : List Nat) : Nat → Nat
  | 0 => 0
  | d + 1 => if is_subdomain_char (text.getD d 0) then run_start text d else d + 1

/-- The maximal run of subdomain characters ending just before the dot at
offset `d` has at least 33 bytes, its first 20 are base32hex symbols and the
others z-base-32 symbols, `-` or `_`. -/
def run_accepted (text : List Nat) (d : Nat) : Bool :=
  decide (33 ≤ d - run_start text d)
  && (List.range 20).all (fun i => decide (in_base32hex (text.getD (run_start text d + i) 0)))
  && (List.range' 20 (d - run_start text d - 20)).all
      (fun i => decide (in_zbase32 (text.getD (run_start text d + i) 0)
        ∨ text.getD (run_start text d + i) 0 = 45 ∨ text.getD (run_start text d + i) 0 = 95))

/-- The suffix `s` occurs in `text` at offset `p`, letter case apart, after a
dot that ends an accepted run, and the byte after the suffix is absent or
neither a subdomain character nor a dot. -/
def is_candidate (text s : List Nat) (p : Nat) : Bool :=
  decide (p + s.length ≤ text.length)
  && (List.range s.length).all
      (fun j => tolower (text.getD (p + j) 0) == tolower (s.getD j 0))
  && decide (0 < p)
  && (text.getD (p - 1) 0 == 46)
  && run_accepted text (p - 1)
  && (decide (p + s.length = text.length)
      || (!is_subdomain_char (text.getD (p + s.length) 0)
          && text.getD (p + s.length) 0 != 46))

/-- The match reported for the suffix `s` standing at offset `p`. -/
def match_at (text s : List Nat) (p : Nat) : oast_match_t :=
  { full := run_start text (p - 1)
    full_len := p + s.length - run_start text (p - 1)
    subdomain := run_start text (p - 1)
    subdomain_len := p - 1 - run_start text (p - 1)
    domain := s
    start_idx := run_start text (p - 1)
    end_idx := p + s.length }

/-- The loop of `oast_extract` for one table entry without the line
`pos = domain_end - 1`: after a match the cursor moves on by one. -/
def scan_domain_noskip (text domain : List Nat) : Nat → Nat → List oast_match_t
  | 0, _ => []
  | fuel + 1, pos =>
    if pos ≤ text.length - domain.length then
      if !domain_at text domain pos then scan_domain_noskip text domain fuel (pos + 1)
      else if pos = 0 ∨ text.getD (pos - 1) 0 ≠ 46 then
        scan_domain_noskip text domain fuel (pos + 1)
      else
        let dot_pos := pos - 1
        let subdomain_start := find_subdomain_start text dot_pos
        if subdomain_start < 0 then scan_domain_noskip text domain fuel (pos + 1)
        else if 0 < subdomain_start
            ∧ is_subdomain_char (text.getD (subdomain_start - 1).toNat 0) = true then
          scan_domain_noskip text domain fuel (pos + 1)
        else
          let domain_end := pos + domain.length
          if domain_end < text.length
              ∧ (is_subdomain_char (text.getD domain_end 0) = true
                  ∨ text.getD domain_end 0 = 46) then
            scan_domain_noskip text domain fuel (pos + 1)
          else
            { full := subdomain_start.toNat
              full_len := domain_end - subdomain_start.toNat
              subdomain := subdomain_start.toNat
              subdomain_len := dot_pos - subdomain_start.toNat
              domain := domain
              start_idx := subdomain_start.toNat
              end_idx := domain_end } :: scan_domain_noskip text domain fuel (pos + 1)
    else []

/-- The table loop of `oast_extract` over `scan_domain_noskip`. -/
def extract_loop_noskip (text : List Nat) : List (List Nat) → List oast_match_t
  | [] => []
  | domain :: rest =>
    if text.length < domain.length then extract_loop_noskip text rest
    else scan_domain_noskip text domain (text.length + 1) 0 ++ extract_loop_noskip text rest

/-- The variant of `oast_extract` without the line `pos = domain_end - 1`. -/
def oast_extract_noskip (text : List Nat) : List oast_match_t :=
  if text.length = 0 then [] else extract_loop_noskip text KNOWN_OAST_DOMAINS

/-- A subdomain of 256 bytes: a preamble of 20 base32hex symbols and 236 times `y`. -/
def overlong_subdomain : List Nat := bytes "bst1o05anf609kg004m0" ++ List.replicate 236 121

/-- A preamble followed by the five bytes `a`, `b`, NUL, `c`, `d`. -/
def nul_nonce_input : List Nat := bytes "bst1o05anf609kg004m0ab" ++ [0] ++ bytes "cd"

/-- The tests of the loop body of `oast_extract` that store a match for the
suffix `domain` at offset `pos`: the suffix stands there after a dot,
`find_subdomain_start` returns a start, and both boundary checks pass. -/
def scan_hit (text domain : List Nat) (pos : Nat) : Prop :=
  domain_at text domain pos = true ∧ 0 < pos ∧ text.getD (pos - 1) 0 = 46
  ∧ ¬ find_subdomain_start text (pos - 1) < 0
  ∧ ¬ (0 < find_subdomain_start text (pos - 1)
        ∧ is_subdomain_char
            (text.getD (find_subdomain_start text (pos - 1) - 1).toNat 0) = true)
  ∧ ¬ (pos + domain.length < text.length
        ∧ (is_subdomain_char (text.getD (pos + domain.length) 0) = true
            ∨ text.getD (pos + domain.length) 0 = 46))

/-- The record that the loop body of `oast_extract` stores for the suffix
`domain` found at offset `pos`. -/
def scan_record (text domain : List Nat) (pos : Nat) : oast_match_t :=
  { full := (find_subdomain_start text (pos - 1)).toNat
    full_len := pos + domain.length - (find_subdomain_start text (pos - 1)).toNat
    subdomain := (find_subdomain_start text (pos - 1)).toNat
    subdomain_len := pos - 1 - (find_subdomain_start text (pos - 1)).toNat
    domain := domain
    start_idx := (find_subdomain_start text (pos - 1)).toNat
    end_idx := pos + domain.length }

/-- A whole domain without a NUL byte: the preamble `bst1o05anf609kg004m0`,
`n` times `y`, a dot and `oast.pro`. -/
def long_domain_of (n : Nat) : List Nat :=
  bytes "bst1o05anf609kg004m0" ++ List.replicate n 121 ++ [46] ++ bytes "oast.pro"

/-- The domain of `2 ^ 31 + 29` bytes whose dot stands at offset `2 ^ 31 + 20`. -/
def long_domain : List Nat := long_domain_of (2 ^ 31)

/-- A text of two domains: 33 times `a` before `.oast.pro`, then a NUL byte, `n`
times `a` and `.oast.pro` again. -/
def overlap_text_of (n : Nat) : List Nat :=
  List.replicate 33 97 ++ bytes ".oast.pro" ++ [0] ++ List.replicate n 97 ++ bytes ".oast.pro"

theorem strchr_isSome (xs : List Nat) (c : Nat) (h : 0 ∉ xs) :
    (strchr (xs ++ [0]) c).isSome = true ↔ c ∈ xs ∨ c = 0 := by
  induction xs with
  | nil =>
    simp only [List.nil_append, strchr, List.not_mem_nil, false_or]
    by_cases hc : c = 0
    · subst hc; simp
    · have : ¬ 0 = c := fun e => hc e.symm
      simp [hc, this]
  | cons x xs ih =>
    have hx : x ≠ 0 := fun e => h (by simp [e])
    have h0 : 0 ∉ xs := fun e => h (by simp [e])
    simp only [List.cons_append, strchr, List.mem_cons]
    by_cases hc : x = c
    · simp [hc]
    · have hc2 : ¬ c = x := fun e => hc e.symm
      simp only [hc, hx, if_false, Option.isSome_map', hc2, false_or]
      exact ih h0

theorem tolower_eq_zero (c : Nat) : tolower c = 0 ↔ c = 0 := by
  unfold tolower
  by_cases hc : 65 ≤ c ∧ c ≤ 90
  · rw [if_pos hc]; constructor <;> intro hh <;> omega
  · rw [if_neg hc]

theorem is_base32hex_char_iff (c : Nat) :
    is_base32hex_char c = true ↔ c = 0 ∨ in_base32hex c := by
  have h := strchr_isSome (bytes "0123456789abcdefghijklmnopqrstuv") (tolower c) (by decide)
  have e : bytes "0123456789abcdefghijklmnopqrstuv" =
    [48, 49, 50, 51, 52, 53, 54, 55, 56, 57, 97, 98, 99, 100, 101, 102, 103, 104, 105, 106,
     107, 108, 109, 110, 111, 112, 113, 114, 115, 116, 117, 118] := by decide
  unfold is_base32hex_char BASE32HEX_ALPHABET
  rw [h, e]
  unfold in_base32hex tolower
  simp only [List.mem_cons, List.mem_singleton, List.not_mem_nil, or_false]
  split_ifs <;> (try simp only [or_false, Nat.add_eq_zero, OfNat.ofNat_ne_zero, and_false]) <;>
    constructor <;> intro hh <;> omega

theorem is_zbase32_char_iff (c : Nat) :
    is_zbase32_char c = true ↔ c = 0 ∨ in_zbase32 c := by
  have h := strchr_isSome (bytes "ybndrfg8ejkmcpqxot1uwisza345h769") (tolower c) (by decide)
  unfold is_zbase32_char ZBASE32_ALPHABET in_zbase32 zbase32_symbols
  rw [h, tolower_eq_zero, or_comm]

theorem base32hex_char_value_nonneg_iff (c : Nat) :
    0 ≤ base32hex_char_value c ↔ in_base32hex c := by
  unfold base32hex_char_value in_base32hex
  split_ifs <;> constructor <;> intro hh <;> omega

theorem base32hex_char_value_lt (c : Nat) : base32hex_char_value c < 32 := by
  unfold base32hex_char_value
  split_ifs <;> omega

theorem base32hex_char_value_tolower (c : Nat) :
    base32hex_char_value (tolower c) = base32hex_char_value c := by
  unfold base32hex_char_value tolower
  split_ifs <;> first | rfl | omega

theorem in_base32hex_tolower (c : Nat) : in_base32hex (tolower c) ↔ in_base32hex c := by
  rw [← base32hex_char_value_nonneg_iff, ← base32hex_char_value_nonneg_iff,
    base32hex_char_value_tolower]

theorem symbol_value_lt (c : Nat) : symbol_value c < 32 := by
  have := base32hex_char_value_lt c
  unfold symbol_value
  omega

theorem tolower_idem (c : Nat) : tolower (tolower c) = tolower c := by
  unfold tolower
  split_ifs <;> omega

theorem tolower_eq_iff_of_nonletter (c k : Nat) (hk : ¬ (97 ≤ k ∧ k ≤ 122))
    (hk' : ¬ (65 ≤ k ∧ k ≤ 90)) : tolower c = k ↔ c = k := by
  unfold tolower
  split_ifs <;> constructor <;> intro h <;> omega

theorem is_subdomain_char_ne (c : Nat) (h : is_subdomain_char c = true) : c ≠ 0 ∧ c ≠ 46 := by
  unfold is_subdomain_char tolower at h
  simp only [Bool.or_eq_true, Bool.and_eq_true, decide_eq_true_eq, beq_iff_eq] at h
  split_ifs at h <;> constructor <;> omega

theorem is_subdomain_char_tolower (c : Nat) :
    is_subdomain_char (tolower c) = is_subdomain_char c := by
  unfold is_subdomain_char
  simp only [tolower_idem]

theorem is_base32hex_char_tolower (c : Nat) :
    is_base32hex_char (tolower c) = is_base32hex_char c := by
  unfold is_base32hex_char
  rw [tolower_idem]

theorem is_zbase32_char_tolower (c : Nat) :
    is_zbase32_char (tolower c) = is_zbase32_char c := by
  unfold is_zbase32_char
  rw [tolower_idem]

theorem in_zbase32_tolower (c : Nat) : in_zbase32 (tolower c) ↔ in_zbase32 c := by
  unfold in_zbase32
  rw [tolower_idem]

theorem tolower_swap_case (c : Nat) : tolower (swap_case c) = tolower c := by
  unfold swap_case tolower
  split_ifs <;> omega

theorem switch_case_length (mask : List Bool) : ∀ text : List Nat,
    (switch_case mask text).length = text.length := by
  induction mask with
  | nil => intro text; rfl
  | cons b bs ih =>
    intro text
    cases text with
    | nil => rfl
    | cons c cs => simp only [switch_case, List.length_cons, ih cs]

theorem switch_case_getD (mask : List Bool) : ∀ (text : List Nat) (i : Nat),
    tolower ((switch_case mask text).getD i 0) = tolower (text.getD i 0) := by
  induction mask with
  | nil => intro text i; rfl
  | cons b bs ih =>
    intro text i
    cases text with
    | nil => rfl
    | cons c cs =>
      cases i with
      | zero =>
        simp only [switch_case, List.getD_cons_zero]
        split_ifs
        · exact tolower_swap_case c
        · rfl
      | succ i =>
        simp only [switch_case, List.getD_cons_succ]
        exact ih cs i

theorem is_subdomain_char_iff (c : Nat) :
    is_subdomain_char c = true ↔
      (48 ≤ c ∧ c ≤ 57) ∨ (97 ≤ c ∧ c ≤ 122) ∨ (65 ≤ c ∧ c ≤ 90) ∨ c = 45 ∨ c = 95 := by
  unfold is_subdomain_char tolower
  simp only [Bool.or_eq_true, Bool.and_eq_true, decide_eq_true_eq, beq_iff_eq]
  split_ifs <;> constructor <;> intro h <;> omega

theorem in_zbase32_subdomain_char (c : Nat) (h : in_zbase32 c) : is_subdomain_char c = true := by
  have key : ∀ x ∈ zbase32_symbols, is_subdomain_char x = true := by decide
  rw [← is_subdomain_char_tolower]
  exact key _ h

theorem in_base32hex_subdomain_char (c : Nat) (h : in_base32hex c) :
    is_subdomain_char c = true := by
  rw [is_subdomain_char_iff]
  unfold in_base32hex at h
  omega

/-- The test of the nonce loop of `find_subdomain_start`, which the NUL byte passes. -/
theorem nonce_test_iff (c : Nat) :
    (!(!is_zbase32_char (tolower c) && tolower c != 45 && tolower c != 95)) = true
      ↔ c = 0 ∨ in_zbase32 c ∨ c = 45 ∨ c = 95 := by
  have e45 := tolower_eq_iff_of_nonletter c 45 (by omega) (by omega)
  have e95 := tolower_eq_iff_of_nonletter c 95 (by omega) (by omega)
  rw [is_zbase32_char_tolower]
  cases hz : is_zbase32_char c
  · have hz' : ¬ (c = 0 ∨ in_zbase32 c) := by
      rw [← is_zbase32_char_iff, hz]
      decide
    simp only [Bool.not_false, Bool.true_and, Bool.not_eq_true', Bool.and_eq_false_imp,
      bne_iff_ne, ne_eq, bne_eq_false_iff_eq]
    constructor
    · intro hh
      by_cases h45 : tolower c = 45
      · exact Or.inr (Or.inr (Or.inl (e45.1 h45)))
      · exact Or.inr (Or.inr (Or.inr (e95.1 (hh h45))))
    · rintro (h | h | h | h) hn
      · exact absurd (Or.inl h) hz'
      · exact absurd (Or.inr h) hz'
      · exact absurd (e45.2 h) hn
      · exact e95.2 h
  · have hz' := (is_zbase32_char_iff c).1 hz
    simp only [Bool.not_true, Bool.false_and, Bool.not_false, true_iff]
    rcases hz' with h | h
    · exact Or.inl h
    · exact Or.inr (Or.inl h)

theorem nonce_test_chars (c : Nat)
    (h : (!(!is_zbase32_char (tolower c) && tolower c != 45 && tolower c != 95)) = true) :
    c ≠ 46 ∧ (c = 0 ∨ is_subdomain_char c = true) := by
  rcases (nonce_test_iff c).1 h with e | e | e | e
  · subst e; exact ⟨by decide, Or.inl rfl⟩
  · have hs := in_zbase32_subdomain_char c e
    exact ⟨(is_subdomain_char_ne c hs).2, Or.inr hs⟩
  · subst e; exact ⟨by decide, Or.inr (by decide)⟩
  · subst e; exact ⟨by decide, Or.inr (by decide)⟩

theorem base32hex_test_chars (c : Nat) (h : is_base32hex_char c = true) :
    c ≠ 46 ∧ (c = 0 ∨ is_subdomain_char c = true) := by
  rcases (is_base32hex_char_iff c).1 h with e | e
  · subst e; exact ⟨by decide, Or.inl rfl⟩
  · have hs := in_base32hex_subdomain_char c e
    exact ⟨(is_subdomain_char_ne c hs).2, Or.inr hs⟩

/-! ## base32hex_decode -/

theorem extract_bytes_succ (fuel : Nat) (st : decode_state) :
    extract_bytes (fuel + 1) st =
      if 8 ≤ st.bit_count ∧ st.output.length < 12 then
        extract_bytes fuel
          { bit_buffer := st.bit_buffer
            bit_count := st.bit_count - 8
            output := st.output ++ [(st.bit_buffer >>> (st.bit_count - 8)) &&& 0xFF] }
      else st := rfl

theorem extract_bytes_idle (fuel : Nat) (st : decode_state) (h : st.bit_count < 8) :
    extract_bytes fuel st = st := by
  cases fuel with
  | zero => rfl
  | succ n =>
    have : ¬ (8 ≤ st.bit_count ∧ st.output.length < 12) := by omega
    rw [extract_bytes_succ, if_neg this]

theorem decode_loop_ok_iff (cs : List Nat) : ∀ st : decode_state,
    (decode_loop cs st).1 = true ↔ ∀ c ∈ cs, in_base32hex c := by
  induction cs with
  | nil => intro st; simp [decode_loop]
  | cons c rest ih =>
    intro st
    by_cases hc : base32hex_char_value c < 0
    · have hn : ¬ in_base32hex c := by
        rw [← base32hex_char_value_nonneg_iff]; omega
      simp [decode_loop, hc, hn]
    · have hy : in_base32hex c := by
        rw [← base32hex_char_value_nonneg_iff]; omega
      simp only [decode_loop, hc, if_false, ih, List.mem_cons, forall_eq_or_imp, hy, true_and]

theorem and_255 (x : Nat) : x &&& 255 = x % 256 := Nat.and_pow_two_sub_one_eq_mod x 8

theorem push_symbol (B v : Nat) (hv : v < 32) :
    ((B % 2 ^ 64) <<< 5 ||| v) % 2 ^ 64 = (B * 32 + v) % 2 ^ 64 := by
  have h := Nat.mul_add_lt_is_or (i := 5) (b := v) (by omega) (B % 2 ^ 64)
  rw [Nat.shiftLeft_eq, Nat.mul_comm, ← h]
  omega

theorem old_byte_kept (P v e : Nat) (hv : v < 32) :
    (P * 32 + v) / 2 ^ (e + 5) = P / 2 ^ e := by
  rw [Nat.pow_add, Nat.mul_comm (2 ^ e), ← Nat.div_div_eq_div_mul]
  congr 1
  omega

theorem new_byte_read (Q r : Nat) (hr : r < 5) :
    (Q % 2 ^ 64) >>> r &&& 255 = Q / 2 ^ r % 256 := by
  rw [and_255, Nat.shiftRight_eq_div_pow]
  interval_cases r <;> omega

theorem extract_bytes_step (i P v : Nat) (out : List Nat) (hi : i < 20) (hv : v < 32)
    (hlen : out.length = 5 * i / 8)
    (hout : ∀ k, k < out.length → out.getD k 0 = P / 2 ^ (5 * i - 8 * (k + 1)) % 256) :
    ∃ out', extract_bytes (5 * i % 8 + 5)
        { bit_buffer := (P * 32 + v) % 2 ^ 64, bit_count := 5 * i % 8 + 5, output := out }
      = { bit_buffer := (P * 32 + v) % 2 ^ 64, bit_count := 5 * (i + 1) % 8, output := out' }
      ∧ out'.length = 5 * (i + 1) / 8
      ∧ ∀ k, k < out'.length →
          out'.getD k 0 = (P * 32 + v) / 2 ^ (5 * (i + 1) - 8 * (k + 1)) % 256 := by
  have hkeep : ∀ k, k < out.length →
      out.getD k 0 = (P * 32 + v) / 2 ^ (5 * (i + 1) - 8 * (k + 1)) % 256 := by
    intro k hk
    have he : 5 * (i + 1) - 8 * (k + 1) = (5 * i - 8 * (k + 1)) + 5 := by omega
    rw [he, old_byte_kept P v _ hv]
    exact hout k hk
  by_cases h8 : 8 ≤ 5 * i % 8 + 5
  · refine ⟨out ++ [((P * 32 + v) % 2 ^ 64) >>> (5 * i % 8 + 5 - 8) &&& 255], ?_, ?_, ?_⟩
    · have hc : 8 ≤ 5 * i % 8 + 5 ∧ out.length < 12 := ⟨h8, by omega⟩
      have hb : 5 * i % 8 + 5 - 8 = 5 * (i + 1) % 8 := by omega
      show extract_bytes ((5 * i % 8 + 4) + 1) _ = _
      rw [extract_bytes_succ, if_pos hc, extract_bytes_idle _ _ (by simp only; omega)]
      simp only [hb]
    · simp only [List.length_append, List.length_singleton]
      omega
    · intro k hk
      simp only [List.length_append, List.length_singleton] at hk
      by_cases hkl : k < out.length
      · rw [List.getD_append _ _ _ _ hkl]
        exact hkeep k hkl
      · have hk' : k = out.length := by omega
        subst hk'
        rw [List.getD_append_right _ _ _ _ (Nat.le_refl _)]
        simp only [Nat.sub_self, List.getD_cons_zero]
        have he : 5 * (i + 1) - 8 * (out.length + 1) = 5 * i % 8 + 5 - 8 := by omega
        rw [he]
        exact new_byte_read _ _ (by omega)
  · refine ⟨out, ?_, ?_, ?_⟩
    · have hb : 5 * i % 8 + 5 = 5 * (i + 1) % 8 := by omega
      rw [extract_bytes_idle _ _ (by simp only; omega)]
      simp only [hb]
    · omega
    · exact hkeep

theorem decode_loop_cons (c : Nat) (rest : List Nat) (st : decode_state) :
    decode_loop (c :: rest) st =
      if base32hex_char_value c < 0 then (false, st)
      else decode_loop rest
        (extract_bytes (st.bit_count + 5)
          { bit_buffer := ((st.bit_buffer <<< 5) ||| (base32hex_char_value c).toNat) % 2 ^ 64
            bit_count := st.bit_count + 5
            output := st.output }) := rfl

theorem decode_loop_inv (cs : List Nat) : ∀ (i P : Nat) (out : List Nat),
    i + cs.length ≤ 20 → (∀ c ∈ cs, in_base32hex c) →
    out.length = 5 * i / 8 →
    (∀ k, k < out.length → out.getD k 0 = P / 2 ^ (5 * i - 8 * (k + 1)) % 256) →
    ∃ out', decode_loop cs { bit_buffer := P % 2 ^ 64, bit_count := 5 * i % 8, output := out }
        = (true, { bit_buffer := cs.foldl (fun a c => a * 32 + symbol_value c) P % 2 ^ 64
                   bit_count := 5 * (i + cs.length) % 8
                   output := out' })
      ∧ out'.length = 5 * (i + cs.length) / 8
      ∧ ∀ k, k < out'.length →
          out'.getD k 0 = cs.foldl (fun a c => a * 32 + symbol_value c) P
                            / 2 ^ (5 * (i + cs.length) - 8 * (k + 1)) % 256 := by
  induction cs with
  | nil =>
    intro i P out _ _ hlen hout
    exact ⟨out, rfl, hlen, hout⟩
  | cons c rest ih =>
    intro i P out hi hcs hlen hout
    have hc : in_base32hex c := hcs c (List.mem_cons_self _ _)
    have hv : ¬ base32hex_char_value c < 0 := by
      have := (base32hex_char_value_nonneg_iff c).2 hc
      omega
    have hlt := symbol_value_lt c
    simp only [List.length_cons] at hi
    obtain ⟨out1, h1, hlen1, hout1⟩ :=
      extract_bytes_step i P (symbol_value c) out (by omega) hlt hlen hout
    obtain ⟨out2, h2, hlen2, hout2⟩ :=
      ih (i + 1) (P * 32 + symbol_value c) out1 (by omega)
        (fun x hx => hcs x (List.mem_cons_of_mem _ hx)) hlen1 hout1
    refine ⟨out2, ?_, ?_, ?_⟩
    · rw [decode_loop_cons, if_neg hv]
      simp only []
      have hp := push_symbol P (symbol_value c) hlt
      unfold symbol_value at hp h1
      rw [hp, h1]
      have h2' := h2
      unfold symbol_value at h2'
      rw [h2']
      simp only [List.foldl_cons, List.length_cons, symbol_value]
      have e : i + 1 + rest.length = i + (rest.length + 1) := by omega
      rw [e]
    · simp only [List.length_cons]
      have e : i + (rest.length + 1) = i + 1 + rest.length := by omega
      rw [e]; exact hlen2
    · intro k hk
      simp only [List.length_cons, List.foldl_cons]
      have e : i + (rest.length + 1) = i + 1 + rest.length := by omega
      rw [e]; exact hout2 k hk

theorem foldl_eq_sum (f : Nat → Nat) (d : Nat) (cs : List Nat) : ∀ P : Nat,
    cs.foldl (fun a c => a * 32 + f c) P
      = P * 32 ^ cs.length
        + ((List.range cs.length).map
            (fun i => f (cs.getD i d) * 32 ^ (cs.length - 1 - i))).sum := by
  induction cs with
  | nil => intro P; simp
  | cons c rest ih =>
    intro P
    rw [List.foldl_cons, ih, List.length_cons, List.range_succ_eq_map, List.map_cons,
      List.sum_cons, List.map_map]
    have e : (fun i => f ((c :: rest).getD i d) * 32 ^ (rest.length + 1 - 1 - i)) ∘ Nat.succ
        = fun i => f (rest.getD i d) * 32 ^ (rest.length - 1 - i) := by
      funext i
      simp only [Function.comp, Nat.succ_eq_add_one, List.getD_cons_succ]
      congr 2
      omega
    rw [e]
    simp only [List.getD_cons_zero, Nat.add_sub_cancel, Nat.sub_zero]
    ring

theorem foldl_eq_preamble_number (p : List Nat) (h : p.length = 20) :
    p.foldl (fun a c => a * 32 + symbol_value c) 0 = preamble_number p := by
  rw [foldl_eq_sum symbol_value 0 p 0, h]
  simp [preamble_number]

theorem base32hex_decode_valid (p : List Nat) (hlen : p.length = 20)
    (hp : ∀ c ∈ p, in_base32hex c) :
    ∃ out, base32hex_decode p = { ret := 0, output := out, output_len := 12 }
      ∧ out.length = 12
      ∧ ∀ k, k < 12 → out.getD k 0 = preamble_number p / 2 ^ (92 - 8 * k) % 256 := by
  obtain ⟨out, h, hl, ho⟩ := decode_loop_inv p 0 0 [] (by omega) hp (by simp) (by simp)
  rw [foldl_eq_preamble_number p hlen, hlen] at h ho
  rw [hlen] at hl
  have hl12 : out.length = 12 := by omega
  refine ⟨out, ?_, hl12, ?_⟩
  · unfold base32hex_decode
    have h' : decode_loop p { bit_buffer := 0, bit_count := 0, output := [] }
        = (true, { bit_buffer := preamble_number p % 2 ^ 64
                   bit_count := 5 * (0 + 20) % 8, output := out }) := h
    simp only [hlen, ne_eq, not_true_eq_false, if_false, h', hl12]
  · intro k hk
    have := ho k (by omega)
    have e : 5 * (0 + 20) - 8 * (k + 1) = 92 - 8 * k := by omega
    rw [e] at this
    exact this

theorem base32hex_decode_invalid (p : List Nat)
    (h : ¬ (p.length = 20 ∧ ∀ c ∈ p, in_base32hex c)) :
    (base32hex_decode p).ret = -1 ∧ (base32hex_decode p).output_len = 0 := by
  unfold base32hex_decode
  by_cases hlen : p.length = 20
  · have hbad : ¬ ∀ c ∈ p, in_base32hex c := fun hall => h ⟨hlen, hall⟩
    have hf : (decode_loop p { bit_buffer := 0, bit_count := 0, output := [] }).1 = false := by
      have := decode_loop_ok_iff p { bit_buffer := 0, bit_count := 0, output := [] }
      cases hd : (decode_loop p { bit_buffer := 0, bit_count := 0, output := [] }).1
      · rfl
      · exact absurd (this.1 hd) hbad
    simp only [hlen, ne_eq, not_true_eq_false, if_false]
    rcases hd : decode_loop p { bit_buffer := 0, bit_count := 0, output := [] } with ⟨ok, st⟩
    rw [hd] at hf
    simp only at hf
    subst hf
    exact ⟨rfl, rfl⟩
  · simp only [ne_eq, hlen, not_false_eq_true, if_true, and_self]

theorem base32hex_decode_output_lt (p : List Nat) (hlen : p.length = 20)
    (hp : ∀ c ∈ p, in_base32hex c) :
    ∀ x ∈ (base32hex_decode p).output, x < 256 := by
  obtain ⟨out, h, hl, ho⟩ := base32hex_decode_valid p hlen hp
  rw [h]
  intro x hx
  obtain ⟨k, hk, rfl⟩ := List.getElem_of_mem hx
  simp only at hk
  have := ho k (by omega)
  rw [List.getD_eq_getElem _ _ hk] at this
  rw [this]
  exact Nat.mod_lt _ (by norm_num)

theorem base32hex_decode_tolower (p : List Nat) :
    base32hex_decode (p.map tolower) = base32hex_decode p := by
  have hl : ∀ (cs : List Nat) (st : decode_state),
      decode_loop (cs.map tolower) st = decode_loop cs st := by
    intro cs
    induction cs with
    | nil => intro st; rfl
    | cons c rest ih =>
      intro st
      rw [List.map_cons, decode_loop_cons, decode_loop_cons, base32hex_char_value_tolower, ih]
  unfold base32hex_decode
  rw [hl, List.length_map]

theorem list_eq_of_getD (l1 l2 : List Nat) (n : Nat) (h1 : l1.length = n) (h2 : l2.length = n)
    (h : ∀ k, k < n → l1.getD k 0 = l2.getD k 0) : l1 = l2 := by
  apply List.ext_getElem (by omega)
  intro k hk1 hk2
  have := h k (by omega)
  rwa [List.getD_eq_getElem _ _ hk1, List.getD_eq_getElem _ _ hk2] at this

theorem preamble_number_lt (p : List Nat) : preamble_number p < 2 ^ 100 := by
  have h : ∀ i, symbol_value (p.getD i 0) < 32 := fun i => symbol_value_lt _
  have h0 := h 0; have h1 := h 1; have h2 := h 2; have h3 := h 3; have h4 := h 4
  have h5 := h 5; have h6 := h 6; have h7 := h 7; have h8 := h 8; have h9 := h 9
  have h10 := h 10; have h11 := h 11; have h12 := h 12; have h13 := h 13; have h14 := h 14
  have h15 := h 15; have h16 := h 16; have h17 := h 17; have h18 := h 18; have h19 := h 19
  simp only [preamble_number, List.range, List.range.loop, List.map_cons, List.map_nil,
    List.sum_cons, List.sum_nil, Nat.reduceSub, Nat.reducePow]
  omega

theorem symbol_spec : ∀ v, v < 32 →
    in_base32hex (base32hex_symbol v) ∧ symbol_value (base32hex_symbol v) = v
      ∧ base32hex_symbol v ∈ bytes "0123456789abcdefghijklmnopqrstuv" := by
  decide

theorem symbol_of_value (c : Nat) (hc : in_base32hex c) :
    base32hex_symbol (symbol_value c) = tolower c := by
  have e : BASE32HEX_ALPHABET =
    [48, 49, 50, 51, 52, 53, 54, 55, 56, 57, 97, 98, 99, 100, 101, 102, 103, 104, 105, 106,
     107, 108, 109, 110, 111, 112, 113, 114, 115, 116, 117, 118, 0] := by decide
  unfold base32hex_symbol symbol_value base32hex_char_value tolower in_base32hex at *
  rw [e]
  rcases hc with h | h | h
  · obtain ⟨h1, h2⟩ := h
    interval_cases c <;> rfl
  · obtain ⟨h1, h2⟩ := h
    interval_cases c <;> rfl
  · obtain ⟨h1, h2⟩ := h
    interval_cases c <;> rfl

theorem list_of_length_12 (b : List Nat) (h : b.length = 12) :
    ∃ b0 b1 b2 b3 b4 b5 b6 b7 b8 b9 b10 b11 : Nat, b = [b0, b1, b2, b3, b4, b5, b6, b7, b8, b9, b10, b11] := by
  rcases b with _ | ⟨b0, b⟩
  · simp at h
  rcases b with _ | ⟨b1, b⟩
  · simp at h
  rcases b with _ | ⟨b2, b⟩
  · simp at h
  rcases b with _ | ⟨b3, b⟩
  · simp at h
  rcases b with _ | ⟨b4, b⟩
  · simp at h
  rcases b with _ | ⟨b5, b⟩
  · simp at h
  rcases b with _ | ⟨b6, b⟩
  · simp at h
  rcases b with _ | ⟨b7, b⟩
  · simp at h
  rcases b with _ | ⟨b8, b⟩
  · simp at h
  rcases b with _ | ⟨b9, b⟩
  · simp at h
  rcases b with _ | ⟨b10, b⟩
  · simp at h
  rcases b with _ | ⟨b11, b⟩
  · simp at h
  rcases b with _ | ⟨x, b⟩
  · exact ⟨b0, b1, b2, b3, b4, b5, b6, b7, b8, b9, b10, b11, rfl⟩
  · simp only [List.length_cons] at h
    omega

theorem base32hex_encode_length (b : List Nat) : (base32hex_encode b).length = 20 := by
  simp [base32hex_encode]

theorem base32hex_encode_mem (b : List Nat) :
    ∀ c ∈ base32hex_encode b,
      in_base32hex c ∧ c ∈ bytes "0123456789abcdefghijklmnopqrstuv" := by
  intro c hc
  simp only [base32hex_encode, List.mem_map] at hc
  obtain ⟨i, _, rfl⟩ := hc
  have h := symbol_spec (be_number b * 16 / 32 ^ (19 - i) % 32) (Nat.mod_lt _ (by norm_num))
  exact ⟨h.1, h.2.2⟩

theorem digits_sum (N : Nat) : ∀ n : Nat,
    ((List.range n).map (fun i => N / 32 ^ (n - 1 - i) % 32 * 32 ^ (n - 1 - i))).sum
      = N % 32 ^ n := by
  intro n
  induction n with
  | zero => simp [Nat.mod_one]
  | succ n ih =>
    rw [List.range_succ_eq_map, List.map_cons, List.sum_cons, List.map_map]
    have e : (fun i => N / 32 ^ (n + 1 - 1 - i) % 32 * 32 ^ (n + 1 - 1 - i)) ∘ Nat.succ
        = fun i => N / 32 ^ (n - 1 - i) % 32 * 32 ^ (n - 1 - i) := by
      funext i
      simp only [Function.comp, Nat.succ_eq_add_one]
      have : n + 1 - 1 - (i + 1) = n - 1 - i := by omega
      rw [this]
    rw [e, ih, Nat.mod_pow_succ]
    simp only [Nat.add_sub_cancel, Nat.sub_zero]
    ring

theorem getD_map_range (f : Nat → Nat) (n i : Nat) (hi : i < n) :
    ((List.range n).map f).getD i 0 = f i := by
  rw [List.getD_eq_getElem _ _ (by simpa using hi)]
  simp

theorem preamble_number_encode (b : List Nat) (h : be_number b < 2 ^ 96) :
    preamble_number (base32hex_encode b) = be_number b * 16 := by
  have hs : ∀ x, symbol_value (base32hex_symbol (x % 32)) = x % 32 :=
    fun x => (symbol_spec (x % 32) (Nat.mod_lt _ (by norm_num))).2.1
  have hm : (List.range 20).map
        (fun i => symbol_value ((base32hex_encode b).getD i 0) * 32 ^ (19 - i))
      = (List.range 20).map
        (fun i => be_number b * 16 / 32 ^ (20 - 1 - i) % 32 * 32 ^ (20 - 1 - i)) := by
    apply List.map_congr_left
    intro i hi
    rw [List.mem_range] at hi
    unfold base32hex_encode
    rw [getD_map_range _ 20 i hi, hs]
  unfold preamble_number
  rw [hm, digits_sum (be_number b * 16) 20]
  apply Nat.mod_eq_of_lt
  norm_num at h ⊢
  omega

theorem be_number_decode (b : List Nat) (hlen : b.length = 12) (hb : ∀ x ∈ b, x < 256) :
    be_number b < 2 ^ 96 ∧
    ∀ k, k < 12 → be_number b * 16 / 2 ^ (92 - 8 * k) % 256 = b.getD k 0 := by
  obtain ⟨b0, b1, b2, b3, b4, b5, b6, b7, b8, b9, b10, b11, rfl⟩ := list_of_length_12 b hlen
  have h0 : b0 < 256 := hb b0 (by simp)
  have h1 : b1 < 256 := hb b1 (by simp)
  have h2 : b2 < 256 := hb b2 (by simp)
  have h3 : b3 < 256 := hb b3 (by simp)
  have h4 : b4 < 256 := hb b4 (by simp)
  have h5 : b5 < 256 := hb b5 (by simp)
  have h6 : b6 < 256 := hb b6 (by simp)
  have h7 : b7 < 256 := hb b7 (by simp)
  have h8 : b8 < 256 := hb b8 (by simp)
  have h9 : b9 < 256 := hb b9 (by simp)
  have h10 : b10 < 256 := hb b10 (by simp)
  have h11 : b11 < 256 := hb b11 (by simp)
  simp only [be_number, List.foldl_cons, List.foldl_nil]
  refine ⟨by omega, ?_⟩
  intro k hk
  interval_cases k <;>
    simp only [List.getD_cons_zero, List.getD_cons_succ, Nat.reduceSub, Nat.reducePow,
      Nat.reduceMul] <;> omega

theorem base32hex_decode_encode (b : List Nat) (hlen : b.length = 12)
    (hb : ∀ x ∈ b, x < 256) :
    base32hex_decode (base32hex_encode b) = { ret := 0, output := b, output_len := 12 } := by
  obtain ⟨hM, hk⟩ := be_number_decode b hlen hb
  obtain ⟨out, h, hl, ho⟩ := base32hex_decode_valid (base32hex_encode b)
    (base32hex_encode_length b) (fun c hc => (base32hex_encode_mem b c hc).1)
  rw [preamble_number_encode b hM] at ho
  have : out = b := list_eq_of_getD out b 12 hl hlen (fun k hk' => by rw [ho k hk', hk k hk'])
  rw [h, this]

/-- C4: `base32hex_decode` returns 0 exactly for a 20-byte input over `0-9`,
`a-v`, `A-V`; on success it reports 12 output bytes, and on every failure it
returns -1 and reports output length 0. -/
theorem base32hex_decode_succeeds_iff (input : List Nat) :
    ((base32hex_decode input).ret = 0 ↔ input.length = 20 ∧ ∀ c ∈ input, in_base32hex c)
    ∧ ((base32hex_decode input).ret = 0 →
        (base32hex_decode input).output_len = 12 ∧ (base32hex_decode input).output.length = 12)
    ∧ ((base32hex_decode input).ret ≠ 0 →
        (base32hex_decode input).ret = -1 ∧ (base32hex_decode input).output_len = 0) := by
  by_cases h : input.length = 20 ∧ ∀ c ∈ input, in_base32hex c
  · obtain ⟨out, hd, hl, _⟩ := base32hex_decode_valid input h.1 h.2
    rw [hd]
    simp only [hl, h.1, ne_eq, not_true_eq_false, and_self, implies_true, true_and, false_implies,
      and_true, true_iff]
    exact h.2
  · obtain ⟨h1, h2⟩ := base32hex_decode_invalid input h
    rw [h1, h2]
    simp [h]

/-- C5: for a 20-character string over the base32hex alphabet, whose symbol
values are below 32 and the same in both letter cases, with `N` the 100-bit
number they spell, decoding succeeds with 12 bytes and byte `k` is
`N / 2 ^ (92 - 8 k) mod 256`, the big-endian form of `N / 16`: the 64-bit
accumulator of the code loses nothing. -/
theorem base32hex_decode_bytes_of_number (p : List Nat) (hlen : p.length = 20)
    (hp : ∀ c ∈ p, in_base32hex c) :
    (∀ c ∈ p, symbol_value c < 32 ∧ symbol_value (tolower c) = symbol_value c
        ∧ base32hex_symbol (symbol_value c) = tolower c)
    ∧ preamble_number p < 2 ^ 100
    ∧ (base32hex_decode p).ret = 0
    ∧ (base32hex_decode p).output.length = 12
    ∧ ∀ k, k < 12 →
        (base32hex_decode p).output.getD k 0 = preamble_number p / 2 ^ (92 - 8 * k) % 256
        ∧ (base32hex_decode p).output.getD k 0
            = preamble_number p / 16 / 256 ^ (11 - k) % 256 := by
  obtain ⟨out, hd, hl, ho⟩ := base32hex_decode_valid p hlen hp
  refine ⟨?_, preamble_number_lt p, by rw [hd], by rw [hd]; exact hl, ?_⟩
  · intro c hc
    refine ⟨symbol_value_lt c, ?_, symbol_of_value c (hp c hc)⟩
    unfold symbol_value
    rw [base32hex_char_value_tolower]
  · intro k hk
    rw [hd]
    refine ⟨ho k hk, ?_⟩
    rw [ho k hk]
    generalize preamble_number p = N
    interval_cases k <;> simp only [Nat.reduceSub, Nat.reducePow, Nat.reduceMul] <;> omega

/-- A witness for C5: the preamble `bst1o05anf609kg004m0`. -/
theorem base32hex_decode_bytes_of_number_witness :
    (base32hex_decode (bytes "bst1o05anf609kg004m0")).output.getD 0 0
      = preamble_number (bytes "bst1o05anf609kg004m0") / 2 ^ (92 - 8 * 0) % 256 :=
  ((base32hex_decode_bytes_of_number (bytes "bst1o05anf609kg004m0")
    (by decide) (by decide)).2.2.2.2 0 (by decide)).1

/-- C6: decoding the unpadded RFC 4648 base32hex encoding of 12 bytes gives the
12 bytes back, and a valid preamble (20 characters of `0-9`, `a-v`, `A-V`)
decodes to bytes whose encoding decodes to the same bytes. -/
theorem base32hex_round_trip (b p : List Nat) (hlen : b.length = 12)
    (hb : ∀ x ∈ b, x < 256) (hplen : p.length = 20) (hp : ∀ c ∈ p, in_base32hex c) :
    (base32hex_encode b).length = 20
    ∧ (∀ c ∈ base32hex_encode b, c ∈ bytes "0123456789abcdefghijklmnopqrstuv")
    ∧ base32hex_decode (base32hex_encode b) = { ret := 0, output := b, output_len := 12 }
    ∧ (base32hex_decode p).ret = 0
    ∧ base32hex_decode (base32hex_encode (base32hex_decode p).output) = base32hex_decode p := by
  obtain ⟨out, hd, hl, _⟩ := base32hex_decode_valid p hplen hp
  refine ⟨base32hex_encode_length b, fun c hc => (base32hex_encode_mem b c hc).2,
    base32hex_decode_encode b hlen hb, by rw [hd], ?_⟩
  have hlt := base32hex_decode_output_lt p hplen hp
  rw [hd] at hlt ⊢
  exact base32hex_decode_encode out hl hlt

/-- A witness for C6: the bytes `5F 3A 1C 00 AA BB CC 04 D2 00 01 2C` and the
preamble `bst1o05anf609kg004m0`. -/
theorem base32hex_round_trip_witness :
    base32hex_decode
        (base32hex_encode [0x5F, 0x3A, 0x1C, 0x00, 0xAA, 0xBB, 0xCC, 0x04, 0xD2, 0x00, 0x01, 0x2C])
      = { ret := 0
          output := [0x5F, 0x3A, 0x1C, 0x00, 0xAA, 0xBB, 0xCC, 0x04, 0xD2, 0x00, 0x01, 0x2C]
          output_len := 12 } :=
  (base32hex_round_trip [0x5F, 0x3A, 0x1C, 0x00, 0xAA, 0xBB, 0xCC, 0x04, 0xD2, 0x00, 0x01, 0x2C]
    (bytes "bst1o05anf609kg004m0") (by decide) (by decide) (by decide) (by decide)).2.2.1

/-! ## base32hex_decode: which preambles decode alike -/

theorem eq_of_digits (b : Nat) : ∀ (n M M' : Nat), M < b ^ n → M' < b ^ n →
    (∀ k, k < n → M / b ^ k % b = M' / b ^ k % b) → M = M' := by
  intro n
  induction n with
  | zero =>
    intro M M' h h' _
    simp only [Nat.pow_zero] at h h'
    omega
  | succ n ih =>
    intro M M' h h' hk
    have hq : M / b = M' / b := by
      apply ih
      · exact Nat.div_lt_of_lt_mul (by rw [Nat.pow_succ, Nat.mul_comm] at h; exact h)
      · exact Nat.div_lt_of_lt_mul (by rw [Nat.pow_succ, Nat.mul_comm] at h'; exact h')
      · intro k hk'
        have := hk (k + 1) (by omega)
        rw [Nat.pow_succ, Nat.mul_comm, ← Nat.div_div_eq_div_mul,
          ← Nat.div_div_eq_div_mul] at this
        exact this
    have hr : M % b = M' % b := by
      have := hk 0 (by omega)
      simpa using this
    rw [← Nat.div_add_mod M b, ← Nat.div_add_mod M' b, hq, hr]

theorem foldl_snoc_digit (cs : List Nat) : ∀ i, i < cs.length →
    cs.foldl (fun a c => a * 32 + symbol_value c) 0 / 32 ^ (cs.length - 1 - i) % 32
      = symbol_value (cs.getD i 0) := by
  induction cs using List.reverseRecOn with
  | nil => intro i hi; simp at hi
  | append_singleton cs c ih =>
    intro i hi
    simp only [List.length_append, List.length_singleton] at hi ⊢
    rw [List.foldl_append]
    simp only [List.foldl_cons, List.foldl_nil]
    have hc := symbol_value_lt c
    by_cases h : i < cs.length
    · have e : cs.length + 1 - 1 - i = (cs.length - 1 - i) + 1 := by omega
      have e3 : 32 ^ (cs.length - 1 - i + 1) = 32 * 32 ^ (cs.length - 1 - i) := by
        rw [Nat.pow_succ, Nat.mul_comm]
      rw [e, e3, ← Nat.div_div_eq_div_mul]
      have e2 : (cs.foldl (fun a c => a * 32 + symbol_value c) 0 * 32 + symbol_value c) / 32
          = cs.foldl (fun a c => a * 32 + symbol_value c) 0 := by omega
      rw [e2, ih i h, List.getD_append _ _ _ _ h]
    · have e : i = cs.length := by omega
      subst e
      rw [List.getD_append_right _ _ _ _ (Nat.le_refl _)]
      simp only [Nat.add_sub_cancel, Nat.sub_self, Nat.pow_zero, Nat.div_one,
        List.getD_cons_zero]
      omega

theorem digit_of_number (p : List Nat) (hlen : p.length = 20) : ∀ i, i < 20 →
    symbol_value (p.getD i 0) = preamble_number p / 32 ^ (19 - i) % 32 := by
  intro i hi
  have := foldl_snoc_digit p i (by omega)
  rw [foldl_eq_preamble_number p hlen, hlen] at this
  exact this.symm

theorem byte_of_sixteenth (N k : Nat) (hk : k < 12) :
    N / 2 ^ (92 - 8 * k) % 256 = N / 16 / 256 ^ (11 - k) % 256 := by
  interval_cases k <;> simp only [Nat.reduceSub, Nat.reducePow, Nat.reduceMul] <;> omega

theorem decode_eq_iff_number (p q : List Nat) (hp : p.length = 20)
    (hpc : ∀ c ∈ p, in_base32hex c) (hq : q.length = 20) (hqc : ∀ c ∈ q, in_base32hex c) :
    base32hex_decode p = base32hex_decode q ↔ preamble_number p / 16 = preamble_number q / 16 := by
  obtain ⟨op, hdp, hlp, hop⟩ := base32hex_decode_valid p hp hpc
  obtain ⟨oq, hdq, hlq, hoq⟩ := base32hex_decode_valid q hq hqc
  rw [hdp, hdq]
  constructor
  · intro h
    have ho : op = oq := by
      have := congrArg decode_result.output h
      exact this
    have hN := preamble_number_lt p
    have hN' := preamble_number_lt q
    apply eq_of_digits 256 12
    · norm_num at hN ⊢; omega
    · norm_num at hN' ⊢; omega
    · intro k hk
      have h1 := hop (11 - k) (by omega)
      have h2 := hoq (11 - k) (by omega)
      rw [byte_of_sixteenth _ _ (by omega)] at h1 h2
      have e : 11 - (11 - k) = k := by omega
      rw [e] at h1 h2
      rw [← h1, ← h2, ho]
  · intro h
    have ho : op = oq := by
      apply list_eq_of_getD op oq 12 hlp hlq
      intro k hk
      rw [hop k hk, hoq k hk, byte_of_sixteenth _ _ hk, byte_of_sixteenth _ _ hk, h]
    rw [ho]

theorem number_eq_iff_digits (p q : List Nat) (hp : p.length = 20) (hq : q.length = 20) :
    preamble_number p / 16 = preamble_number q / 16 ↔
      (∀ i, i < 19 → symbol_value (p.getD i 0) = symbol_value (q.getD i 0))
        ∧ symbol_value (p.getD 19 0) / 16 = symbol_value (q.getD 19 0) / 16 := by
  have hN := preamble_number_lt p
  have hN' := preamble_number_lt q
  have d19 := digit_of_number p hp 19 (by omega)
  have d19' := digit_of_number q hq 19 (by omega)
  simp only [Nat.sub_self, Nat.pow_zero, Nat.div_one] at d19 d19'
  constructor
  · intro h
    constructor
    · intro i hi
      rw [digit_of_number p hp i (by omega), digit_of_number q hq i (by omega)]
      have e : 32 ^ (19 - i) = 16 * (2 * 32 ^ (18 - i)) := by
        have : 19 - i = (18 - i) + 1 := by omega
        rw [this, Nat.pow_succ]
        omega
      have key : ∀ N : Nat, N / (16 * (2 * 32 ^ (18 - i))) = N / 16 / (2 * 32 ^ (18 - i)) :=
        fun N => (Nat.div_div_eq_div_mul _ _ _).symm
      rw [e, key, key, h]
    · rw [d19, d19']
      omega
  · rintro ⟨hd, h19⟩
    have hA : preamble_number p / 32 = preamble_number q / 32 := by
      apply eq_of_digits 32 19
      · norm_num at hN ⊢; omega
      · norm_num at hN' ⊢; omega
      · intro k hk
        have h1 := digit_of_number p hp (18 - k) (by omega)
        have h2 := digit_of_number q hq (18 - k) (by omega)
        have e : 19 - (18 - k) = k + 1 := by omega
        have e2 : (32 : Nat) ^ (k + 1) = 32 * 32 ^ k := by rw [Nat.pow_succ, Nat.mul_comm]
        rw [e, e2, ← Nat.div_div_eq_div_mul] at h1 h2
        rw [← h1, ← h2]
        exact hd (18 - k) (by omega)
    rw [d19, d19'] at h19
    omega

theorem lower_alphabet_mem : ∀ c ∈ bytes "0123456789abcdefghijklmnopqrstuv",
    in_base32hex c ∧ tolower c = c := by
  decide

theorem symbol_value_tolower (c : Nat) : symbol_value (tolower c) = symbol_value c := by
  unfold symbol_value
  rw [base32hex_char_value_tolower]

theorem preimage_getD (p : List Nat) (hp : p.length = 20) (u k : Nat) (hk : k < 20) :
    ((p.take 19).map tolower ++ [u]).getD k 0
      = if k < 19 then tolower (p.getD k 0) else u := by
  have hl : ((p.take 19).map tolower).length = 19 := by
    simp only [List.length_map, List.length_take]; omega
  by_cases h : k < 19
  · rw [if_pos h, List.getD_append _ _ _ _ (by omega),
      List.getD_eq_getElem _ _ (by omega), List.getD_eq_getElem _ _ (by omega)]
    simp
  · have e : k = 19 := by omega
    subst e
    rw [if_neg h, List.getD_append_right _ _ _ _ (by omega), hl]
    rfl

theorem preimage_props (p : List Nat) (hp : p.length = 20) (hpc : ∀ c ∈ p, in_base32hex c)
    (r : Nat) (hr : r < 16) :
    ((p.take 19).map tolower
        ++ [base32hex_symbol (16 * (symbol_value (p.getD 19 0) / 16) + r)]).length = 20
    ∧ (∀ c ∈ (p.take 19).map tolower
          ++ [base32hex_symbol (16 * (symbol_value (p.getD 19 0) / 16) + r)],
        c ∈ bytes "0123456789abcdefghijklmnopqrstuv")
    ∧ base32hex_decode ((p.take 19).map tolower
          ++ [base32hex_symbol (16 * (symbol_value (p.getD 19 0) / 16) + r)])
        = base32hex_decode p := by
  have hv := symbol_value_lt (p.getD 19 0)
  have hlt : 16 * (symbol_value (p.getD 19 0) / 16) + r < 32 := by omega
  obtain ⟨s1, s2, s3⟩ := symbol_spec _ hlt
  have hlen : ((p.take 19).map tolower
        ++ [base32hex_symbol (16 * (symbol_value (p.getD 19 0) / 16) + r)]).length = 20 := by
    simp only [List.length_append, List.length_map, List.length_take, List.length_singleton]
    omega
  have hmem : ∀ c ∈ (p.take 19).map tolower
          ++ [base32hex_symbol (16 * (symbol_value (p.getD 19 0) / 16) + r)],
        c ∈ bytes "0123456789abcdefghijklmnopqrstuv" := by
    intro c hc
    rcases List.mem_append.1 hc with h | h
    · rw [List.mem_map] at h
      obtain ⟨x, hx, rfl⟩ := h
      have hxp := hpc x (List.mem_of_mem_take hx)
      rw [← symbol_of_value x hxp]
      exact (symbol_spec _ (symbol_value_lt x)).2.2
    · rw [List.mem_singleton] at h
      rw [h]; exact s3
  refine ⟨hlen, hmem, ?_⟩
  rw [decode_eq_iff_number _ _ hlen (fun c hc => (lower_alphabet_mem c (hmem c hc)).1) hp hpc,
    number_eq_iff_digits _ _ hlen hp]
  constructor
  · intro i hi
    rw [preimage_getD p hp _ i (by omega), if_pos hi, symbol_value_tolower]
  · rw [preimage_getD p hp _ 19 (by omega), if_neg (by omega), s2]
    omega

/-- C29: two valid 20-character preambles decode alike exactly when they have
the same symbol value at each of the first 19 positions and their 20th symbol
values agree in the top bit; the lower-case preambles that decode like `p` are
the 16 distinct entries of `lower_preimages p`. -/
theorem base32hex_decode_injective (p q : List Nat) (hp : p.length = 20)
    (hpc : ∀ c ∈ p, in_base32hex c) (hq : q.length = 20) (hqc : ∀ c ∈ q, in_base32hex c) :
    (base32hex_decode p = base32hex_decode q ↔
        (∀ i, i < 19 → symbol_value (p.getD i 0) = symbol_value (q.getD i 0))
          ∧ symbol_value (p.getD 19 0) / 16 = symbol_value (q.getD 19 0) / 16)
    ∧ (lower_preimages p).length = 16
    ∧ (lower_preimages p).Nodup
    ∧ (∀ x ∈ lower_preimages p,
        x.length = 20 ∧ (∀ c ∈ x, c ∈ bytes "0123456789abcdefghijklmnopqrstuv")
          ∧ base32hex_decode x = base32hex_decode p)
    ∧ ((∀ c ∈ q, c ∈ bytes "0123456789abcdefghijklmnopqrstuv") →
        base32hex_decode q = base32hex_decode p → q ∈ lower_preimages p) := by
  have hiff : ∀ a b : List Nat, a.length = 20 → (∀ c ∈ a, in_base32hex c) → b.length = 20 →
      (∀ c ∈ b, in_base32hex c) →
      (base32hex_decode a = base32hex_decode b ↔
        (∀ i, i < 19 → symbol_value (a.getD i 0) = symbol_value (b.getD i 0))
          ∧ symbol_value (a.getD 19 0) / 16 = symbol_value (b.getD 19 0) / 16) := by
    intro a b ha hac hb hbc
    rw [decode_eq_iff_number a b ha hac hb hbc, number_eq_iff_digits a b ha hb]
  have hv := symbol_value_lt (p.getD 19 0)
  refine ⟨hiff p q hp hpc hq hqc, by simp [lower_preimages], ?_, ?_, ?_⟩
  · unfold lower_preimages
    apply List.Nodup.map_on _ (List.nodup_range 16)
    intro x hx y hy hxy
    rw [List.mem_range] at hx hy
    have h1 := List.append_cancel_left hxy
    rw [List.cons.injEq] at h1
    have h2 := congrArg symbol_value h1.1
    rw [(symbol_spec _ (by omega)).2.1, (symbol_spec _ (by omega)).2.1] at h2
    omega
  · intro x hx
    unfold lower_preimages at hx
    rw [List.mem_map] at hx
    obtain ⟨r, hr, rfl⟩ := hx
    rw [List.mem_range] at hr
    exact preimage_props p hp hpc r hr
  · intro hlow hdec
    obtain ⟨hd, h19⟩ := (hiff q p hq hqc hp hpc).1 hdec
    have hvq := symbol_value_lt (q.getD 19 0)
    have hq_get : ∀ k, k < 20 → q.getD k 0 = base32hex_symbol (symbol_value (q.getD k 0)) := by
      intro k hk
      have hm : q.getD k 0 ∈ q := by
        rw [List.getD_eq_getElem _ _ (by omega)]
        exact List.getElem_mem _
      rw [symbol_of_value _ (hqc _ hm), (lower_alphabet_mem _ (hlow _ hm)).2]
    unfold lower_preimages
    rw [List.mem_map]
    refine ⟨symbol_value (q.getD 19 0) % 16, List.mem_range.2 (by omega), ?_⟩
    symm
    have hlen := (preimage_props p hp hpc (symbol_value (q.getD 19 0) % 16) (by omega)).1
    apply list_eq_of_getD _ _ 20 hq hlen
    intro k hk
    rw [preimage_getD p hp _ k hk]
    by_cases h : k < 19
    · have hm : p.getD k 0 ∈ p := by
        rw [List.getD_eq_getElem _ _ (by omega)]
        exact List.getElem_mem _
      rw [if_pos h, hq_get k hk, hd k h, symbol_of_value _ (hpc _ hm)]
    · have e : k = 19 := by omega
      subst e
      rw [if_neg h]
      conv_lhs => rw [hq_get 19 hk]
      congr 1
      omega

/-- A witness for C29: `bst1o05anf609kg004m0` and `BST1O05ANF609KG004MF`, which
differ in letter case and in the low four bits of the last symbol. -/
theorem base32hex_decode_injective_witness :
    base32hex_decode (bytes "bst1o05anf609kg004m0") = base32hex_decode (bytes "BST1O05ANF609KG004MF")
    ∧ (lower_preimages (bytes "bst1o05anf609kg004m0")).length = 16 :=
  ⟨(base32hex_decode_injective (bytes "bst1o05anf609kg004m0") (bytes "BST1O05ANF609KG004MF")
      (by decide) (by decide) (by decide) (by decide)).1.2 (by decide),
   (base32hex_decode_injective (bytes "bst1o05anf609kg004m0") (bytes "BST1O05ANF609KG004MF")
      (by decide) (by decide) (by decide) (by decide)).2.1⟩

/-! ## oast_decode -/

theorem first_dot_le (input : List Nat) : first_dot input ≤ input.length := by
  induction input with
  | nil => simp [first_dot]
  | cons c rest ih =>
    unfold first_dot
    split_ifs <;> simp only [List.length_cons] <;> omega

theorem first_dot_spec (input : List Nat) :
    (∀ i, i < first_dot input → input.getD i 0 ≠ 46)
    ∧ (first_dot input < input.length → input.getD (first_dot input) 0 = 46) := by
  induction input with
  | nil => simp [first_dot]
  | cons c rest ih =>
    unfold first_dot
    by_cases hc : c = 46
    · simp [hc]
    · simp only [hc, if_false, List.length_cons, Nat.add_lt_add_iff_right, List.getD_cons_succ]
      refine ⟨?_, ih.2⟩
      intro i hi
      cases i with
      | zero => simpa using hc
      | succ j => simpa using ih.1 j (by omega)

theorem lowered_preamble (input : List Nat) (n : Nat) (hn : 20 ≤ n) :
    ((input.take n).map tolower).take 20 = (input.take 20).map tolower := by
  rw [← List.map_take, List.take_take, Nat.min_eq_left hn]

theorem forall_mem_take_iff (P : Nat → Prop) (input : List Nat) (n : Nat)
    (h : n ≤ input.length) :
    (∀ c ∈ input.take n, P c) ↔ ∀ i, i < n → P (input.getD i 0) := by
  constructor
  · intro hall i hi
    have hi' : i < input.length := by omega
    rw [List.getD_eq_getElem _ _ hi']
    apply hall
    rw [List.mem_take_iff_getElem]
    exact ⟨i, by simp [hi, hi'], rfl⟩
  · intro hall c hc
    rw [List.mem_take_iff_getElem] at hc
    obtain ⟨i, hi, rfl⟩ := hc
    have hi1 : i < n := by simp at hi; omega
    have hi2 : i < input.length := by omega
    have := hall i hi1
    rwa [List.getD_eq_getElem _ _ hi2] at this

theorem valid_preamble_of_symbols (p : List Nat) (hlen : p.length = 20)
    (hp : ∀ c ∈ p, in_base32hex c) : oast_is_valid_preamble p = true := by
  unfold oast_is_valid_preamble
  simp only [hlen, ne_eq, not_true_eq_false, if_false, List.all_eq_true]
  intro c hc
  exact (is_base32hex_char_iff c).2 (Or.inr (hp c hc))

theorem c_string_of_no_nul (b : List Nat) (h : ∀ c ∈ b, c ≠ 0) : c_string b = b := by
  unfold c_string
  rw [List.takeWhile_eq_self_iff]
  intro c hc
  simpa using h c hc

theorem c_string_no_nul (b : List Nat) : ∀ c ∈ c_string b, c ≠ 0 := by
  intro c hc
  unfold c_string at hc
  simpa using List.mem_takeWhile_imp hc

theorem c_string_initial (b : List Nat) : c_string b <+: b := by
  unfold c_string
  exact List.takeWhile_prefix _

theorem c_string_map_tolower (b : List Nat) :
    c_string (b.map tolower) = (c_string b).map tolower := by
  unfold c_string
  induction b with
  | nil => rfl
  | cons a rest ih =>
    rw [List.map_cons, List.takeWhile_cons, List.takeWhile_cons]
    by_cases h : a = 0
    · subst h
      simp [tolower]
    · have h2 : tolower a ≠ 0 := fun e => h ((tolower_eq_zero a).1 e)
      simp only [bne_iff_ne, ne_eq, h, h2, not_false_eq_true, if_true, List.map_cons, ih]

theorem c_string_append_nul (a b : List Nat) (h : ∀ c ∈ a, c ≠ 0) :
    c_string (a ++ 0 :: b) = a := by
  unfold c_string
  induction a with
  | nil => simp
  | cons x rest ih =>
    have hx : x ≠ 0 := h x (List.mem_cons_self _ _)
    rw [List.cons_append, List.takeWhile_cons]
    simp only [bne_iff_ne, ne_eq, hx, not_false_eq_true, if_true]
    rw [ih (fun c hc => h c (List.mem_cons_of_mem _ hc))]

theorem c_string_spec (b : List Nat) :
    c_string b <+: b ∧ (∀ c ∈ c_string b, c ≠ 0)
      ∧ ((c_string b).length < b.length → b.getD (c_string b).length 0 = 0) := by
  refine ⟨c_string_initial b, c_string_no_nul b, ?_⟩
  unfold c_string
  induction b with
  | nil => intro h; simp at h
  | cons a rest ih =>
    by_cases h : a = 0
    · subst h
      intro _
      simp
    · rw [List.takeWhile_cons]
      simp only [bne_iff_ne, ne_eq, h, not_false_eq_true, if_true, List.length_cons,
        List.getD_cons_succ]
      intro hlt
      exact ih (by omega)

theorem lowered_symbols_no_nul (input : List Nat) (n k : Nat) (hk : k ≤ 20)
    (hp : ∀ c ∈ input.take 20, in_base32hex c) :
    ∀ c ∈ (((input.take n).map tolower).take k), c ≠ 0 := by
  intro c hc
  rw [← List.map_take, List.take_take, List.mem_map] at hc
  obtain ⟨x, hx, rfl⟩ := hc
  have hx20 : x ∈ input.take 20 :=
    List.take_subset_take_left input (Nat.le_trans (Nat.min_le_left k n) hk) hx
  intro e
  have := hp x hx20
  rw [(tolower_eq_zero x).1 e] at this
  exact absurd this (by decide)

theorem oast_decode_success (input : List Nat) (hn : 20 ≤ first_dot input)
    (hn2 : first_dot input ≤ 255) (hp : ∀ c ∈ input.take 20, in_base32hex c) :
    oast_decode input =
      (0, { original :=
              c_string (input.take (if input.length < 255 then input.length else 255))
            timestamp := read_be32 (base32hex_decode (input.take 20)).output
            machine_id := [(base32hex_decode (input.take 20)).output.getD 4 0,
                           (base32hex_decode (input.take 20)).output.getD 5 0,
                           (base32hex_decode (input.take 20)).output.getD 6 0]
            pid := read_be16 ((base32hex_decode (input.take 20)).output.drop 7)
            counter := read_be24 ((base32hex_decode (input.take 20)).output.drop 9)
            nonce := if 20 < first_dot input ∧ first_dot input - 20 < 128 then
                c_string ((((input.take (first_dot input)).map tolower).drop 20).take
                  (first_dot input - 20))
              else []
            ksort := ((input.take (first_dot input)).map tolower).take 6
            campaign := (((input.take (first_dot input)).map tolower).drop 6).take 5
            valid := true
            error := "" }) := by
  have hle := first_dot_le input
  have hlen : (input.take 20).length = 20 := by simp; omega
  have hlen' : ((input.take 20).map tolower).length = 20 := by simp; omega
  have hp' : ∀ c ∈ (input.take 20).map tolower, in_base32hex c := by
    intro c hc
    rw [List.mem_map] at hc
    obtain ⟨x, hx, rfl⟩ := hc
    exact (in_base32hex_tolower x).2 (hp x hx)
  obtain ⟨out, hd, hl, _⟩ := base32hex_decode_valid (input.take 20) hlen hp
  have hd' := base32hex_decode_tolower (input.take 20)
  have hv := valid_preamble_of_symbols _ hlen' hp'
  have h0 : ¬ input.length = 0 := by omega
  have h1 : ¬ 256 ≤ first_dot input := by omega
  have h2 : ¬ first_dot input < 20 := by omega
  have hk : c_string (((input.take (first_dot input)).map tolower).take 6)
      = ((input.take (first_dot input)).map tolower).take 6 :=
    c_string_of_no_nul _ (lowered_symbols_no_nul input _ 6 (by omega) hp)
  have hc : c_string ((((input.take (first_dot input)).map tolower).drop 6).take 5)
      = (((input.take (first_dot input)).map tolower).drop 6).take 5 := by
    apply c_string_of_no_nul
    intro c hc
    have e : (((input.take (first_dot input)).map tolower).drop 6).take 5
        = (((input.take (first_dot input)).map tolower).take 11).drop 6 := by
      rw [List.drop_take]
    rw [e] at hc
    exact lowered_symbols_no_nul input _ 11 (by omega) hp c (List.mem_of_mem_drop hc)
  unfold oast_decode
  simp only [h0, h1, h2, if_false, lowered_preamble input _ hn, hv, hd', hd, Bool.not_true,
    Bool.false_eq_true, ne_eq, not_true_eq_false, or_self, oast_decoded_zero, hk, hc]
  split_ifs <;> rfl

theorem oast_decode_failure (input : List Nat)
    (h : ¬ (20 ≤ first_dot input ∧ first_dot input ≤ 255
            ∧ ∀ c ∈ input.take 20, in_base32hex c)) :
    (oast_decode input).1 = -1 ∧ (oast_decode input).2.valid = false := by
  unfold oast_decode
  by_cases h0 : input.length = 0
  · simp [h0, oast_decoded_zero]
  by_cases h1 : 256 ≤ first_dot input
  · simp [h0, h1, oast_decoded_zero]
  by_cases h2 : first_dot input < 20
  · simp [h0, h1, h2, oast_decoded_zero]
  have hn : 20 ≤ first_dot input := by omega
  have hle := first_dot_le input
  have hbad : ¬ ∀ c ∈ input.take 20, in_base32hex c := fun hall => h ⟨hn, by omega, hall⟩
  have hlen : (input.take 20).length = 20 := by simp; omega
  have hinv := base32hex_decode_invalid (input.take 20) (fun hh => hbad hh.2)
  rw [← base32hex_decode_tolower] at hinv
  simp only [h0, h1, h2, if_false, lowered_preamble input _ hn]
  by_cases hv : oast_is_valid_preamble ((input.take 20).map tolower) = true
  · have hc : (base32hex_decode ((input.take 20).map tolower)).ret ≠ 0
        ∨ (base32hex_decode ((input.take 20).map tolower)).output_len ≠ 12 :=
      Or.inl (by rw [hinv.1]; decide)
    simp only [hv, Bool.not_true, Bool.false_eq_true, if_false, hc, if_true]
    split_ifs <;> exact ⟨trivial, rfl⟩
  · simp only [hv, Bool.not_false, if_true]
    exact ⟨trivial, rfl⟩

theorem shl_or (a b k : Nat) (hb : b < 2 ^ k) : (a <<< k) ||| b = a * 2 ^ k + b := by
  rw [Nat.shiftLeft_eq, Nat.mul_comm, ← Nat.mul_add_lt_is_or hb]

theorem read_be32_eq (b : List Nat) (h : ∀ k, b.getD k 0 < 256) :
    read_be32 b = b.getD 0 0 * 2 ^ 24 + b.getD 1 0 * 2 ^ 16 + b.getD 2 0 * 2 ^ 8 + b.getD 3 0 := by
  have h0 := h 0; have h1 := h 1; have h2 := h 2; have h3 := h 3
  unfold read_be32
  generalize b.getD 0 0 = b0 at *
  generalize b.getD 1 0 = b1 at *
  generalize b.getD 2 0 = b2 at *
  generalize b.getD 3 0 = b3 at *
  have e1 : b0 <<< 24 ||| b1 <<< 16 = (b0 * 2 ^ 8 + b1) <<< 16 := by
    rw [shl_or b0 (b1 <<< 16) 24 (by rw [Nat.shiftLeft_eq]; omega), Nat.shiftLeft_eq,
      Nat.shiftLeft_eq]
    omega
  have e2 : (b0 * 2 ^ 8 + b1) <<< 16 ||| b2 <<< 8 = ((b0 * 2 ^ 8 + b1) * 2 ^ 8 + b2) <<< 8 := by
    rw [shl_or _ (b2 <<< 8) 16 (by rw [Nat.shiftLeft_eq]; omega), Nat.shiftLeft_eq,
      Nat.shiftLeft_eq]
    omega
  rw [e1, e2, shl_or _ b3 8 (by omega)]
  omega

theorem read_be16_eq (b : List Nat) (h : ∀ k, b.getD k 0 < 256) :
    read_be16 b = b.getD 0 0 * 2 ^ 8 + b.getD 1 0 := by
  have h0 := h 0; have h1 := h 1
  unfold read_be16
  rw [shl_or _ _ 8 (by omega)]
  omega

theorem read_be24_eq (b : List Nat) (h : ∀ k, b.getD k 0 < 256) :
    read_be24 b = b.getD 0 0 * 2 ^ 16 + b.getD 1 0 * 2 ^ 8 + b.getD 2 0 := by
  have h0 := h 0; have h1 := h 1; have h2 := h 2
  unfold read_be24
  generalize b.getD 0 0 = b0 at *
  generalize b.getD 1 0 = b1 at *
  generalize b.getD 2 0 = b2 at *
  have e1 : b0 <<< 16 ||| b1 <<< 8 = (b0 * 2 ^ 8 + b1) <<< 8 := by
    rw [shl_or b0 (b1 <<< 8) 16 (by rw [Nat.shiftLeft_eq]; omega), Nat.shiftLeft_eq,
      Nat.shiftLeft_eq]
    omega
  rw [e1, shl_or _ b2 8 (by omega)]
  omega

theorem getD_lt_of_forall (b : List Nat) (h : ∀ x ∈ b, x < 256) (k : Nat) :
    b.getD k 0 < 256 := by
  by_cases hk : k < b.length
  · rw [List.getD_eq_getElem _ _ hk]
    exact h _ (List.getElem_mem _)
  · rw [List.getD_eq_default _ _ (by omega)]
    norm_num

theorem oast_decode_valid_cases (input : List Nat) :
    (20 ≤ first_dot input ∧ first_dot input ≤ 255 ∧ ∀ c ∈ input.take 20, in_base32hex c)
      ∧ (oast_decode input).1 = 0 ∧ (oast_decode input).2.valid = true
    ∨ ¬ (20 ≤ first_dot input ∧ first_dot input ≤ 255 ∧ ∀ c ∈ input.take 20, in_base32hex c)
      ∧ (oast_decode input).1 = -1 ∧ (oast_decode input).2.valid = false := by
  by_cases h : 20 ≤ first_dot input ∧ first_dot input ≤ 255
      ∧ ∀ c ∈ input.take 20, in_base32hex c
  · left
    refine ⟨h, ?_⟩
    rw [oast_decode_success input h.1 h.2.1 h.2.2]
    exact ⟨rfl, rfl⟩
  · right
    exact ⟨h, oast_decode_failure input h⟩

theorem valid_preamble_iff (p : List Nat) :
    oast_is_valid_preamble p = true ↔ p.length = 20 ∧ ∀ c ∈ p, c = 0 ∨ in_base32hex c := by
  unfold oast_is_valid_preamble
  by_cases h : p.length = 20
  · simp only [h, ne_eq, not_true_eq_false, if_false, List.all_eq_true, true_and]
    constructor
    · intro hh c hc
      exact (is_base32hex_char_iff c).1 (hh c hc)
    · intro hh c hc
      exact (is_base32hex_char_iff c).2 (hh c hc)
  · simp [h]

/-- C2: when `oast_decode` succeeds, with `b` the 12 bytes `base32hex_decode`
yields for the first 20 characters, `timestamp`, `machine_id`, `pid` and
`counter` are the big-endian readings of `b[0..4)`, `b[4..7)`, `b[7..9)` and
`b[9..12)`, and `counter < 2 ^ 24`; the bytes `5F 3A 1C 00 AA BB CC 04 D2 00 01 2C`
encode to `bst1o05anf609kg004m0`, which decodes to timestamp `0x5F3A1C00`,
machine id `aa:bb:cc`, pid 1234 and counter 300. -/
theorem oast_decode_fields :
    (∀ input : List Nat, (oast_decode input).2.valid = true →
      ∀ b, b = (base32hex_decode (input.take 20)).output →
        b.length = 12 ∧ (∀ x ∈ b, x < 256)
        ∧ (oast_decode input).2.timestamp
            = b.getD 0 0 * 2 ^ 24 + b.getD 1 0 * 2 ^ 16 + b.getD 2 0 * 2 ^ 8 + b.getD 3 0
        ∧ (oast_decode input).2.machine_id = [b.getD 4 0, b.getD 5 0, b.getD 6 0]
        ∧ (oast_decode input).2.pid = b.getD 7 0 * 2 ^ 8 + b.getD 8 0
        ∧ (oast_decode input).2.counter
            = b.getD 9 0 * 2 ^ 16 + b.getD 10 0 * 2 ^ 8 + b.getD 11 0
        ∧ (oast_decode input).2.counter < 2 ^ 24)
    ∧ base32hex_encode [0x5F, 0x3A, 0x1C, 0x00, 0xAA, 0xBB, 0xCC, 0x04, 0xD2, 0x00, 0x01, 0x2C]
        = bytes "bst1o05anf609kg004m0"
    ∧ (oast_decode (bytes "bst1o05anf609kg004m0")).2.valid = true
    ∧ (oast_decode (bytes "bst1o05anf609kg004m0")).2.timestamp = 0x5F3A1C00
    ∧ (oast_decode (bytes "bst1o05anf609kg004m0")).2.machine_id = [0xAA, 0xBB, 0xCC]
    ∧ (oast_decode (bytes "bst1o05anf609kg004m0")).2.pid = 1234
    ∧ (oast_decode (bytes "bst1o05anf609kg004m0")).2.counter = 300 := by
  refine ⟨?_, by decide, by decide, by decide, by decide, by decide, by decide⟩
  intro input hv b hb
  rcases oast_decode_valid_cases input with ⟨⟨hn, hn2, hp⟩, _, _⟩ | ⟨_, _, hf⟩
  · have hle := first_dot_le input
    have hlen : (input.take 20).length = 20 := by simp; omega
    obtain ⟨out, hd, hl, _⟩ := base32hex_decode_valid (input.take 20) hlen hp
    have hlt := base32hex_decode_output_lt (input.take 20) hlen hp
    rw [← hb] at hlt
    have hbl : b.length = 12 := by rw [hb, hd]; exact hl
    have hg := getD_lt_of_forall b hlt
    have hg7 : ∀ k, (b.drop 7).getD k 0 < 256 :=
      getD_lt_of_forall _ (fun x hx => hlt x (List.mem_of_mem_drop hx))
    have hg9 : ∀ k, (b.drop 9).getD k 0 < 256 :=
      getD_lt_of_forall _ (fun x hx => hlt x (List.mem_of_mem_drop hx))
    have e7 : ∀ k, (b.drop 7).getD k 0 = b.getD (7 + k) 0 := by
      intro k; simp [List.getD_eq_getElem?_getD]
    have e9 : ∀ k, (b.drop 9).getD k 0 = b.getD (9 + k) 0 := by
      intro k; simp [List.getD_eq_getElem?_getD]
    rw [oast_decode_success input hn hn2 hp]
    simp only [← hb]
    rw [read_be32_eq b hg, read_be16_eq _ hg7, read_be24_eq _ hg9, e7, e7, e9, e9, e9]
    have h9 := hg 9; have h10 := hg 10; have h11 := hg 11
    simp only [Nat.add_zero, Nat.reduceAdd, true_and]
    refine ⟨hbl, hlt, ?_⟩
    omega
  · rw [hf] at hv
    exact absurd hv (by decide)

/-- A witness for C2: the input `bst1o05anf609kg004m0ybndrfg8ejkmc.oast.pro`. -/
theorem oast_decode_fields_witness :
    (oast_decode (bytes "bst1o05anf609kg004m0ybndrfg8ejkmc.oast.pro")).2.timestamp
      = 0x5F * 2 ^ 24 + 0x3A * 2 ^ 16 + 0x1C * 2 ^ 8 + 0x00 :=
  (oast_decode_fields.1 (bytes "bst1o05anf609kg004m0ybndrfg8ejkmc.oast.pro") (by decide)
    [0x5F, 0x3A, 0x1C, 0x00, 0xAA, 0xBB, 0xCC, 0x04, 0xD2, 0x00, 0x01, 0x2C] (by decide)).2.2.1

/-- C3: with `n` the index of the first dot of the input (its length when it has
none), `oast_decode` sets `valid` (and returns 0) exactly when `20 ≤ n ≤ 255` and
each of the first 20 bytes is one of `0-9`, `a-v`, `A-V`; otherwise it returns
-1. Neither the suffix nor the nonce characters take part. -/
theorem oast_decode_valid_iff (input : List Nat) :
    (first_dot input ≤ input.length
      ∧ (∀ i, i < first_dot input → input.getD i 0 ≠ 46)
      ∧ (first_dot input < input.length → input.getD (first_dot input) 0 = 46))
    ∧ ((oast_decode input).2.valid = true ↔
        20 ≤ first_dot input ∧ first_dot input ≤ 255
          ∧ ∀ i, i < 20 → in_base32hex (input.getD i 0))
    ∧ ((oast_decode input).1 = 0 ↔ (oast_decode input).2.valid = true)
    ∧ ((oast_decode input).1 ≠ 0 → (oast_decode input).1 = -1) := by
  have hle := first_dot_le input
  refine ⟨⟨hle, first_dot_spec input⟩, ?_⟩
  have key : (20 ≤ first_dot input ∧ first_dot input ≤ 255
        ∧ ∀ i, i < 20 → in_base32hex (input.getD i 0))
      ↔ (20 ≤ first_dot input ∧ first_dot input ≤ 255
        ∧ ∀ c ∈ input.take 20, in_base32hex c) := by
    constructor
    · rintro ⟨h1, h2, h3⟩
      exact ⟨h1, h2, (forall_mem_take_iff in_base32hex input 20 (by omega)).2 h3⟩
    · rintro ⟨h1, h2, h3⟩
      exact ⟨h1, h2, (forall_mem_take_iff in_base32hex input 20 (by omega)).1 h3⟩
  rw [key]
  rcases oast_decode_valid_cases input with ⟨h, h1, h2⟩ | ⟨h, h1, h2⟩
  · rw [h1, h2]
    simp only [h.1, h.2.1, true_and, true_iff, ne_eq, not_true_eq_false, false_implies, and_true]
    exact h.2.2
  · rw [h1, h2]
    simp [h]

/-! ## oast_decode: failures, text fields, letter case -/

theorem oast_decode_failure_fields (input : List Nat)
    (h : ¬ (20 ≤ first_dot input ∧ first_dot input ≤ 255
            ∧ ∀ c ∈ input.take 20, in_base32hex c)) :
    (oast_decode input).2.timestamp = 0
    ∧ (oast_decode input).2.machine_id = [0, 0, 0]
    ∧ (oast_decode input).2.pid = 0
    ∧ (oast_decode input).2.counter = 0
    ∧ (oast_decode input).2.ksort = []
    ∧ (oast_decode input).2.campaign = []
    ∧ (oast_decode input).2.original
        = c_string (input.take (if input.length < 255 then input.length else 255))
    ∧ (oast_decode input).2.error =
        if input.length = 0 then "empty input"
        else if 256 ≤ first_dot input then "subdomain too long"
        else if first_dot input < 20 then
          "subdomain too short: " ++ toString (first_dot input) ++ " chars (minimum 20)"
        else if !oast_is_valid_preamble ((input.take 20).map tolower) then
          "preamble contains invalid base32hex characters"
        else "failed to decode preamble" := by
  unfold oast_decode
  by_cases h0 : input.length = 0
  · simp only [h0, if_true]
    (refine ⟨?_, ?_, ?_, ?_, ?_, ?_, ?_, ?_⟩ <;> first | rfl | trivial)
  by_cases h1 : 256 ≤ first_dot input
  · simp only [h0, h1, if_false, if_true]
    (refine ⟨?_, ?_, ?_, ?_, ?_, ?_, ?_, ?_⟩ <;> first | rfl | trivial)
  by_cases h2 : first_dot input < 20
  · simp only [h0, h1, h2, if_false, if_true]
    (refine ⟨?_, ?_, ?_, ?_, ?_, ?_, ?_, ?_⟩ <;> first | rfl | trivial)
  have hn : 20 ≤ first_dot input := by omega
  have hle := first_dot_le input
  have hbad : ¬ ∀ c ∈ input.take 20, in_base32hex c := fun hall => h ⟨hn, by omega, hall⟩
  have hinv := base32hex_decode_invalid (input.take 20) (fun hh => hbad hh.2)
  rw [← base32hex_decode_tolower] at hinv
  simp only [h0, h1, h2, if_false, lowered_preamble input _ hn]
  by_cases hv : oast_is_valid_preamble ((input.take 20).map tolower) = true
  · have hc : (base32hex_decode ((input.take 20).map tolower)).ret ≠ 0
        ∨ (base32hex_decode ((input.take 20).map tolower)).output_len ≠ 12 :=
      Or.inl (by rw [hinv.1]; decide)
    simp only [hv, Bool.not_true, Bool.false_eq_true, if_false, hc, if_true]
    split_ifs <;> (refine ⟨?_, ?_, ?_, ?_, ?_, ?_, ?_, ?_⟩ <;> first | rfl | trivial)
  · simp only [hv, Bool.not_false, if_true]
    (refine ⟨?_, ?_, ?_, ?_, ?_, ?_, ?_, ?_⟩ <;> first | rfl | trivial)

theorem first_dot_map_lower (l : List Nat) : first_dot (l.map tolower) = first_dot l := by
  induction l with
  | nil => rfl
  | cons c rest ih =>
    have e : (tolower c = 46) = (c = 46) :=
      propext (tolower_eq_iff_of_nonletter c 46 (by omega) (by omega))
    simp only [List.map_cons, first_dot, e, ih]

theorem lower_take_lower (l : List Nat) (n : Nat) :
    ((l.map tolower).take n).map tolower = (l.take n).map tolower := by
  rw [← List.map_take, List.map_map]
  congr 1
  funext c
  exact tolower_idem c

theorem oast_decode_lower (input : List Nat) :
    (oast_decode (input.map tolower)).1 = (oast_decode input).1
    ∧ { (oast_decode (input.map tolower)).2 with original := [] }
        = { (oast_decode input).2 with original := [] } := by
  unfold oast_decode
  simp only [List.length_map, first_dot_map_lower, lower_take_lower]
  split_ifs <;> exact ⟨rfl, rfl⟩

theorem lowered_length (input : List Nat) :
    ((input.take (first_dot input)).map tolower).length = first_dot input := by
  have := first_dot_le input
  simp only [List.length_map, List.length_take]
  omega

theorem oast_decode_nonce (input : List Nat) (hn : 20 ≤ first_dot input)
    (hn2 : first_dot input ≤ 255) (hp : ∀ c ∈ input.take 20, in_base32hex c) :
    (oast_decode input).2.nonce =
      if first_dot input - 20 ≤ 127 then
        c_string (((input.take (first_dot input)).map tolower).drop 20)
      else [] := by
  have hl := lowered_length input
  rw [oast_decode_success input hn hn2 hp]
  simp only []
  by_cases c1 : first_dot input - 20 ≤ 127
  · rw [if_pos c1]
    by_cases c2 : 20 < first_dot input
    · rw [if_pos ⟨c2, by omega⟩]
      congr 1
      apply List.take_of_length_le
      simp only [List.length_drop, hl]
      omega
    · have c3 : ¬ (20 < first_dot input ∧ first_dot input - 20 < 128) := fun h => c2 h.1
      rw [if_neg c3]
      have e : ((input.take (first_dot input)).map tolower).drop 20 = [] := by
        apply List.drop_eq_nil_of_le
        omega
      rw [e]
      rfl
  · have c3 : ¬ (20 < first_dot input ∧ first_dot input - 20 < 128) := fun h => by omega
    rw [if_neg c1, if_neg c3]

theorem too_short_ne_empty (n : Nat) :
    "subdomain too short: " ++ toString n ++ " chars (minimum 20)" ≠ "" := by
  intro h
  have := congrArg String.length h
  simp only [String.length_append] at this
  have h1 : ("subdomain too short: ").length = 21 := rfl
  have h2 : ("").length = 0 := rfl
  omega

set_option maxRecDepth 100000 in
/-- C15, as stated, fails: for a valid preamble followed by a nonce of 128
characters `oast_decode` succeeds, but `nonce` is left empty; it is not the
first 127 characters of the remainder. -/
theorem oast_decode_long_nonce_dropped :
    first_dot long_nonce_input = 148
    ∧ (∀ c ∈ long_nonce_input.take 20, in_base32hex c)
    ∧ (oast_decode long_nonce_input).2.valid = true
    ∧ (oast_decode long_nonce_input).2.nonce = []
    ∧ ((((long_nonce_input.take (first_dot long_nonce_input)).map tolower).drop 20).take 127).length
        = 127
    ∧ (oast_decode long_nonce_input).2.nonce
        ≠ (((long_nonce_input.take (first_dot long_nonce_input)).map tolower).drop 20).take 127 := by
  decide

/-- C15, amended: for every input whose text before the first dot has length
`n` with `20 < n ≤ 255` and starts with 20 characters of `0-9`, `a-v`, `A-V`,
`oast_decode` succeeds. When the remainder after the preamble has at most 127
bytes, `nonce` is the C string of the lower-cased remainder: its bytes up to the
first NUL, which is the whole lower-cased remainder when it has no NUL byte.
When the remainder is longer, `nonce` is empty. -/
theorem oast_decode_nonce_kept_or_dropped (input : List Nat) (hn : 20 < first_dot input)
    (hn2 : first_dot input ≤ 255) (hp : ∀ c ∈ input.take 20, in_base32hex c) :
    (oast_decode input).1 = 0
    ∧ (oast_decode input).2.valid = true
    ∧ (first_dot input - 20 ≤ 127 →
        (oast_decode input).2.nonce
            = c_string (((input.take (first_dot input)).map tolower).drop 20)
        ∧ (oast_decode input).2.nonce <+: ((input.take (first_dot input)).map tolower).drop 20
        ∧ (∀ c ∈ (oast_decode input).2.nonce, c ≠ 0)
        ∧ ((oast_decode input).2.nonce.length < first_dot input - 20 →
            (((input.take (first_dot input)).map tolower).drop 20).getD
              (oast_decode input).2.nonce.length 0 = 0)
        ∧ ((∀ c ∈ ((input.take (first_dot input)).map tolower).drop 20, c ≠ 0) →
            (oast_decode input).2.nonce = ((input.take (first_dot input)).map tolower).drop 20
            ∧ (oast_decode input).2.nonce.length = first_dot input - 20))
    ∧ (127 < first_dot input - 20 → (oast_decode input).2.nonce = []) := by
  have hnonce := oast_decode_nonce input (by omega) hn2 hp
  have hl := lowered_length input
  have hdl : (((input.take (first_dot input)).map tolower).drop 20).length
      = first_dot input - 20 := by
    rw [List.length_drop, hl]
  rcases oast_decode_valid_cases input with ⟨_, h1, h2⟩ | ⟨h, _⟩
  · refine ⟨h1, h2, ?_, ?_⟩
    · intro hle
      rw [hnonce, if_pos hle]
      obtain ⟨s1, s2, s3⟩ := c_string_spec (((input.take (first_dot input)).map tolower).drop 20)
      refine ⟨rfl, s1, s2, ?_, ?_⟩
      · intro hlt
        exact s3 (by rw [hdl]; exact hlt)
      · intro hno
        rw [c_string_of_no_nul _ hno]
        exact ⟨rfl, hdl⟩
    · intro hgt
      rw [hnonce, if_neg (by omega)]
  · exact absurd ⟨by omega, hn2, hp⟩ h

set_option maxRecDepth 100000 in
/-- A witness for the amended C15: a nonce of 13 characters, a nonce of 128
characters, and a nonce with a NUL byte in it. -/
theorem oast_decode_nonce_kept_or_dropped_witness :
    (oast_decode (bytes "bst1o05anf609kg004m0ybndrfg8ejkmc.oast.pro")).2.nonce
        = bytes "ybndrfg8ejkmc"
    ∧ (oast_decode long_nonce_input).2.nonce = []
    ∧ (oast_decode nul_nonce_input).2.nonce = bytes "ab" :=
  ⟨(((oast_decode_nonce_kept_or_dropped (bytes "bst1o05anf609kg004m0ybndrfg8ejkmc.oast.pro")
      (by decide) (by decide) (by decide)).2.2.1 (by decide)).2.2.2.2 (by decide)).1,
   (oast_decode_nonce_kept_or_dropped long_nonce_input
      (by decide) (by decide) (by decide)).2.2.2 (by decide),
   ((oast_decode_nonce_kept_or_dropped nul_nonce_input
      (by decide) (by decide) (by decide)).2.2.1 (by decide)).1⟩

set_option maxRecDepth 100000 in
/-- C16, as stated, fails: on a preamble followed by `ab`, a NUL byte and `cd`,
`oast_decode` succeeds, the lower-cased text before the first dot has 5 bytes
after the preamble, and `nonce` is `ab`, not those 5 bytes: the `char` array
ends at its first NUL. -/
theorem oast_decode_nonce_stops_at_nul :
    (oast_decode nul_nonce_input).1 = 0
    ∧ (oast_decode nul_nonce_input).2.valid = true
    ∧ ((nul_nonce_input.take (first_dot nul_nonce_input)).map tolower).length - 20 = 5
    ∧ (oast_decode nul_nonce_input).2.nonce = bytes "ab"
    ∧ ((nul_nonce_input.take (first_dot nul_nonce_input)).map tolower).drop 20
        = bytes "ab" ++ [0] ++ bytes "cd"
    ∧ (oast_decode nul_nonce_input).2.nonce
        ≠ ((nul_nonce_input.take (first_dot nul_nonce_input)).map tolower).drop 20 := by
  decide

/-- C16, amended: when `oast_decode` succeeds, with `L` the lower-cased text
before the first dot, `ksort` is `L[0..6)`, `campaign` is `L[6..11)` and, when
`L` has at most 127 bytes after the preamble, `nonce` is the C string of
`L[20..)`: its bytes up to the first NUL, which is all of `L[20..)` when it has
no NUL byte (empty for a bare preamble). Inputs that differ only in the case of
ASCII letters decode to the same return code and the same fields apart from
`original`. -/
theorem oast_decode_text_fields :
    (∀ input : List Nat, (oast_decode input).2.valid = true →
      ∀ L, L = (input.take (first_dot input)).map tolower →
        (oast_decode input).2.ksort = L.take 6
        ∧ (oast_decode input).2.ksort.length = 6
        ∧ (oast_decode input).2.campaign = (L.drop 6).take 5
        ∧ (oast_decode input).2.campaign.length = 5
        ∧ (L.length - 20 ≤ 127 →
            (oast_decode input).2.nonce = c_string (L.drop 20)
            ∧ (oast_decode input).2.nonce <+: L.drop 20
            ∧ (∀ c ∈ (oast_decode input).2.nonce, c ≠ 0)
            ∧ ((oast_decode input).2.nonce.length < (L.drop 20).length →
                (L.drop 20).getD (oast_decode input).2.nonce.length 0 = 0)
            ∧ ((∀ c ∈ L.drop 20, c ≠ 0) → (oast_decode input).2.nonce = L.drop 20))
        ∧ (L.length = 20 → (oast_decode input).2.nonce = []))
    ∧ (∀ input input' : List Nat, input'.map tolower = input.map tolower →
        (oast_decode input').1 = (oast_decode input).1
        ∧ { (oast_decode input').2 with original := [] }
            = { (oast_decode input).2 with original := [] })
    ∧ (∀ (input : List Nat) (mask : List Bool),
        (oast_decode (switch_case mask input)).1 = (oast_decode input).1
        ∧ { (oast_decode (switch_case mask input)).2 with original := [] }
            = { (oast_decode input).2 with original := [] }) := by
  have hcase : ∀ input input' : List Nat, input'.map tolower = input.map tolower →
        (oast_decode input').1 = (oast_decode input).1
        ∧ { (oast_decode input').2 with original := [] }
            = { (oast_decode input).2 with original := [] } := by
    intro input input' h
    obtain ⟨a1, a2⟩ := oast_decode_lower input
    obtain ⟨b1, b2⟩ := oast_decode_lower input'
    rw [h] at b1 b2
    exact ⟨b1.symm.trans a1, b2.symm.trans a2⟩
  refine ⟨?_, hcase, ?_⟩
  · intro input hv L hL
    rcases oast_decode_valid_cases input with ⟨⟨hn, hn2, hp⟩, _, _⟩ | ⟨_, _, hf⟩
    · have hl := lowered_length input
      have hnonce := oast_decode_nonce input hn hn2 hp
      rw [← hL] at hl hnonce
      have hk : (oast_decode input).2.ksort = L.take 6 := by
        rw [oast_decode_success input hn hn2 hp, hL]
      have hc : (oast_decode input).2.campaign = (L.drop 6).take 5 := by
        rw [oast_decode_success input hn hn2 hp, hL]
      refine ⟨hk, ?_, hc, ?_, ?_, ?_⟩
      · rw [hk, List.length_take, hl]; omega
      · rw [hc, List.length_take, List.length_drop, hl]; omega
      · intro hle
        rw [hnonce, if_pos (by omega)]
        obtain ⟨s1, s2, s3⟩ := c_string_spec (L.drop 20)
        exact ⟨rfl, s1, s2, s3, fun hno => c_string_of_no_nul _ hno⟩
      · intro h20
        rw [hnonce, if_pos (by omega)]
        have e : L.drop 20 = [] := by
          apply List.drop_eq_nil_of_le
          omega
        rw [e]
        rfl
    · rw [hf] at hv
      exact absurd hv (by decide)
  · intro input mask
    apply hcase
    apply List.ext_getElem
    · simp only [List.length_map, switch_case_length]
    · intro i h1 h2
      simp only [List.getElem_map]
      have := switch_case_getD mask input i
      simp only [List.length_map] at h1 h2
      rwa [List.getD_eq_getElem _ _ h1, List.getD_eq_getElem _ _ h2] at this

set_option maxRecDepth 100000 in
/-- A witness for C16: an input and its upper-cased copy. -/
theorem oast_decode_text_fields_witness :
    (oast_decode (bytes "BST1O05ANF609KG004M0YBNDRFG8EJKMC.OAST.PRO")).1
      = (oast_decode (bytes "bst1o05anf609kg004m0ybndrfg8ejkmc.oast.pro")).1
    ∧ (oast_decode (bytes "bst1o05anf609kg004m0ybndrfg8ejkmc.oast.pro")).2.ksort
        = (bytes "bst1o05anf609kg004m0ybndrfg8ejkmc").take 6 :=
  ⟨(oast_decode_text_fields.2.1 (bytes "bst1o05anf609kg004m0ybndrfg8ejkmc.oast.pro")
      (bytes "BST1O05ANF609KG004M0YBNDRFG8EJKMC.OAST.PRO") (by decide)).1,
   (oast_decode_text_fields.1 (bytes "bst1o05anf609kg004m0ybndrfg8ejkmc.oast.pro")
      (by decide) (bytes "bst1o05anf609kg004m0ybndrfg8ejkmc") (by decide)).1⟩

theorem oast_decode_error_ne_empty (input : List Nat)
    (h : ¬ (20 ≤ first_dot input ∧ first_dot input ≤ 255
            ∧ ∀ c ∈ input.take 20, in_base32hex c)) :
    (oast_decode input).2.error ≠ "" := by
  rw [(oast_decode_failure_fields input h).2.2.2.2.2.2.2]
  split_ifs
  · decide
  · decide
  · exact too_short_ne_empty _
  · decide
  · decide

/-- C17: for every input, if `oast_decode` leaves `valid = false` then
`timestamp`, `machine_id`, `pid` and `counter` are zero and `error` is not
empty; if it sets `valid = true` then `error` is empty; and it returns 0 exactly
when `valid = true`, and -1 otherwise. -/
theorem oast_decode_result_invariant (input : List Nat) :
    ((oast_decode input).2.valid = false →
        (oast_decode input).2.timestamp = 0
        ∧ (oast_decode input).2.machine_id = [0, 0, 0]
        ∧ (oast_decode input).2.pid = 0
        ∧ (oast_decode input).2.counter = 0
        ∧ (oast_decode input).2.error ≠ ""
        ∧ (oast_decode input).1 = -1)
    ∧ ((oast_decode input).2.valid = true →
        (oast_decode input).2.error = "" ∧ (oast_decode input).1 = 0)
    ∧ ((oast_decode input).1 = 0 ↔ (oast_decode input).2.valid = true)
    ∧ ((oast_decode input).1 = 0 ∨ (oast_decode input).1 = -1) := by
  rcases oast_decode_valid_cases input with ⟨⟨hn, hn2, hp⟩, h1, h2⟩ | ⟨h, h1, h2⟩
  · have he : (oast_decode input).2.error = "" := by
      rw [oast_decode_success input hn hn2 hp]
    refine ⟨?_, fun _ => ⟨he, h1⟩, ?_, Or.inl h1⟩
    · intro hv; rw [h2] at hv; exact absurd hv (by decide)
    · rw [h1, h2]; simp
  · obtain ⟨f1, f2, f3, f4, _⟩ := oast_decode_failure_fields input h
    refine ⟨fun _ => ⟨f1, f2, f3, f4, oast_decode_error_ne_empty input h, h1⟩, ?_, ?_,
      Or.inr h1⟩
    · intro hv; rw [h2] at hv; exact absurd hv (by decide)
    · rw [h1, h2]; simp

theorem toString_small : ∀ n, n < 20 →
    "subdomain too short: " ++ toString n ++ " chars (minimum 20)"
      = too_short_messages.getD n "" := by
  decide

/-- C18: for every non-empty input whose text before the first dot has length
`n < 20`, `oast_decode` leaves `valid = false` and the error `subdomain too
short: <n> chars (minimum 20)` with `n` in decimal; an input starting with a dot
reports 0 characters and a 19-character input reports 19. -/
theorem oast_decode_too_short :
    (∀ input : List Nat, input ≠ [] → first_dot input < 20 →
      (oast_decode input).1 = -1
      ∧ (oast_decode input).2.valid = false
      ∧ (oast_decode input).2.error
          = "subdomain too short: " ++ toString (first_dot input) ++ " chars (minimum 20)"
      ∧ (oast_decode input).2.error = too_short_messages.getD (first_dot input) "")
    ∧ (oast_decode (bytes ".oast.pro")).2.error = "subdomain too short: 0 chars (minimum 20)"
    ∧ (oast_decode (bytes "bst1o05anf609kg004m")).2.error
        = "subdomain too short: 19 chars (minimum 20)"
    ∧ (oast_decode (bytes "bst1o05anf609kg004m")).2.valid = false := by
  refine ⟨?_, by decide, by decide, by decide⟩
  intro input hne hn
  have hbad : ¬ (20 ≤ first_dot input ∧ first_dot input ≤ 255
      ∧ ∀ c ∈ input.take 20, in_base32hex c) := fun h => by omega
  obtain ⟨h1, h2⟩ := oast_decode_failure input hbad
  have he := (oast_decode_failure_fields input hbad).2.2.2.2.2.2.2
  have h0 : ¬ input.length = 0 := fun e => hne (List.length_eq_zero.1 e)
  have h256 : ¬ 256 ≤ first_dot input := by omega
  rw [if_neg h0, if_neg h256, if_pos hn] at he
  refine ⟨h1, h2, he, ?_⟩
  rw [he]
  exact toString_small _ hn

set_option maxRecDepth 100000 in
/-- A witness for C18: the input `short.oast.pro`. -/
theorem oast_decode_too_short_witness :
    (oast_decode (bytes "short.oast.pro")).2.error
      = "subdomain too short: " ++ toString (first_dot (bytes "short.oast.pro"))
          ++ " chars (minimum 20)" :=
  (oast_decode_too_short.1 (bytes "short.oast.pro") (by decide) (by decide)).2.2.1

/-- C19: when the text before the first dot has 256 bytes or more,
`oast_decode` leaves `valid = false` with the error `subdomain too long`,
whatever the bytes are; with 255 bytes that start with 20 characters of `0-9`,
`a-v`, `A-V` it sets `valid = true`. -/
theorem oast_decode_length_limit :
    (∀ input : List Nat, 256 ≤ first_dot input →
      (oast_decode input).1 = -1
      ∧ (oast_decode input).2.valid = false
      ∧ (oast_decode input).2.error = "subdomain too long")
    ∧ (∀ input : List Nat, first_dot input = 255 →
        (∀ c ∈ input.take 20, in_base32hex c) →
        (oast_decode input).1 = 0 ∧ (oast_decode input).2.valid = true) := by
  constructor
  · intro input hn
    have hle := first_dot_le input
    have hbad : ¬ (20 ≤ first_dot input ∧ first_dot input ≤ 255
        ∧ ∀ c ∈ input.take 20, in_base32hex c) := fun h => by omega
    obtain ⟨h1, h2⟩ := oast_decode_failure input hbad
    have he := (oast_decode_failure_fields input hbad).2.2.2.2.2.2.2
    have h0 : ¬ input.length = 0 := by omega
    rw [if_neg h0, if_pos hn] at he
    exact ⟨h1, h2, he⟩
  · intro input hn hp
    rcases oast_decode_valid_cases input with ⟨_, h1, h2⟩ | ⟨h, _⟩
    · exact ⟨h1, h2⟩
    · exact absurd ⟨by omega, by omega, hp⟩ h

set_option maxRecDepth 100000 in
/-- A witness for C19: 256 times `y`, and a 255-byte input with a valid preamble. -/
theorem oast_decode_length_limit_witness :
    (oast_decode (List.replicate 256 121)).2.error = "subdomain too long"
    ∧ (oast_decode longest_input).2.valid = true :=
  ⟨(oast_decode_length_limit.1 (List.replicate 256 121) (by decide)).2.2,
   (oast_decode_length_limit.2 longest_input (by decide) (by decide)).2⟩

/-- C20: `oast_decode` of the empty input returns -1 with `valid = false`, the
error `empty input`, an empty `original` and every other field zero or empty;
the message is `empty input` for no other input, and the empty input does not
get the too-short message although its subdomain has 0 characters. -/
theorem oast_decode_empty :
    oast_decode []
      = (-1, { original := [], timestamp := 0, machine_id := [0, 0, 0], pid := 0, counter := 0,
               nonce := [], ksort := [], campaign := [], valid := false,
               error := "empty input" })
    ∧ first_dot [] < 20
    ∧ (oast_decode []).2.error ≠ "subdomain too short: 0 chars (minimum 20)"
    ∧ ∀ input : List Nat, (oast_decode input).2.error = "empty input" ↔ input = [] := by
  refine ⟨rfl, by decide, by decide, ?_⟩
  intro input
  constructor
  · intro he
    by_contra hne
    have h0 : ¬ input.length = 0 := fun e => hne (List.length_eq_zero.1 e)
    rcases oast_decode_valid_cases input with ⟨⟨hn, hn2, hp⟩, _, _⟩ | ⟨h, _, _⟩
    · have he' : (oast_decode input).2.error = "" := by
        rw [oast_decode_success input hn hn2 hp]
      rw [he'] at he
      exact absurd he (by decide)
    · rw [(oast_decode_failure_fields input h).2.2.2.2.2.2.2, if_neg h0] at he
      split_ifs at he with c1 c2 c3
      · exact absurd he (by decide)
      · rw [toString_small _ c2] at he
        revert he
        generalize first_dot input = n at c2
        interval_cases n <;> decide
      · exact absurd he (by decide)
      · exact absurd he (by decide)
  · intro e
    subst e
    rfl

theorem oast_decode_same_subdomain (x y : List Nat) (hx : x ≠ []) (hy : y ≠ [])
    (h : x.take (first_dot x) = y.take (first_dot y)) :
    (oast_decode x).1 = (oast_decode y).1
    ∧ { (oast_decode x).2 with original := [] } = { (oast_decode y).2 with original := [] } := by
  have hn : first_dot x = first_dot y := by
    have := congrArg List.length h
    have h1 := first_dot_le x
    have h2 := first_dot_le y
    simp only [List.length_take] at this
    omega
  have h' : List.take (first_dot y) x = List.take (first_dot y) y := by
    rw [← hn, h, hn]
  have hx0 : ¬ x.length = 0 := fun e => hx (List.length_eq_zero.1 e)
  have hy0 : ¬ y.length = 0 := fun e => hy (List.length_eq_zero.1 e)
  unfold oast_decode
  simp only [hx0, hy0, if_false, hn, h']
  split_ifs <;> exact ⟨rfl, rfl⟩

set_option maxRecDepth 100000 in
/-- C21: two non-empty inputs with the same text before their first dot get
the same return code from `oast_decode` and the same `valid`, `error`,
`timestamp`, `machine_id`, `pid`, `counter`, `ksort`, `campaign` and `nonce`;
only `original` may differ. A valid preamble followed by `.evil.com`, which is
in no registry entry, decodes with `valid = true`. -/
theorem oast_decode_ignores_after_dot :
    (∀ x y : List Nat, x ≠ [] → y ≠ [] → x.take (first_dot x) = y.take (first_dot y) →
      (oast_decode x).1 = (oast_decode y).1
      ∧ (oast_decode x).2.valid = (oast_decode y).2.valid
      ∧ (oast_decode x).2.error = (oast_decode y).2.error
      ∧ (oast_decode x).2.timestamp = (oast_decode y).2.timestamp
      ∧ (oast_decode x).2.machine_id = (oast_decode y).2.machine_id
      ∧ (oast_decode x).2.pid = (oast_decode y).2.pid
      ∧ (oast_decode x).2.counter = (oast_decode y).2.counter
      ∧ (oast_decode x).2.ksort = (oast_decode y).2.ksort
      ∧ (oast_decode x).2.campaign = (oast_decode y).2.campaign
      ∧ (oast_decode x).2.nonce = (oast_decode y).2.nonce)
    ∧ is_known_oast_domain (bytes "bst1o05anf609kg004m0.evil.com") = none
    ∧ (oast_decode (bytes "bst1o05anf609kg004m0.evil.com")).2.valid = true
    ∧ (oast_decode (bytes "bst1o05anf609kg004m0.evil.com")).1 = 0 := by
  refine ⟨?_, by decide, by decide, by decide⟩
  intro x y hx hy h
  obtain ⟨h1, h2⟩ := oast_decode_same_subdomain x y hx hy h
  refine ⟨h1, ?_, ?_, ?_, ?_, ?_, ?_, ?_, ?_, ?_⟩
  · have e := congrArg oast_decoded_t.valid h2
    exact e
  · have e := congrArg oast_decoded_t.error h2
    exact e
  · have e := congrArg oast_decoded_t.timestamp h2
    exact e
  · have e := congrArg oast_decoded_t.machine_id h2
    exact e
  · have e := congrArg oast_decoded_t.pid h2
    exact e
  · have e := congrArg oast_decoded_t.counter h2
    exact e
  · have e := congrArg oast_decoded_t.ksort h2
    exact e
  · have e := congrArg oast_decoded_t.campaign h2
    exact e
  · have e := congrArg oast_decoded_t.nonce h2
    exact e

set_option maxRecDepth 100000 in
/-- A witness for C21: one subdomain before `.oast.pro` and before `.evil.com`. -/
theorem oast_decode_ignores_after_dot_witness :
    (oast_decode (bytes "bst1o05anf609kg004m0ybndrfg8ejkmc.oast.pro")).2.timestamp
      = (oast_decode (bytes "bst1o05anf609kg004m0ybndrfg8ejkmc.evil.com")).2.timestamp :=
  (oast_decode_ignores_after_dot.1 (bytes "bst1o05anf609kg004m0ybndrfg8ejkmc.oast.pro")
    (bytes "bst1o05anf609kg004m0ybndrfg8ejkmc.evil.com")
    (by decide) (by decide) (by decide)).2.2.2.1

theorem no_nul_preamble (input : List Nat) (hnul : ∀ c ∈ input.take 20, c ≠ 0)
    (hv : oast_is_valid_preamble ((input.take 20).map tolower) = true) :
    ∀ c ∈ input.take 20, in_base32hex c := by
  intro c hc
  have h := ((valid_preamble_iff _).1 hv).2 (tolower c) (List.mem_map_of_mem _ hc)
  rcases h with h | h
  · exact absurd ((tolower_eq_zero c).1 h) (hnul c hc)
  · exact (in_base32hex_tolower c).1 h

set_option maxRecDepth 100000 in
/-- C22 fails on the code: `oast_is_valid_preamble` accepts 20 NUL bytes (each
passes `is_base32hex_char` through the terminator of the alphabet array) while
`base32hex_decode` rejects them, so `oast_decode` of 20 NUL bytes stops with the
error `failed to decode preamble`. When none of the first 20 bytes is NUL the
claim holds: an accepted preamble decodes to 12 bytes and that error does not
occur. -/
theorem oast_decode_defensive_failure_reached :
    (List.replicate 20 0).length = 20
    ∧ oast_is_valid_preamble (List.replicate 20 0) = true
    ∧ (base32hex_decode (List.replicate 20 0)).ret = -1
    ∧ (base32hex_decode (List.replicate 20 0)).output_len = 0
    ∧ (oast_decode (List.replicate 20 0)).2.error = "failed to decode preamble"
    ∧ (oast_decode (List.replicate 20 0)).2.valid = false
    ∧ (∀ s : List Nat, oast_is_valid_preamble s = true → (∀ c ∈ s, c ≠ 0) →
        (base32hex_decode s).ret = 0 ∧ (base32hex_decode s).output_len = 12
          ∧ (base32hex_decode s).output.length = 12)
    ∧ (∀ input : List Nat, (∀ c ∈ input.take 20, c ≠ 0) →
        (oast_decode input).2.error ≠ "failed to decode preamble") := by
  refine ⟨by decide, by decide, by decide, by decide, by decide, by decide, ?_, ?_⟩
  · intro s hv hnul
    obtain ⟨hl, hall⟩ := (valid_preamble_iff s).1 hv
    have hp : ∀ c ∈ s, in_base32hex c := by
      intro c hc
      rcases hall c hc with h | h
      · exact absurd h (hnul c hc)
      · exact h
    obtain ⟨out, hd, hlo, _⟩ := base32hex_decode_valid s hl hp
    rw [hd]
    exact ⟨rfl, rfl, hlo⟩
  · intro input hnul he
    rcases oast_decode_valid_cases input with ⟨⟨hn, hn2, hp⟩, _, _⟩ | ⟨h, _, _⟩
    · have he' : (oast_decode input).2.error = "" := by
        rw [oast_decode_success input hn hn2 hp]
      rw [he'] at he
      exact absurd he (by decide)
    · rw [(oast_decode_failure_fields input h).2.2.2.2.2.2.2] at he
      split_ifs at he with c0 c1 c2 c3
      · exact absurd he (by decide)
      · exact absurd he (by decide)
      · rw [toString_small _ c2] at he
        revert he
        generalize first_dot input = n at c2
        interval_cases n <;> decide
      · exact absurd he (by decide)
      · apply h
        refine ⟨by omega, by omega, no_nul_preamble input hnul ?_⟩
        cases hb : oast_is_valid_preamble ((input.take 20).map tolower)
        · rw [hb] at c3; exact absurd rfl c3
        · rfl

/-! ## oast_validate -/

theorem is_known_loop_some (tbl : List (List Nat)) (t s : List Nat)
    (h : is_known_oast_domain_loop tbl t = some s) :
    s ∈ tbl ∧ s.length ≤ t.length ∧ t.drop (t.length - s.length) = s
      ∧ (t.length = s.length ∨ t.getD (t.length - s.length - 1) 0 = 46) := by
  induction tbl with
  | nil => simp [is_known_oast_domain_loop] at h
  | cons x rest ih =>
    unfold is_known_oast_domain_loop at h
    split_ifs at h with hc
    · injection h with h
      subst h
      exact ⟨List.mem_cons_self _ _, hc⟩
    · obtain ⟨h1, h2⟩ := ih h
      exact ⟨List.mem_cons_of_mem _ h1, h2⟩

theorem is_known_loop_complete (tbl : List (List Nat)) (t s : List Nat) (hs : s ∈ tbl)
    (hc : s.length ≤ t.length ∧ t.drop (t.length - s.length) = s
      ∧ (t.length = s.length ∨ t.getD (t.length - s.length - 1) 0 = 46)) :
    ∃ s', is_known_oast_domain_loop tbl t = some s' := by
  induction tbl with
  | nil => simp at hs
  | cons x rest ih =>
    unfold is_known_oast_domain_loop
    split_ifs with hx
    · exact ⟨x, rfl⟩
    · rcases List.mem_cons.1 hs with h | h
      · subst h; exact absurd hc hx
      · exact ih h

theorem known_suffix_unique : ∀ s ∈ KNOWN_OAST_DOMAINS, ∀ s' ∈ KNOWN_OAST_DOMAINS,
    s.length ≤ s'.length → s = s'.drop (s'.length - s.length) → s = s' := by
  decide

theorem suffix_of_suffix (t s s' : List Nat) (hl : s.length ≤ s'.length)
    (hl' : s'.length ≤ t.length)
    (h : t.drop (t.length - s.length) = s) (h' : t.drop (t.length - s'.length) = s') :
    s = s'.drop (s'.length - s.length) := by
  have : (t.drop (t.length - s'.length)).drop (s'.length - s.length) = s := by
    rw [List.drop_drop]
    have e : t.length - s'.length + (s'.length - s.length) = t.length - s.length := by omega
    rw [e, h]
  rw [h'] at this
  exact this.symm

theorem known_suffix_same (t s s' : List Nat) (hs : s ∈ KNOWN_OAST_DOMAINS)
    (hs' : s' ∈ KNOWN_OAST_DOMAINS) (hl : s.length ≤ t.length) (hl' : s'.length ≤ t.length)
    (h : t.drop (t.length - s.length) = s) (h' : t.drop (t.length - s'.length) = s') :
    s = s' := by
  rcases Nat.le_total s.length s'.length with hle | hle
  · exact known_suffix_unique s hs s' hs' hle (suffix_of_suffix t s s' hle hl' h h')
  · exact (known_suffix_unique s' hs' s hs hle (suffix_of_suffix t s' s hle hl h' h)).symm

theorem known_suffix_length_pos : ∀ s ∈ KNOWN_OAST_DOMAINS, 0 < s.length := by
  decide

theorem oast_validate_of_parts (sub s : List Nat) (hs : s ∈ KNOWN_OAST_DOMAINS)
    (hsub : sub ≠ []) :
    oast_validate (sub ++ [46] ++ s) = oast_is_valid_subdomain sub := by
  have hlen : (sub ++ [46] ++ s).length = sub.length + 1 + s.length := by
    simp only [List.length_append, List.length_singleton]
  have hsl : 0 < sub.length := List.length_pos.2 hsub
  have hdrop : (sub ++ [46] ++ s).drop ((sub ++ [46] ++ s).length - s.length) = s := by
    rw [hlen, Nat.add_sub_cancel]
    have : (sub ++ [46]).length = sub.length + 1 := by simp
    rw [← this, List.drop_left]
  have hdot : (sub ++ [46] ++ s).getD ((sub ++ [46] ++ s).length - s.length - 1) 0 = 46 := by
    rw [hlen, Nat.add_sub_cancel, Nat.add_sub_cancel, List.append_assoc,
      List.getD_append_right _ _ _ _ (Nat.le_refl _)]
    simp
  obtain ⟨s', hk⟩ := is_known_loop_complete KNOWN_OAST_DOMAINS (sub ++ [46] ++ s) s hs
    ⟨by omega, hdrop, Or.inr hdot⟩
  obtain ⟨hs', hl', hd', _⟩ := is_known_loop_some _ _ _ hk
  have hss : s = s' := known_suffix_same _ s s' hs hs' (by omega) hl' hdrop hd'
  subst hss
  have hk' : is_known_oast_domain (sub ++ [46] ++ s) = some s := hk
  have hne : ¬ (sub ++ [46] ++ s).length = s.length := by omega
  have hn0 : ¬ (sub ++ [46] ++ s).length - s.length - 1 = 0 := by omega
  unfold oast_validate get_oast_subdomain
  simp only [hk', hne, if_false, hn0]
  rw [hlen, Nat.add_sub_cancel, Nat.add_sub_cancel, List.append_assoc, List.take_left]

theorem oast_validate_parts (t : List Nat) (h : oast_validate t = true) :
    ∃ sub s, s ∈ KNOWN_OAST_DOMAINS ∧ oast_is_valid_subdomain sub = true
      ∧ t = sub ++ [46] ++ s := by
  unfold oast_validate at h
  cases hk : is_known_oast_domain t with
  | none => simp [hk] at h
  | some s =>
    obtain ⟨hs, hl, hd, hdot⟩ := is_known_loop_some KNOWN_OAST_DOMAINS t s hk
    simp only [hk, get_oast_subdomain] at h
    by_cases hne : t.length = s.length
    · simp [hne] at h
    · simp only [hne, if_false] at h
      by_cases hn0 : t.length - s.length - 1 = 0
      · simp [hn0] at h
      · simp only [hn0, if_false] at h
        have hdot' : t.getD (t.length - s.length - 1) 0 = 46 := by
          rcases hdot with hh | hh
          · exact absurd hh hne
          · exact hh
        refine ⟨t.take (t.length - s.length - 1), s, hs, h, ?_⟩
        have hlt : t.length - s.length - 1 < t.length := by omega
        have e1 : t = t.take (t.length - s.length - 1) ++ t.drop (t.length - s.length - 1) :=
          (List.take_append_drop _ _).symm
        have e2 : t.drop (t.length - s.length - 1)
            = t[t.length - s.length - 1] :: t.drop (t.length - s.length - 1 + 1) :=
          List.drop_eq_getElem_cons hlt
        have e3 : t.length - s.length - 1 + 1 = t.length - s.length := by omega
        rw [List.getD_eq_getElem _ _ hlt] at hdot'
        rw [e3, hd, hdot'] at e2
        rw [e2] at e1
        simpa using e1

theorem valid_subdomain_of_parts (p n : List Nat) (hp : p.length = 20)
    (hpc : ∀ c ∈ p, in_base32hex c) (hn : 13 ≤ n.length) (hnc : ∀ c ∈ n, in_zbase32 c) :
    oast_is_valid_subdomain (p ++ n) = true := by
  have h1 : ¬ (p ++ n).length < 33 := by simp only [List.length_append]; omega
  have h2 : (p ++ n).take 20 = p := by rw [← hp, List.take_left]
  have h3 : (p ++ n).drop 20 = n := by rw [← hp, List.drop_left]
  unfold oast_is_valid_subdomain
  simp only [h1, if_false, h2, h3, valid_preamble_of_symbols p hp hpc, Bool.not_true,
    Bool.false_eq_true, List.all_eq_true]
  intro c hc
  exact (is_zbase32_char_iff c).2 (Or.inr (hnc c hc))

/-- C1: `oast_validate t` holds exactly when `t` is `sub ++ "." ++ s` for a known
suffix `s` and a `sub` that `oast_is_valid_subdomain` accepts. A bare suffix,
a dot followed by a suffix and `anything.oast.pro` are rejected; a 20-character
base32hex preamble followed by 13 or more z-base-32 characters and `.oast.pro`
is accepted. -/
theorem oast_validate_iff :
    (∀ t : List Nat, oast_validate t = true ↔
        ∃ sub s, s ∈ KNOWN_OAST_DOMAINS ∧ oast_is_valid_subdomain sub = true
          ∧ t = sub ++ bytes "." ++ s)
    ∧ KNOWN_OAST_DOMAINS
        = [bytes "oast.pro", bytes "oast.live", bytes "oast.site", bytes "oast.online",
           bytes "oast.fun", bytes "oast.me", bytes "interact.sh", bytes "interactsh.com"]
    ∧ (∀ s ∈ KNOWN_OAST_DOMAINS,
        oast_validate s = false ∧ oast_validate (bytes "." ++ s) = false)
    ∧ oast_validate (bytes "anything.oast.pro") = false
    ∧ (∀ p n : List Nat, p.length = 20 → (∀ c ∈ p, in_base32hex c) →
        13 ≤ n.length → (∀ c ∈ n, in_zbase32 c) →
        oast_validate (p ++ n ++ bytes ".oast.pro") = true)
    ∧ oast_validate (bytes "bst1o05anf609kg004m0ybndrfg8ejkmc.oast.pro") = true := by
  have hdot : bytes "." = [46] := by decide
  refine ⟨?_, rfl, by decide, by decide, ?_, by decide⟩
  · intro t
    rw [hdot]
    constructor
    · exact oast_validate_parts t
    · rintro ⟨sub, s, hs, hv, rfl⟩
      have hne : sub ≠ [] := by
        intro e
        subst e
        exact absurd hv (by decide)
      rw [oast_validate_of_parts sub s hs hne, hv]
  · intro p n hp hpc hn hnc
    have e : p ++ n ++ bytes ".oast.pro" = (p ++ n) ++ [46] ++ bytes "oast.pro" := by
      have : bytes ".oast.pro" = [46] ++ bytes "oast.pro" := by decide
      rw [this, List.append_assoc (p ++ n)]
    have hne : p ++ n ≠ [] := by
      intro e'
      have := congrArg List.length e'
      simp only [List.length_append, List.length_nil] at this
      omega
    rw [e, oast_validate_of_parts (p ++ n) (bytes "oast.pro") (by decide) hne]
    exact valid_subdomain_of_parts p n hp hpc hn hnc

/-- A witness for C1: preamble `bst1o05anf609kg004m0`, nonce `ybndrfg8ejkmc`. -/
theorem oast_validate_iff_witness :
    oast_validate (bytes "bst1o05anf609kg004m0" ++ bytes "ybndrfg8ejkmc" ++ bytes ".oast.pro")
      = true :=
  oast_validate_iff.2.2.2.2.1 (bytes "bst1o05anf609kg004m0") (bytes "ybndrfg8ejkmc")
    (by decide) (by decide) (by decide) (by decide)

/-! ## The suffix table and the structural validator -/

theorem is_known_oast_domain_iff (t s : List Nat) :
    is_known_oast_domain t = some s ↔
      s ∈ KNOWN_OAST_DOMAINS ∧ s.length ≤ t.length ∧ t.drop (t.length - s.length) = s
        ∧ (t.length = s.length ∨ t.getD (t.length - s.length - 1) 0 = 46) := by
  constructor
  · exact is_known_loop_some KNOWN_OAST_DOMAINS t s
  · rintro ⟨hs, hl, hd, hdot⟩
    obtain ⟨s', hk⟩ := is_known_loop_complete KNOWN_OAST_DOMAINS t s hs ⟨hl, hd, hdot⟩
    obtain ⟨hs', hl', hd', _⟩ := is_known_loop_some _ _ _ hk
    have : s = s' := known_suffix_same t s s' hs hs' hl hl' hd hd'
    subst this
    exact hk

set_option maxRecDepth 100000 in
/-- C13 fails on the code: `is_known_oast_domain` compares the end of the text
with `memcmp`, so it finds a table entry only when the text ends with it byte
for byte (and is that entry or has a dot before it). A text ending in
`.OAST.PRO` gets `NULL`, and `oast_validate` rejects it, although `oast_extract`
finds the same domain under the suffix `oast.pro`. -/
theorem is_known_oast_domain_case_sensitive :
    is_known_oast_domain (bytes "bst1o05anf609kg004m0ybndrfg8ejkmc.OAST.PRO") = none
    ∧ is_known_oast_domain (bytes "bst1o05anf609kg004m0ybndrfg8ejkmc.oast.pro")
        = some (bytes "oast.pro")
    ∧ oast_validate (bytes "bst1o05anf609kg004m0ybndrfg8ejkmc.OAST.PRO") = false
    ∧ oast_validate (bytes "bst1o05anf609kg004m0ybndrfg8ejkmc.oast.pro") = true
    ∧ (oast_extract (bytes "bst1o05anf609kg004m0ybndrfg8ejkmc.OAST.PRO")).map
          oast_match_t.domain = [bytes "oast.pro"]
    ∧ ∀ t s : List Nat, is_known_oast_domain t = some s ↔
        s ∈ KNOWN_OAST_DOMAINS ∧ s.length ≤ t.length ∧ t.drop (t.length - s.length) = s
          ∧ (t.length = s.length ∨ t.getD (t.length - s.length - 1) 0 = 46) := by
  refine ⟨by decide, by decide, by decide, by decide, by rfl, is_known_oast_domain_iff⟩

theorem forall_mem_iff_getD (P : Nat → Prop) (s : List Nat) :
    (∀ c ∈ s, P c) ↔ ∀ i, i < s.length → P (s.getD i 0) := by
  have := forall_mem_take_iff P s s.length (Nat.le_refl _)
  rwa [List.take_length] at this

theorem forall_mem_drop_iff (P : Nat → Prop) (s : List Nat) (n : Nat) :
    (∀ c ∈ s.drop n, P c) ↔ ∀ i, n ≤ i → i < s.length → P (s.getD i 0) := by
  rw [forall_mem_iff_getD]
  constructor
  · intro h i h1 h2
    have := h (i - n) (by simp only [List.length_drop]; omega)
    rw [List.getD_eq_getElem?_getD, List.getElem?_drop] at this
    have e : n + (i - n) = i := by omega
    rwa [e, ← List.getD_eq_getElem?_getD] at this
  · intro h i hi
    simp only [List.length_drop] at hi
    have := h (n + i) (by omega) (by omega)
    rwa [List.getD_eq_getElem?_getD, List.getElem?_drop, ← List.getD_eq_getElem?_getD]

set_option maxRecDepth 100000 in
/-- C14: `oast_is_valid_subdomain s` holds exactly when `s` has at least 33
bytes, `oast_is_valid_preamble` accepts the first 20 and every byte from index
20 on satisfies `is_zbase32_char`; `oast_is_valid_preamble s` holds exactly when
`s` has 20 bytes that all satisfy `is_base32hex_char`. A subdomain with `-` or
`_` in its nonce is rejected. -/
theorem oast_is_valid_subdomain_iff (s : List Nat) :
    (oast_is_valid_subdomain s = true ↔
        33 ≤ s.length ∧ oast_is_valid_preamble (s.take 20) = true
          ∧ ∀ i, 20 ≤ i → i < s.length → is_zbase32_char (s.getD i 0) = true)
    ∧ (oast_is_valid_preamble s = true ↔
        s.length = 20 ∧ ∀ i, i < s.length → is_base32hex_char (s.getD i 0) = true)
    ∧ (∀ i, 20 ≤ i → i < s.length → (s.getD i 0 = 45 ∨ s.getD i 0 = 95) →
        oast_is_valid_subdomain s = false)
    ∧ oast_is_valid_subdomain (bytes "bst1o05anf609kg004m0ybndrfg8-jkmc") = false
    ∧ oast_is_valid_subdomain (bytes "bst1o05anf609kg004m0ybndrfg8_jkmc") = false
    ∧ oast_is_valid_subdomain (bytes "bst1o05anf609kg004m0ybndrfg8ejkmc") = true := by
  have h1 : oast_is_valid_subdomain s = true ↔
        33 ≤ s.length ∧ oast_is_valid_preamble (s.take 20) = true
          ∧ ∀ i, 20 ≤ i → i < s.length → is_zbase32_char (s.getD i 0) = true := by
    rw [← forall_mem_drop_iff (fun c => is_zbase32_char c = true) s 20]
    unfold oast_is_valid_subdomain
    by_cases hl : s.length < 33
    · simp only [hl, if_true, Bool.false_eq_true, false_iff]
      intro h; omega
    · by_cases hp : oast_is_valid_preamble (s.take 20) = true
      · simp only [hl, if_false, hp, Bool.not_true, Bool.false_eq_true, List.all_eq_true,
          true_and]
        constructor
        · intro h; exact ⟨by omega, h⟩
        · intro h; exact h.2
      · simp only [hl, if_false, hp, Bool.not_false, if_true, Bool.false_eq_true, false_and,
          and_false]
  have h2 : oast_is_valid_preamble s = true ↔
        s.length = 20 ∧ ∀ i, i < s.length → is_base32hex_char (s.getD i 0) = true := by
    rw [← forall_mem_iff_getD (fun c => is_base32hex_char c = true) s]
    unfold oast_is_valid_preamble
    by_cases hl : s.length = 20
    · simp only [hl, ne_eq, not_true_eq_false, if_false, List.all_eq_true, true_and]
    · simp only [ne_eq, hl, not_false_eq_true, if_true, Bool.false_eq_true, false_and]
  refine ⟨h1, h2, ?_, by decide, by decide, by decide⟩
  intro i hi1 hi2 hc
  cases hv : oast_is_valid_subdomain s
  · rfl
  · exfalso
    have hz := (h1.1 hv).2.2 i hi1 hi2
    rcases hc with e | e
    · rw [e] at hz; exact absurd hz (by decide)
    · rw [e] at hz; exact absurd hz (by decide)

/-! ## Character tests at the NUL byte, `get_oast_subdomain`, the table -/

theorem is_base32hex_char_mem (c : Nat) :
    is_base32hex_char c = true ↔
      tolower c ∈ bytes "0123456789abcdefghijklmnopqrstuv" ∨ c = 0 := by
  have h := strchr_isSome (bytes "0123456789abcdefghijklmnopqrstuv") (tolower c) (by decide)
  unfold is_base32hex_char BASE32HEX_ALPHABET
  rw [h, tolower_eq_zero]

theorem is_zbase32_char_mem (c : Nat) :
    is_zbase32_char c = true ↔
      tolower c ∈ bytes "ybndrfg8ejkmcpqxot1uwisza345h769" ∨ c = 0 := by
  have h := strchr_isSome (bytes "ybndrfg8ejkmcpqxot1uwisza345h769") (tolower c) (by decide)
  unfold is_zbase32_char ZBASE32_ALPHABET
  rw [h, tolower_eq_zero]

/-- C23 fails on the code at the NUL byte: `strchr` finds the terminating NUL of
the alphabet arrays, so `is_base32hex_char` and `is_zbase32_char` accept the
byte 0. For every other byte both are the membership tests the claim states,
and `.`, `-`, `_` are rejected by both. -/
theorem char_tests_accept_nul :
    is_base32hex_char 0 = true
    ∧ is_zbase32_char 0 = true
    ∧ tolower 0 ∉ bytes "0123456789abcdefghijklmnopqrstuv"
    ∧ tolower 0 ∉ bytes "ybndrfg8ejkmcpqxot1uwisza345h769"
    ∧ (∀ c, c ≠ 0 →
        (is_base32hex_char c = true ↔ tolower c ∈ bytes "0123456789abcdefghijklmnopqrstuv"))
    ∧ (∀ c, c ≠ 0 →
        (is_zbase32_char c = true ↔ tolower c ∈ bytes "ybndrfg8ejkmcpqxot1uwisza345h769"))
    ∧ (bytes "0123456789abcdefghijklmnopqrstuv").length = 32
    ∧ (bytes "ybndrfg8ejkmcpqxot1uwisza345h769").length = 32
    ∧ is_base32hex_char 46 = false ∧ is_base32hex_char 45 = false
    ∧ is_base32hex_char 95 = false
    ∧ is_zbase32_char 46 = false ∧ is_zbase32_char 45 = false
    ∧ is_zbase32_char 95 = false := by
  refine ⟨by decide, by decide, by decide, by decide, ?_, ?_, by decide, by decide, by decide,
    by decide, by decide, by decide, by decide, by decide⟩
  · intro c hc
    rw [is_base32hex_char_mem]
    constructor
    · rintro (h | h)
      · exact h
      · exact absurd h hc
    · exact Or.inl
  · intro c hc
    rw [is_zbase32_char_mem]
    constructor
    · rintro (h | h)
      · exact h
      · exact absurd h hc
    · exact Or.inl

/-- C24: for `t = sub ++ "." ++ s` with `s` a known suffix and `sub` not empty,
`get_oast_subdomain` returns the length `length(t) - length(s) - 1` and the
pointer `t` itself, a span at offset 0 that is exactly `sub`; for `t` a known
suffix, and for `t` that ends in no known suffix, it returns 0. -/
theorem get_oast_subdomain_spec :
    (∀ sub s : List Nat, s ∈ KNOWN_OAST_DOMAINS → sub ≠ [] →
      get_oast_subdomain (sub ++ bytes "." ++ s)
          = ((sub ++ bytes "." ++ s).length - s.length - 1, some (sub ++ bytes "." ++ s))
      ∧ (sub ++ bytes "." ++ s).length - s.length - 1 = sub.length
      ∧ (sub ++ bytes "." ++ s).take ((sub ++ bytes "." ++ s).length - s.length - 1) = sub)
    ∧ (∀ s ∈ KNOWN_OAST_DOMAINS, get_oast_subdomain s = (0, none))
    ∧ (∀ t : List Nat, (∀ s ∈ KNOWN_OAST_DOMAINS, ¬ s <:+ t) →
        get_oast_subdomain t = (0, none)) := by
  have hdot : bytes "." = [46] := by decide
  refine ⟨?_, by decide, ?_⟩
  · intro sub s hs hsub
    rw [hdot]
    have hlen : (sub ++ [46] ++ s).length = sub.length + 1 + s.length := by
      simp only [List.length_append, List.length_singleton]
    have hsl : 0 < sub.length := List.length_pos.2 hsub
    have hdrop : (sub ++ [46] ++ s).drop ((sub ++ [46] ++ s).length - s.length) = s := by
      rw [hlen, Nat.add_sub_cancel]
      have : (sub ++ [46]).length = sub.length + 1 := by simp
      rw [← this, List.drop_left]
    have hd46 : (sub ++ [46] ++ s).getD ((sub ++ [46] ++ s).length - s.length - 1) 0 = 46 := by
      rw [hlen, Nat.add_sub_cancel, Nat.add_sub_cancel, List.append_assoc,
        List.getD_append_right _ _ _ _ (Nat.le_refl _)]
      simp
    have hk : is_known_oast_domain (sub ++ [46] ++ s) = some s :=
      (is_known_oast_domain_iff _ _).2 ⟨hs, by omega, hdrop, Or.inr hd46⟩
    have hne : ¬ (sub ++ [46] ++ s).length = s.length := by omega
    refine ⟨?_, by omega, ?_⟩
    · unfold get_oast_subdomain
      simp only [hk, hne, if_false]
    · rw [hlen, Nat.add_sub_cancel, Nat.add_sub_cancel, List.append_assoc, List.take_left]
  · intro t hno
    cases hk : is_known_oast_domain t with
    | none => simp only [get_oast_subdomain, hk]
    | some s =>
      exfalso
      obtain ⟨hs, hl, hd, _⟩ := (is_known_oast_domain_iff t s).1 hk
      apply hno s hs
      rw [← hd]
      exact List.drop_suffix _ _

/-- A witness for C24: the subdomain `bst1o05anf609kg004m0ybndrfg8ejkmc` before
`oast.pro`, and a text that ends in no known suffix. -/
theorem get_oast_subdomain_spec_witness :
    (bytes "bst1o05anf609kg004m0ybndrfg8ejkmc" ++ bytes "." ++ bytes "oast.pro").length
        - (bytes "oast.pro").length - 1
      = (bytes "bst1o05anf609kg004m0ybndrfg8ejkmc").length
    ∧ get_oast_subdomain (bytes "example.com") = (0, none) :=
  ⟨(get_oast_subdomain_spec.1 (bytes "bst1o05anf609kg004m0ybndrfg8ejkmc") (bytes "oast.pro")
      (by decide) (by decide)).2.1,
   get_oast_subdomain_spec.2.2 (bytes "example.com") (by decide)⟩

theorem known_prefix_free : ∀ s ∈ KNOWN_OAST_DOMAINS, ∀ s' ∈ KNOWN_OAST_DOMAINS,
    s <+: s' → s = s' := by
  decide

theorem known_prefix_free_lower : ∀ s ∈ KNOWN_OAST_DOMAINS, ∀ s' ∈ KNOWN_OAST_DOMAINS,
    s.length ≤ s'.length →
    (∀ j, j < s.length → tolower (s.getD j 0) = tolower (s'.getD j 0)) → s = s' := by
  decide

theorem known_same_start (text : List Nat) (p : Nat) (s s' : List Nat)
    (hs : s ∈ KNOWN_OAST_DOMAINS) (hs' : s' ∈ KNOWN_OAST_DOMAINS)
    (h : ∀ j, j < s.length → tolower (text.getD (p + j) 0) = tolower (s.getD j 0))
    (h' : ∀ j, j < s'.length → tolower (text.getD (p + j) 0) = tolower (s'.getD j 0)) :
    s = s' := by
  rcases Nat.le_total s.length s'.length with hle | hle
  · exact known_prefix_free_lower s hs s' hs' hle
      (fun j hj => (h j hj).symm.trans (h' j (by omega)))
  · exact (known_prefix_free_lower s' hs' s hs hle
      (fun j hj => (h' j hj).symm.trans (h j (by omega)))).symm

/-- C30: at most one entry of `KNOWN_OAST_DOMAINS` is a suffix of a byte string,
no entry is a prefix of another, the result of `is_known_oast_domain` is the
same for every ordering of the table, and at a text offset at most one entry
can start, also when letter case is ignored. -/
theorem known_suffix_list_unambiguous :
    (∀ t s s' : List Nat, s ∈ KNOWN_OAST_DOMAINS → s' ∈ KNOWN_OAST_DOMAINS →
      s <:+ t → s' <:+ t → s = s')
    ∧ (∀ s ∈ KNOWN_OAST_DOMAINS, ∀ s' ∈ KNOWN_OAST_DOMAINS, s <+: s' → s = s')
    ∧ (∀ (tbl : List (List Nat)) (t : List Nat), tbl.Perm KNOWN_OAST_DOMAINS →
        is_known_oast_domain_loop tbl t = is_known_oast_domain t)
    ∧ (∀ (text : List Nat) (p : Nat) (s s' : List Nat),
        s ∈ KNOWN_OAST_DOMAINS → s' ∈ KNOWN_OAST_DOMAINS →
        s <+: text.drop p → s' <+: text.drop p → s = s')
    ∧ (∀ (text : List Nat) (p : Nat) (s s' : List Nat),
        s ∈ KNOWN_OAST_DOMAINS → s' ∈ KNOWN_OAST_DOMAINS →
        (∀ j, j < s.length → tolower (text.getD (p + j) 0) = tolower (s.getD j 0)) →
        (∀ j, j < s'.length → tolower (text.getD (p + j) 0) = tolower (s'.getD j 0)) →
        s = s') := by
  refine ⟨?_, known_prefix_free, ?_, ?_, known_same_start⟩
  · intro t s s' hs hs' h h'
    have e := List.suffix_iff_eq_drop.1 h
    have e' := List.suffix_iff_eq_drop.1 h'
    exact known_suffix_same t s s' hs hs' h.length_le h'.length_le e.symm e'.symm
  · intro tbl t hperm
    cases hk : is_known_oast_domain t with
    | none =>
      cases hl : is_known_oast_domain_loop tbl t with
      | none => rfl
      | some s' =>
        exfalso
        obtain ⟨hm, hc⟩ := is_known_loop_some tbl t s' hl
        have := (is_known_oast_domain_iff t s').2 ⟨hperm.mem_iff.1 hm, hc⟩
        rw [hk] at this
        exact absurd this (by simp)
    | some s =>
      obtain ⟨hs, hl, hd, hdot⟩ := (is_known_oast_domain_iff t s).1 hk
      obtain ⟨s', hk'⟩ := is_known_loop_complete tbl t s (hperm.mem_iff.2 hs) ⟨hl, hd, hdot⟩
      obtain ⟨hm', hl', hd', _⟩ := is_known_loop_some tbl t s' hk'
      have : s = s' := known_suffix_same t s s' hs (hperm.mem_iff.1 hm') hl hl' hd hd'
      rw [hk', this]
  · intro text p s s' hs hs' h h'
    rcases Nat.le_total s.length s'.length with hle | hle
    · exact known_prefix_free s hs s' hs' (List.prefix_of_prefix_length_le h h' hle)
    · exact (known_prefix_free s' hs' s hs (List.prefix_of_prefix_length_le h' h hle)).symm

/-- A witness for C30: the two suffixes that share the letters `interact`. -/
theorem known_suffix_list_unambiguous_witness :
    is_known_oast_domain_loop
        [bytes "interactsh.com", bytes "interact.sh", bytes "oast.me", bytes "oast.fun",
         bytes "oast.online", bytes "oast.site", bytes "oast.live", bytes "oast.pro"]
        (bytes "x.interact.sh")
      = is_known_oast_domain (bytes "x.interact.sh") :=
  known_suffix_list_unambiguous.2.2.1 _ (bytes "x.interact.sh") (by decide)

/-! ## oast_extract -/

theorem walk_back_spec (text : List Nat) : ∀ (fuel p : Nat), p ≤ fuel →
    ∃ s : Nat, walk_back text fuel ((p : Int) - 1) = (s : Int) - 1 ∧ s ≤ p
      ∧ (∀ j, s ≤ j → j < p → is_subdomain_char (text.getD j 0) = true)
      ∧ (0 < s → is_subdomain_char (text.getD (s - 1) 0) = false) := by
  intro fuel
  induction fuel with
  | zero =>
    intro p hp
    have : p = 0 := by omega
    subst this
    exact ⟨0, rfl, Nat.le_refl _, fun j h1 h2 => by omega, fun h => by omega⟩
  | succ fuel ih =>
    intro p hp
    cases p with
    | zero =>
      refine ⟨0, ?_, Nat.le_refl _, fun j h1 h2 => by omega, fun h => by omega⟩
      unfold walk_back
      have : ¬ (0 ≤ ((0 : Nat) : Int) - 1
          ∧ is_subdomain_char (text.getD (((0 : Nat) : Int) - 1).toNat 0) = true) := by
        intro h; omega
      rw [if_neg this]
    | succ q =>
      have e : ((q + 1 : Nat) : Int) - 1 = (q : Int) := by omega
      rw [e]
      unfold walk_back
      by_cases hc : is_subdomain_char (text.getD q 0) = true
      · have hcond : 0 ≤ (q : Int) ∧ is_subdomain_char (text.getD (q : Int).toNat 0) = true :=
          ⟨by omega, by simpa using hc⟩
        rw [if_pos hcond]
        obtain ⟨s, hs, hle, hall, hstop⟩ := ih q (by omega)
        refine ⟨s, hs, by omega, ?_, hstop⟩
        intro j h1 h2
        by_cases hj : j < q
        · exact hall j h1 hj
        · have : j = q := by omega
          subst this; exact hc
      · have hcond : ¬ (0 ≤ (q : Int)
            ∧ is_subdomain_char (text.getD (q : Int).toNat 0) = true) := by
          intro h; apply hc; simpa using h.2
        rw [if_neg hcond]
        refine ⟨q + 1, by omega, Nat.le_refl _, fun j h1 h2 => by omega, ?_⟩
        intro _
        simpa using hc

theorem int_of_size_t_small (n : Nat) (h : n < 2 ^ 31) : int_of_size_t n = (n : Int) := by
  unfold int_of_size_t
  have h1 : n % 2 ^ 32 = n := Nat.mod_eq_of_lt (by omega)
  rw [h1, if_pos h]

theorem size_t_of_int_small (n : Nat) (h : n < 2 ^ 64) : size_t_of_int (n : Int) = n := by
  unfold size_t_of_int
  omega

theorem all_congr_mem (l : List Nat) (f g : Nat → Bool) (h : ∀ x ∈ l, f x = g x) :
    l.all f = l.all g := by
  induction l with
  | nil => rfl
  | cons a rest ih =>
    simp only [List.all_cons]
    rw [h a (List.mem_cons_self _ _), ih (fun x hx => h x (List.mem_cons_of_mem _ hx))]

theorem find_subdomain_start_eq (text : List Nat) (dot_pos : Nat) (h0 : 0 < dot_pos)
    (h : dot_pos < 2 ^ 31) :
    ∃ s : Nat, s ≤ dot_pos
      ∧ (∀ j, s ≤ j → j < dot_pos → is_subdomain_char (text.getD j 0) = true)
      ∧ (0 < s → is_subdomain_char (text.getD (s - 1) 0) = false)
      ∧ find_subdomain_start text dot_pos =
          if dot_pos - s < 33 then -1
          else if !(List.range 20).all (fun i => is_base32hex_char (text.getD (s + i) 0)) then -1
          else if !(List.range' 20 (dot_pos - s - 20)).all
              (fun i =>
                !(!is_zbase32_char (tolower (text.getD (s + i) 0))
                  && tolower (text.getD (s + i) 0) != 45
                  && tolower (text.getD (s + i) 0) != 95)) then -1
          else (s : Int) := by
  obtain ⟨s, hs, hle, hall, hstop⟩ := walk_back_spec text dot_pos dot_pos (Nat.le_refl _)
  refine ⟨s, hle, hall, hstop, ?_⟩
  have hne : ¬ dot_pos = 0 := by omega
  have e1 : (s : Int) - 1 + 1 = (s : Int) := by omega
  have e2 : (dot_pos + 2 ^ 64 - s) % 2 ^ 64 = dot_pos - s := by omega
  have a1 : (List.range 20).all
        (fun i => is_base32hex_char (text.getD ((s + i) % 2 ^ 64) 0))
      = (List.range 20).all (fun i => is_base32hex_char (text.getD (s + i) 0)) := by
    apply all_congr_mem
    intro i hi
    rw [List.mem_range] at hi
    have : (s + i) % 2 ^ 64 = s + i := Nat.mod_eq_of_lt (by omega)
    rw [this]
  have a2 : (List.range' 20 (dot_pos - s - 20)).all
        (fun i =>
          let c := tolower (text.getD ((s + i) % 2 ^ 64) 0)
          !(!is_zbase32_char c && c != 45 && c != 95))
      = (List.range' 20 (dot_pos - s - 20)).all
        (fun i =>
          !(!is_zbase32_char (tolower (text.getD (s + i) 0))
            && tolower (text.getD (s + i) 0) != 45
            && tolower (text.getD (s + i) 0) != 95)) := by
    apply all_congr_mem
    intro i hi
    rw [List.mem_range'_1] at hi
    have : (s + i) % 2 ^ 64 = s + i := Nat.mod_eq_of_lt (by omega)
    simp only [this]
  unfold find_subdomain_start
  simp only [hne, if_false, int_of_size_t_small dot_pos h, hs, e1,
    size_t_of_int_small s (by omega), e2, a1, a2]

theorem find_subdomain_start_sound (text : List Nat) (dot_pos : Nat) (h : dot_pos < 2 ^ 31)
    (hres : ¬ find_subdomain_start text dot_pos < 0) :
    ∃ s : Nat, find_subdomain_start text dot_pos = (s : Int) ∧ s + 33 ≤ dot_pos
      ∧ (∀ j, s ≤ j → j < dot_pos → is_subdomain_char (text.getD j 0) = true)
      ∧ (0 < s → is_subdomain_char (text.getD (s - 1) 0) = false)
      ∧ (∀ i, i < 20 → in_base32hex (text.getD (s + i) 0))
      ∧ (∀ i, 20 ≤ i → i < dot_pos - s →
          in_zbase32 (text.getD (s + i) 0)
            ∨ text.getD (s + i) 0 = 45 ∨ text.getD (s + i) 0 = 95) := by
  have h0 : 0 < dot_pos := by
    rcases Nat.eq_zero_or_pos dot_pos with e | e
    · exfalso
      apply hres
      subst e
      simp [find_subdomain_start]
    · exact e
  obtain ⟨s, hle, hall, hstop, heq⟩ := find_subdomain_start_eq text dot_pos h0 h
  rw [heq] at hres ⊢
  by_cases c1 : dot_pos - s < 33
  · rw [if_pos c1] at hres; exact absurd (by decide) hres
  rw [if_neg c1] at hres ⊢
  by_cases c2 : (!(List.range 20).all (fun i => is_base32hex_char (text.getD (s + i) 0))) = true
  · rw [if_pos c2] at hres; exact absurd (by decide) hres
  rw [if_neg c2] at hres ⊢
  by_cases c3 : (!(List.range' 20 (dot_pos - s - 20)).all
              (fun i =>
                !(!is_zbase32_char (tolower (text.getD (s + i) 0))
                  && tolower (text.getD (s + i) 0) != 45
                  && tolower (text.getD (s + i) 0) != 95))) = true
  · rw [if_pos c3] at hres; exact absurd (by decide) hres
  rw [if_neg c3]
  refine ⟨s, rfl, by omega, hall, hstop, ?_, ?_⟩
  · intro i hi
    simp only [Bool.not_eq_true', Bool.not_eq_false, List.all_eq_true, List.mem_range] at c2
    have hb := c2 i hi
    have hsub := hall (s + i) (by omega) (by omega)
    rcases (is_base32hex_char_iff _).1 hb with hz | hz
    · exact absurd hz (is_subdomain_char_ne _ hsub).1
    · exact hz
  · intro i hi1 hi2
    simp only [Bool.not_eq_true', Bool.not_eq_false, List.all_eq_true, List.mem_range'_1] at c3
    have hb := c3 i ⟨hi1, by omega⟩
    have hsub := hall (s + i) (by omega) (by omega)
    have hnz := (is_subdomain_char_ne _ hsub).1
    simp only [Bool.not_eq_true', Bool.and_eq_false_imp, Bool.and_eq_true, Bool.not_eq_true',
      bne_iff_ne, ne_eq, Bool.not_eq_false, is_zbase32_char_tolower] at hb
    by_cases hz : is_zbase32_char (text.getD (s + i) 0) = true
    · rcases (is_zbase32_char_iff _).1 hz with hh | hh
      · exact absurd hh hnz
      · exact Or.inl hh
    · by_cases h45 : tolower (text.getD (s + i) 0) = 45
      · exact Or.inr (Or.inl ((tolower_eq_iff_of_nonletter _ 45 (by omega) (by omega)).1 h45))
      · have h95 := hb ⟨by simpa using hz, h45⟩
        simp only [bne_eq_false_iff_eq] at h95
        exact Or.inr (Or.inr ((tolower_eq_iff_of_nonletter _ 95 (by omega) (by omega)).1 h95))

theorem domain_at_spec (text domain : List Nat) (pos : Nat)
    (h : domain_at text domain pos = true) :
    ∀ j, j < domain.length → tolower (text.getD (pos + j) 0) = tolower (domain.getD j 0) := by
  intro j hj
  unfold domain_at at h
  simp only [List.all_eq_true, List.mem_range, beq_iff_eq] at h
  exact h j hj

theorem known_domain_last : ∀ d ∈ KNOWN_OAST_DOMAINS,
    0 < d.length ∧ tolower (d.getD (d.length - 1) 0) ≠ 46 := by
  decide

theorem scan_domain_sound (text domain : List Nat) (hd : domain ∈ KNOWN_OAST_DOMAINS)
    (hlen : text.length < 2 ^ 31) (hdl : domain.length ≤ text.length) :
    ∀ (fuel pos : Nat), ∀ m ∈ scan_domain text domain fuel pos,
      sound_match text m ∧ m.domain = domain ∧ pos ≤ m.start_idx + m.subdomain_len + 1 := by
  intro fuel
  induction fuel with
  | zero => intro pos m hm; simp [scan_domain] at hm
  | succ fuel ih =>
    intro pos m hm
    have step : ∀ m ∈ scan_domain text domain fuel (pos + 1),
        sound_match text m ∧ m.domain = domain ∧ pos ≤ m.start_idx + m.subdomain_len + 1 := by
      intro m' hm'
      obtain ⟨h1, h2, h3⟩ := ih (pos + 1) m' hm'
      exact ⟨h1, h2, by omega⟩
    unfold scan_domain at hm
    by_cases c0 : pos ≤ text.length - domain.length
    swap
    · rw [if_neg c0] at hm; simp at hm
    rw [if_pos c0] at hm
    by_cases c1 : (!domain_at text domain pos) = true
    · rw [if_pos c1] at hm; exact step m hm
    rw [if_neg c1] at hm
    by_cases c2 : pos = 0 ∨ text.getD (pos - 1) 0 ≠ 46
    · rw [if_pos c2] at hm; exact step m hm
    rw [if_neg c2] at hm
    simp only [] at hm
    by_cases c3 : find_subdomain_start text (pos - 1) < 0
    · rw [if_pos c3] at hm; exact step m hm
    rw [if_neg c3] at hm
    obtain ⟨s, hs, hs33, hall, hstop, hpre, hnonce⟩ :=
      find_subdomain_start_sound text (pos - 1) (by omega) c3
    rw [hs] at hm
    by_cases c4 : 0 < (s : Int) ∧ is_subdomain_char (text.getD ((s : Int) - 1).toNat 0) = true
    · rw [if_pos c4] at hm; exact step m hm
    rw [if_neg c4] at hm
    by_cases c5 : pos + domain.length < text.length
        ∧ (is_subdomain_char (text.getD (pos + domain.length) 0) = true
            ∨ text.getD (pos + domain.length) 0 = 46)
    · rw [if_pos c5] at hm; exact step m hm
    rw [if_neg c5] at hm
    have hpos : 0 < pos := by
      rcases Nat.eq_zero_or_pos pos with e | e
      · exact absurd (Or.inl e) c2
      · exact e
    have hdot : text.getD (pos - 1) 0 = 46 := by
      by_contra hne
      exact c2 (Or.inr hne)
    have hat : domain_at text domain pos = true := by
      cases hb : domain_at text domain pos
      · rw [hb] at c1; exact absurd rfl c1
      · rfl
    rcases List.mem_cons.1 hm with hm1 | hm2
    · subst hm1
      simp only [Int.toNat_ofNat]
      refine ⟨⟨hd, by dsimp only; omega, ?_, ?_, by dsimp only; omega, by dsimp only; omega,
        rfl, rfl, rfl, hpre, ?_, ?_, ?_, ?_⟩, trivial, by omega⟩
      all_goals dsimp only
      · have : s + (pos - 1 - s) = pos - 1 := by omega
        rw [this]; exact hdot
      · intro j hj
        have : s + (pos - 1 - s) + 1 + j = pos + j := by omega
        rw [this]
        exact domain_at_spec text domain pos hat j hj
      · intro i hi1 hi2
        exact hnonce i hi1 hi2
      · intro i hi
        exact hall (s + i) (by omega) (by omega)
      · rcases Nat.eq_zero_or_pos s with e | e
        · exact Or.inl e
        · exact Or.inr (hstop e)
      · by_cases he : pos + domain.length = text.length
        · exact Or.inl he
        · right
          have hlt : pos + domain.length < text.length := by omega
          constructor
          · cases hb : is_subdomain_char (text.getD (pos + domain.length) 0)
            · rfl
            · exact absurd ⟨hlt, Or.inl hb⟩ c5
          · intro h46
            exact c5 ⟨hlt, Or.inr h46⟩
    · obtain ⟨h1, h2, h3⟩ := ih _ m hm2
      have := (known_domain_last domain hd).1
      exact ⟨h1, h2, by omega⟩

theorem extract_loop_sound (text : List Nat) (hlen : text.length < 2 ^ 31) :
    ∀ tbl : List (List Nat), (∀ d ∈ tbl, d ∈ KNOWN_OAST_DOMAINS) →
      ∀ m ∈ extract_loop text tbl, sound_match text m ∧ m.domain ∈ tbl := by
  intro tbl
  induction tbl with
  | nil => intro _ m hm; simp [extract_loop] at hm
  | cons d rest ih =>
    intro hk m hm
    have hrest : ∀ m ∈ extract_loop text rest, sound_match text m ∧ m.domain ∈ d :: rest := by
      intro m' hm'
      obtain ⟨h1, h2⟩ := ih (fun x hx => hk x (List.mem_cons_of_mem _ hx)) m' hm'
      exact ⟨h1, List.mem_cons_of_mem _ h2⟩
    unfold extract_loop at hm
    by_cases c : text.length < d.length
    · rw [if_pos c] at hm; exact hrest m hm
    · rw [if_neg c] at hm
      rcases List.mem_append.1 hm with h | h
      · obtain ⟨h1, h2, _⟩ := scan_domain_sound text d (hk d (List.mem_cons_self _ _)) hlen
          (by omega) _ _ m h
        exact ⟨h1, by rw [h2]; exact List.mem_cons_self _ _⟩
      · exact hrest m h

theorem oast_extract_sound (text : List Nat) (hlen : text.length < 2 ^ 31) :
    ∀ m ∈ oast_extract text, sound_match text m := by
  intro m hm
  unfold oast_extract at hm
  split_ifs at hm
  · simp at hm
  · exact (extract_loop_sound text hlen KNOWN_OAST_DOMAINS (fun d hd => hd) m hm).1

theorem valid_subdomain_parts (S : List Nat) (h : oast_is_valid_subdomain S = true) :
    33 ≤ S.length ∧ (∀ c ∈ S.take 20, is_base32hex_char c = true)
      ∧ (∀ c ∈ S.drop 20, is_zbase32_char c = true) := by
  have h1 : ¬ S.length < 33 := by
    intro hlt
    simp [oast_is_valid_subdomain, hlt] at h
  simp only [oast_is_valid_subdomain, h1, if_false] at h
  have hp : oast_is_valid_preamble (S.take 20) = true := by
    cases hb : oast_is_valid_preamble (S.take 20)
    · rw [hb] at h; simp at h
    · rfl
  rw [hp] at h
  simp only [Bool.not_true, Bool.false_eq_true, if_false, List.all_eq_true] at h
  have hl : ¬ (S.take 20).length ≠ 20 := by
    simp only [List.length_take]
    omega
  simp only [oast_is_valid_preamble, hl, if_false, List.all_eq_true] at hp
  exact ⟨by omega, hp, h⟩

theorem valid_subdomain_no_dot (S : List Nat) (h : oast_is_valid_subdomain S = true) :
    ∀ c ∈ S, c ≠ 46 := by
  obtain ⟨_, h2, h3⟩ := valid_subdomain_parts S h
  have hb : ∀ c, is_base32hex_char c = true → c ≠ 46 := by
    intro c hc e
    subst e
    exact absurd hc (by decide)
  have hz : ∀ c, is_zbase32_char c = true → c ≠ 46 := by
    intro c hc e
    subst e
    exact absurd hc (by decide)
  intro c hc
  rw [← List.take_append_drop 20 S] at hc
  rcases List.mem_append.1 hc with hh | hh
  · exact hb c (h2 c hh)
  · exact hz c (h3 c hh)

/-! ## oast_extract on texts of any length

The lemmas above cover texts shorter than `2 ^ 31` bytes, where the cast
`(int)dot_pos` of `find_subdomain_start` keeps the offset. The lemmas of this
section hold without that bound. -/

theorem walk_back_neg (text : List Nat) (fuel : Nat) (pos : Int) (h : pos < 0) :
    walk_back text fuel pos = pos := by
  cases fuel with
  | zero => rfl
  | succ n =>
    unfold walk_back
    rw [if_neg (fun hh => by omega)]

theorem int_of_size_t_wrap (n : Nat) (h : 2 ^ 31 ≤ n % 2 ^ 32) : int_of_size_t n < 0 := by
  unfold int_of_size_t
  rw [if_neg (by omega)]
  have := Nat.mod_lt n (show 0 < 2 ^ 32 by norm_num)
  omega

theorem int_of_size_t_low (n : Nat) (h : n % 2 ^ 32 < 2 ^ 31) :
    int_of_size_t n = ((n % 2 ^ 32 : Nat) : Int) := by
  unfold int_of_size_t
  rw [if_pos h]

/-- When the cast `(int)dot_pos` is negative, `find_subdomain_start` returns a
negative number, whatever the bytes it reads. -/
theorem find_subdomain_start_wrap (text : List Nat) (d : Nat) (h : 2 ^ 31 ≤ d % 2 ^ 32) :
    find_subdomain_start text d < 0 := by
  have hk := int_of_size_t_wrap d h
  unfold find_subdomain_start
  rw [walk_back_neg text d (int_of_size_t d - 1) (by omega)]
  simp only []
  split_ifs <;> omega

theorem find_subdomain_start_nonneg (text : List Nat) (d : Nat)
    (hres : ¬ find_subdomain_start text d < 0) :
    ∃ s : Nat, find_subdomain_start text d = (s : Int) ∧ 0 < d ∧ d % 2 ^ 32 < 2 ^ 31
      ∧ s ≤ d % 2 ^ 32
      ∧ (∀ j, s ≤ j → j < d % 2 ^ 32 → is_subdomain_char (text.getD j 0) = true)
      ∧ (0 < s → is_subdomain_char (text.getD (s - 1) 0) = false)
      ∧ 33 ≤ (d + 2 ^ 64 - s) % 2 ^ 64
      ∧ (∀ i, i < 20 → is_base32hex_char (text.getD ((s + i) % 2 ^ 64) 0) = true)
      ∧ (∀ i, 20 ≤ i → i < (d + 2 ^ 64 - s) % 2 ^ 64 →
          (!(!is_zbase32_char (tolower (text.getD ((s + i) % 2 ^ 64) 0))
            && tolower (text.getD ((s + i) % 2 ^ 64) 0) != 45
            && tolower (text.getD ((s + i) % 2 ^ 64) 0) != 95)) = true) := by
  have h0 : 0 < d := by
    rcases Nat.eq_zero_or_pos d with e | e
    · exfalso
      apply hres
      subst e
      simp [find_subdomain_start]
    · exact e
  have hk : d % 2 ^ 32 < 2 ^ 31 := by
    by_contra hge
    exact hres (find_subdomain_start_wrap text d (by omega))
  obtain ⟨s, hs, hle, hall, hstop⟩ :=
    walk_back_spec text d (d % 2 ^ 32) (Nat.mod_le _ _)
  have hne : ¬ d = 0 := by omega
  have e1 : (s : Int) - 1 + 1 = (s : Int) := by omega
  have hs64 : s < 2 ^ 64 := by omega
  have hfs : find_subdomain_start text d =
      if (d + 2 ^ 64 - s) % 2 ^ 64 < 33 then -1
      else if !(List.range 20).all
          (fun i => is_base32hex_char (text.getD ((s + i) % 2 ^ 64) 0)) then -1
      else if !(List.range' 20 ((d + 2 ^ 64 - s) % 2 ^ 64 - 20)).all
          (fun i =>
            !(!is_zbase32_char (tolower (text.getD ((s + i) % 2 ^ 64) 0))
              && tolower (text.getD ((s + i) % 2 ^ 64) 0) != 45
              && tolower (text.getD ((s + i) % 2 ^ 64) 0) != 95)) then -1
      else (s : Int) := by
    unfold find_subdomain_start
    simp only [hne, if_false, int_of_size_t_low d hk, hs, e1, size_t_of_int_small s hs64]
  rw [hfs] at hres ⊢
  by_cases c1 : (d + 2 ^ 64 - s) % 2 ^ 64 < 33
  · rw [if_pos c1] at hres; exact absurd (by decide) hres
  rw [if_neg c1] at hres ⊢
  by_cases c2 : (!(List.range 20).all
      (fun i => is_base32hex_char (text.getD ((s + i) % 2 ^ 64) 0))) = true
  · rw [if_pos c2] at hres; exact absurd (by decide) hres
  rw [if_neg c2] at hres ⊢
  by_cases c3 : (!(List.range' 20 ((d + 2 ^ 64 - s) % 2 ^ 64 - 20)).all
          (fun i =>
            !(!is_zbase32_char (tolower (text.getD ((s + i) % 2 ^ 64) 0))
              && tolower (text.getD ((s + i) % 2 ^ 64) 0) != 45
              && tolower (text.getD ((s + i) % 2 ^ 64) 0) != 95))) = true
  · rw [if_pos c3] at hres; exact absurd (by decide) hres
  rw [if_neg c3]
  refine ⟨s, rfl, h0, hk, hle, hall, hstop, by omega, ?_, ?_⟩
  · intro i hi
    rw [Bool.not_eq_true', Bool.not_eq_false] at c2
    exact List.all_eq_true.1 c2 i (List.mem_range.2 hi)
  · intro i hi1 hi2
    rw [Bool.not_eq_true', Bool.not_eq_false] at c3
    exact List.all_eq_true.1 c3 i (List.mem_range'_1.2 ⟨hi1, by omega⟩)

theorem scan_domain_succ (text domain : List Nat) (fuel pos : Nat) :
    scan_domain text domain (fuel + 1) pos =
      if pos ≤ text.length - domain.length then
        if !domain_at text domain pos then scan_domain text domain fuel (pos + 1)
        else if pos = 0 ∨ text.getD (pos - 1) 0 ≠ 46 then
          scan_domain text domain fuel (pos + 1)
        else
          if find_subdomain_start text (pos - 1) < 0 then scan_domain text domain fuel (pos + 1)
          else if 0 < find_subdomain_start text (pos - 1)
              ∧ is_subdomain_char
                  (text.getD (find_subdomain_start text (pos - 1) - 1).toNat 0) = true then
            scan_domain text domain fuel (pos + 1)
          else
            if pos + domain.length < text.length
                ∧ (is_subdomain_char (text.getD (pos + domain.length) 0) = true
                    ∨ text.getD (pos + domain.length) 0 = 46) then
              scan_domain text domain fuel (pos + 1)
            else
              { full := (find_subdomain_start text (pos - 1)).toNat
                full_len := pos + domain.length - (find_subdomain_start text (pos - 1)).toNat
                subdomain := (find_subdomain_start text (pos - 1)).toNat
                subdomain_len := pos - 1 - (find_subdomain_start text (pos - 1)).toNat
                domain := domain
                start_idx := (find_subdomain_start text (pos - 1)).toNat
                end_idx := pos + domain.length }
                :: scan_domain text domain fuel (pos + domain.length - 1 + 1)
      else [] := rfl

theorem find_subdomain_start_span (text : List Nat) (d : Nat) (hd : d < 2 ^ 64)
    (hres : ¬ find_subdomain_start text d < 0) :
    ∃ s : Nat, find_subdomain_start text d = (s : Int) ∧ s + 33 ≤ d
      ∧ d % 2 ^ 32 < 2 ^ 31 ∧ s ≤ d % 2 ^ 32
      ∧ (0 < s → is_subdomain_char (text.getD (s - 1) 0) = false)
      ∧ (∀ i, i < 20 → is_base32hex_char (text.getD (s + i) 0) = true)
      ∧ (∀ i, 20 ≤ i → i < d - s →
          (!(!is_zbase32_char (tolower (text.getD (s + i) 0))
            && tolower (text.getD (s + i) 0) != 45
            && tolower (text.getD (s + i) 0) != 95)) = true)
      ∧ (∀ j, s ≤ j → j < d → text.getD j 0 ≠ 46)
      ∧ (∀ j, s ≤ j → j < d →
          text.getD j 0 = 0 ∨ is_subdomain_char (text.getD j 0) = true) := by
  obtain ⟨s, hs, h0, hk, hle, hall, hstop, h33, hpre, hnonce⟩ :=
    find_subdomain_start_nonneg text d hres
  have hsd : s ≤ d := Nat.le_trans hle (Nat.mod_le _ _)
  have e2 : (d + 2 ^ 64 - s) % 2 ^ 64 = d - s := by omega
  rw [e2] at h33 hnonce
  have hpre2 : ∀ i, i < 20 → is_base32hex_char (text.getD (s + i) 0) = true := by
    intro i hi
    have := hpre i hi
    rwa [Nat.mod_eq_of_lt (by omega)] at this
  have hnonce2 : ∀ i, 20 ≤ i → i < d - s →
      (!(!is_zbase32_char (tolower (text.getD (s + i) 0))
        && tolower (text.getD (s + i) 0) != 45
        && tolower (text.getD (s + i) 0) != 95)) = true := by
    intro i h1 h2
    have := hnonce i h1 h2
    rwa [Nat.mod_eq_of_lt (by omega)] at this
  have hchars : ∀ j, s ≤ j → j < d →
      text.getD j 0 ≠ 46 ∧ (text.getD j 0 = 0 ∨ is_subdomain_char (text.getD j 0) = true) := by
    intro j hj1 hj2
    obtain ⟨i, rfl⟩ : ∃ i, j = s + i := ⟨j - s, by omega⟩
    by_cases hi : i < 20
    · exact base32hex_test_chars _ (hpre2 i hi)
    · exact nonce_test_chars _ (hnonce2 i (by omega) (by omega))
  exact ⟨s, hs, by omega, hk, hle, hstop, hpre2, hnonce2,
    fun j h1 h2 => (hchars j h1 h2).1, fun j h1 h2 => (hchars j h1 h2).2⟩

/-- Every match of one scan, on a text of any length: the offset `p` of its
suffix, the tests that passed there, and the record that was stored. -/
theorem scan_domain_mem (text domain : List Nat) (hdl : domain.length ≤ text.length) :
    ∀ (fuel pos : Nat), ∀ m ∈ scan_domain text domain fuel pos,
      ∃ p : Nat, pos ≤ p ∧ 0 < p ∧ p + domain.length ≤ text.length
        ∧ domain_at text domain p = true
        ∧ text.getD (p - 1) 0 = 46
        ∧ ¬ find_subdomain_start text (p - 1) < 0
        ∧ (p + domain.length = text.length
            ∨ (is_subdomain_char (text.getD (p + domain.length) 0) = false
                ∧ text.getD (p + domain.length) 0 ≠ 46))
        ∧ m = { full := (find_subdomain_start text (p - 1)).toNat
                full_len := p + domain.length - (find_subdomain_start text (p - 1)).toNat
                subdomain := (find_subdomain_start text (p - 1)).toNat
                subdomain_len := p - 1 - (find_subdomain_start text (p - 1)).toNat
                domain := domain
                start_idx := (find_subdomain_start text (p - 1)).toNat
                end_idx := p + domain.length } := by
  intro fuel
  induction fuel with
  | zero => intro pos m hm; simp [scan_domain] at hm
  | succ fuel ih =>
    intro pos m hm
    have step : ∀ q, pos ≤ q → ∀ m ∈ scan_domain text domain fuel q,
        ∃ p : Nat, pos ≤ p ∧ 0 < p ∧ p + domain.length ≤ text.length
        ∧ domain_at text domain p = true
        ∧ text.getD (p - 1) 0 = 46
        ∧ ¬ find_subdomain_start text (p - 1) < 0
        ∧ (p + domain.length = text.length
            ∨ (is_subdomain_char (text.getD (p + domain.length) 0) = false
                ∧ text.getD (p + domain.length) 0 ≠ 46))
        ∧ m = { full := (find_subdomain_start text (p - 1)).toNat
                full_len := p + domain.length - (find_subdomain_start text (p - 1)).toNat
                subdomain := (find_subdomain_start text (p - 1)).toNat
                subdomain_len := p - 1 - (find_subdomain_start text (p - 1)).toNat
                domain := domain
                start_idx := (find_subdomain_start text (p - 1)).toNat
                end_idx := p + domain.length } := by
      intro q hq m' hm'
      obtain ⟨p, h1, h2⟩ := ih q m' hm'
      exact ⟨p, by omega, h2⟩
    rw [scan_domain_succ] at hm
    by_cases c0 : pos ≤ text.length - domain.length
    swap
    · rw [if_neg c0] at hm; simp at hm
    rw [if_pos c0] at hm
    by_cases c1 : (!domain_at text domain pos) = true
    · rw [if_pos c1] at hm; exact step _ (by omega) m hm
    rw [if_neg c1] at hm
    by_cases c2 : pos = 0 ∨ text.getD (pos - 1) 0 ≠ 46
    · rw [if_pos c2] at hm; exact step _ (by omega) m hm
    rw [if_neg c2] at hm
    by_cases c3 : find_subdomain_start text (pos - 1) < 0
    · rw [if_pos c3] at hm; exact step _ (by omega) m hm
    rw [if_neg c3] at hm
    by_cases c4 : 0 < find_subdomain_start text (pos - 1)
        ∧ is_subdomain_char
            (text.getD (find_subdomain_start text (pos - 1) - 1).toNat 0) = true
    · rw [if_pos c4] at hm; exact step _ (by omega) m hm
    rw [if_neg c4] at hm
    by_cases c5 : pos + domain.length < text.length
        ∧ (is_subdomain_char (text.getD (pos + domain.length) 0) = true
            ∨ text.getD (pos + domain.length) 0 = 46)
    · rw [if_pos c5] at hm; exact step _ (by omega) m hm
    rw [if_neg c5] at hm
    rcases List.mem_cons.1 hm with hm1 | hm2
    · have hpos : 0 < pos := by
        rcases Nat.eq_zero_or_pos pos with e | e
        · exact absurd (Or.inl e) c2
        · exact e
      have hdot : text.getD (pos - 1) 0 = 46 := by
        by_contra hne
        exact c2 (Or.inr hne)
      have hat : domain_at text domain pos = true := by
        cases hb : domain_at text domain pos
        · rw [hb] at c1; exact absurd rfl c1
        · rfl
      refine ⟨pos, Nat.le_refl _, hpos, by omega, hat, hdot, c3, ?_, hm1⟩
      by_cases he : pos + domain.length = text.length
      · exact Or.inl he
      · right
        have hlt : pos + domain.length < text.length := by omega
        constructor
        · cases hb : is_subdomain_char (text.getD (pos + domain.length) 0)
          · rfl
          · exact absurd ⟨hlt, Or.inl hb⟩ c5
        · intro h46
          exact c5 ⟨hlt, Or.inr h46⟩
    · exact step _ (by omega) m hm2

theorem extract_loop_mem (text : List Nat) :
    ∀ tbl : List (List Nat), ∀ m ∈ extract_loop text tbl,
      ∃ domain ∈ tbl, domain.length ≤ text.length
        ∧ m ∈ scan_domain text domain (text.length + 1) 0 := by
  intro tbl
  induction tbl with
  | nil => intro m hm; simp [extract_loop] at hm
  | cons d rest ih =>
    intro m hm
    have hrest : ∀ m ∈ extract_loop text rest,
        ∃ domain ∈ d :: rest, domain.length ≤ text.length
          ∧ m ∈ scan_domain text domain (text.length + 1) 0 := by
      intro m' hm'
      obtain ⟨x, hx, h⟩ := ih m' hm'
      exact ⟨x, List.mem_cons_of_mem _ hx, h⟩
    unfold extract_loop at hm
    by_cases c : text.length < d.length
    · rw [if_pos c] at hm; exact hrest m hm
    · rw [if_neg c] at hm
      rcases List.mem_append.1 hm with h | h
      · exact ⟨d, List.mem_cons_self _ _, by omega, h⟩
      · exact hrest m h

/-- Every match of `oast_extract`, on a text of any length, comes from an
offset `p` at which a known suffix stands after a dot, with the boundary after
the suffix kept and a start that `find_subdomain_start` returned. -/
theorem oast_extract_mem (text : List Nat) (m : oast_match_t) (hm : m ∈ oast_extract text) :
    ∃ p : Nat, 0 < p ∧ p + m.domain.length ≤ text.length
      ∧ m.domain ∈ KNOWN_OAST_DOMAINS
      ∧ domain_at text m.domain p = true
      ∧ text.getD (p - 1) 0 = 46
      ∧ ¬ find_subdomain_start text (p - 1) < 0
      ∧ (p + m.domain.length = text.length
          ∨ (is_subdomain_char (text.getD (p + m.domain.length) 0) = false
              ∧ text.getD (p + m.domain.length) 0 ≠ 46))
      ∧ m.start_idx = (find_subdomain_start text (p - 1)).toNat
      ∧ m.full = m.start_idx ∧ m.subdomain = m.start_idx
      ∧ m.end_idx = p + m.domain.length
      ∧ m.full_len = m.end_idx - m.start_idx
      ∧ m.subdomain_len = p - 1 - m.start_idx := by
  unfold oast_extract at hm
  by_cases h0 : text.length = 0
  · rw [if_pos h0] at hm; simp at hm
  rw [if_neg h0] at hm
  obtain ⟨domain, hd, hdl, hmem⟩ := extract_loop_mem text _ m hm
  obtain ⟨p, _, hp0, hfit, hat, hdot, hres, hafter, rfl⟩ :=
    scan_domain_mem text domain hdl _ _ m hmem
  exact ⟨p, hp0, hfit, hd, hat, hdot, hres, hafter, rfl, rfl, rfl, rfl, rfl, rfl⟩

theorem extract_append_nil (S T : List Nat) (hS : ∀ c ∈ S, c ≠ 46)
    (hG : ∀ k, k < T.length → ∀ dom ∈ KNOWN_OAST_DOMAINS,
      ¬ (T.getD k 0 = 46
          ∧ k + 1 + dom.length ≤ T.length
          ∧ (∀ j, j < dom.length → tolower (T.getD (k + 1 + j) 0) = tolower (dom.getD j 0))
          ∧ (k + 1 + dom.length = T.length
              ∨ (is_subdomain_char (T.getD (k + 1 + dom.length) 0) = false
                  ∧ T.getD (k + 1 + dom.length) 0 ≠ 46)))) :
    oast_extract (S ++ T) = [] := by
  rw [List.eq_nil_iff_forall_not_mem]
  intro m hm
  obtain ⟨p, hp0, hfit, hdom, hat, hdot, _, hafter, _⟩ := oast_extract_mem (S ++ T) m hm
  have hL : (S ++ T).length = S.length + T.length := List.length_append _ _
  have hget : ∀ x, (S ++ T).getD (S.length + x) 0 = T.getD x 0 := by
    intro x
    rw [List.getD_append_right _ _ _ _ (by omega)]
    congr 1
    omega
  have hd1 : S.length ≤ p - 1 := by
    by_contra hlt
    have hlt' : p - 1 < S.length := by omega
    rw [List.getD_append _ _ _ _ hlt', List.getD_eq_getElem _ _ hlt'] at hdot
    exact hS _ (List.getElem_mem _) hdot
  obtain ⟨k, hk⟩ : ∃ k, p - 1 = S.length + k := ⟨p - 1 - S.length, by omega⟩
  have hp : p = S.length + (k + 1) := by omega
  apply hG k (by omega) m.domain hdom
  refine ⟨?_, by omega, ?_, ?_⟩
  · rw [← hget, ← hk]; exact hdot
  · intro j hj
    rw [← hget, ← domain_at_spec _ _ p hat j hj, hp]
    congr 2
    omega
  · rcases hafter with h | ⟨h1, h2⟩
    · left; omega
    · right
      have e : p + m.domain.length = S.length + (k + 1 + m.domain.length) := by omega
      rw [e, hget] at h1 h2
      exact ⟨h1, h2⟩

theorem scan_domain_hit (text domain : List Nat) (fuel pos : Nat)
    (hpos : pos ≤ text.length - domain.length) (h : scan_hit text domain pos) :
    scan_domain text domain (fuel + 1) pos
      = scan_record text domain pos
          :: scan_domain text domain fuel (pos + domain.length - 1 + 1) := by
  obtain ⟨h1, h2, h3, h4, h5, h6⟩ := h
  have c2 : ¬ (pos = 0 ∨ text.getD (pos - 1) 0 ≠ 46) := by
    rintro (e | e)
    · omega
    · exact e h3
  rw [scan_domain_succ, if_pos hpos, h1]
  simp only [Bool.not_true, Bool.false_eq_true, if_false]
  rw [if_neg c2, if_neg h4, if_neg h5, if_neg h6]
  rfl

theorem scan_domain_miss (text domain : List Nat) (fuel pos : Nat)
    (hpos : pos ≤ text.length - domain.length) (h : ¬ scan_hit text domain pos) :
    scan_domain text domain (fuel + 1) pos = scan_domain text domain fuel (pos + 1) := by
  rw [scan_domain_succ, if_pos hpos]
  by_cases c1 : (!domain_at text domain pos) = true
  · rw [if_pos c1]
  rw [if_neg c1]
  by_cases c2 : pos = 0 ∨ text.getD (pos - 1) 0 ≠ 46
  · rw [if_pos c2]
  rw [if_neg c2]
  by_cases c3 : find_subdomain_start text (pos - 1) < 0
  · rw [if_pos c3]
  rw [if_neg c3]
  by_cases c4 : 0 < find_subdomain_start text (pos - 1)
      ∧ is_subdomain_char
          (text.getD (find_subdomain_start text (pos - 1) - 1).toNat 0) = true
  · rw [if_pos c4]
  rw [if_neg c4]
  by_cases c5 : pos + domain.length < text.length
      ∧ (is_subdomain_char (text.getD (pos + domain.length) 0) = true
          ∨ text.getD (pos + domain.length) 0 = 46)
  · rw [if_pos c5]
  exfalso
  apply h
  refine ⟨?_, ?_, ?_, c3, c4, c5⟩
  · cases hb : domain_at text domain pos
    · rw [hb] at c1; exact absurd rfl c1
    · rfl
  · rcases Nat.eq_zero_or_pos pos with e | e
    · exact absurd (Or.inl e) c2
    · exact e
  · by_contra hne
    exact c2 (Or.inr hne)

/-- The scan stores the match of every hit it reaches: an offset `p` is reached
from `pos` when no hit between them makes the cursor jump past `p`. -/
theorem scan_domain_reaches (text domain : List Nat) (hd : 0 < domain.length) (p : Nat)
    (hp : p ≤ text.length - domain.length) (hhit : scan_hit text domain p) :
    ∀ (fuel pos : Nat), pos ≤ p → p - pos < fuel →
      (∀ q, pos ≤ q → q < p → scan_hit text domain q → q + domain.length ≤ p) →
      scan_record text domain p ∈ scan_domain text domain fuel pos := by
  intro fuel
  induction fuel with
  | zero => intro pos _ h; omega
  | succ fuel ih =>
    intro pos hle hfuel hjump
    by_cases e : pos = p
    · subst e
      rw [scan_domain_hit text domain fuel pos hp hhit]
      exact List.mem_cons_self _ _
    have hlt : pos < p := by omega
    by_cases hq : scan_hit text domain pos
    · have hj := hjump pos (Nat.le_refl _) hlt hq
      rw [scan_domain_hit text domain fuel pos (by omega) hq]
      apply List.mem_cons_of_mem
      apply ih _ (by omega) (by omega)
      intro q h1 h2 h3
      exact hjump q (by omega) h2 h3
    · rw [scan_domain_miss text domain fuel pos (by omega) hq]
      apply ih _ (by omega) (by omega)
      intro q h1 h2 h3
      exact hjump q (by omega) h2 h3

theorem extract_loop_of_scan (text : List Nat) (m : oast_match_t) :
    ∀ tbl : List (List Nat), ∀ domain ∈ tbl, domain.length ≤ text.length →
      m ∈ scan_domain text domain (text.length + 1) 0 → m ∈ extract_loop text tbl := by
  intro tbl
  induction tbl with
  | nil => intro d hd; simp at hd
  | cons a rest ih =>
    intro d hd hdl hm
    unfold extract_loop
    rcases List.mem_cons.1 hd with e | e
    · subst e
      rw [if_neg (by omega)]
      exact List.mem_append_left _ hm
    · by_cases c : text.length < a.length
      · rw [if_pos c]
        exact ih d e hdl hm
      · rw [if_neg c]
        exact List.mem_append_right _ (ih d e hdl hm)

/-- A hit that the scan reaches is a match of `oast_extract`. -/
theorem oast_extract_of_hit (text domain : List Nat) (hd : domain ∈ KNOWN_OAST_DOMAINS)
    (p : Nat) (hfit : p + domain.length ≤ text.length) (hhit : scan_hit text domain p)
    (hjump : ∀ q, q < p → scan_hit text domain q → q + domain.length ≤ p) :
    scan_record text domain p ∈ oast_extract text := by
  have hl := known_suffix_length_pos domain hd
  unfold oast_extract
  rw [if_neg (by omega)]
  apply extract_loop_of_scan text _ _ domain hd (by omega)
  exact scan_domain_reaches text domain hl p (by omega) hhit _ 0 (Nat.zero_le _) (by omega)
    (fun q _ h2 h3 => hjump q h2 h3)

/-- The start that `find_subdomain_start` returns when the cast `(int)dot_pos`
gives `k = dot_pos % 2 ^ 32`: the walk back from `k` stops at `s`, and the two
loops accept the bytes from `s` up to `dot_pos`. -/
theorem find_subdomain_start_of_run (text : List Nat) (d s : Nat) (hd0 : 0 < d)
    (hd : d < 2 ^ 64) (hk : d % 2 ^ 32 < 2 ^ 31) (hs : s ≤ d % 2 ^ 32)
    (hall : ∀ j, s ≤ j → j < d % 2 ^ 32 → is_subdomain_char (text.getD j 0) = true)
    (hstop : 0 < s → is_subdomain_char (text.getD (s - 1) 0) = false)
    (h33 : s + 33 ≤ d)
    (hpre : ∀ i, i < 20 → is_base32hex_char (text.getD (s + i) 0) = true)
    (hnonce : ∀ i, 20 ≤ i → i < d - s →
      (!(!is_zbase32_char (tolower (text.getD (s + i) 0))
        && tolower (text.getD (s + i) 0) != 45
        && tolower (text.getD (s + i) 0) != 95)) = true) :
    find_subdomain_start text d = (s : Int) := by
  obtain ⟨s', hs', hle', hall', hstop'⟩ :=
    walk_back_spec text d (d % 2 ^ 32) (Nat.mod_le _ _)
  have hss : s' = s := by
    rcases Nat.lt_trichotomy s' s with c | c | c
    · exfalso
      have a := hstop (by omega)
      have b := hall' (s - 1) (by omega) (by omega)
      rw [a] at b
      exact absurd b (by decide)
    · exact c
    · exfalso
      have a := hstop' (by omega)
      have b := hall (s' - 1) (by omega) (by omega)
      rw [a] at b
      exact absurd b (by decide)
  subst hss
  have hne : ¬ d = 0 := by omega
  have e1 : (s' : Int) - 1 + 1 = (s' : Int) := by omega
  have e2 : (d + 2 ^ 64 - s') % 2 ^ 64 = d - s' := by omega
  have c1 : ¬ d - s' < 33 := by omega
  have a1 : (List.range 20).all
      (fun i => is_base32hex_char (text.getD ((s' + i) % 2 ^ 64) 0)) = true := by
    rw [List.all_eq_true]
    intro i hi
    rw [List.mem_range] at hi
    rw [Nat.mod_eq_of_lt (by omega)]
    exact hpre i hi
  have a2 : (List.range' 20 (d - s' - 20)).all
      (fun i =>
        let c := tolower (text.getD ((s' + i) % 2 ^ 64) 0)
        !(!is_zbase32_char c && c != 45 && c != 95)) = true := by
    rw [List.all_eq_true]
    intro i hi
    rw [List.mem_range'_1] at hi
    simp only []
    rw [Nat.mod_eq_of_lt (by omega)]
    exact hnonce i hi.1 (by omega)
  unfold find_subdomain_start
  simp only [hne, if_false, int_of_size_t_low d hk, hs', e1, size_t_of_int_small s' (by omega),
    e2, c1, a1, a2, Bool.not_true, Bool.false_eq_true]

set_option maxRecDepth 100000 in
theorem tail_evil_rejected : ∀ k, k < (bytes ".oast.pro.evil.com").length →
    ∀ dom ∈ KNOWN_OAST_DOMAINS,
      ¬ ((bytes ".oast.pro.evil.com").getD k 0 = 46
          ∧ k + 1 + dom.length ≤ (bytes ".oast.pro.evil.com").length
          ∧ (∀ j, j < dom.length →
              tolower ((bytes ".oast.pro.evil.com").getD (k + 1 + j) 0) = tolower (dom.getD j 0))
          ∧ (k + 1 + dom.length = (bytes ".oast.pro.evil.com").length
              ∨ (is_subdomain_char ((bytes ".oast.pro.evil.com").getD (k + 1 + dom.length) 0)
                    = false
                  ∧ (bytes ".oast.pro.evil.com").getD (k + 1 + dom.length) 0 ≠ 46))) := by
  decide

set_option maxRecDepth 100000 in
theorem tail_glued_rejected : ∀ k, k < (bytes "xoast.pro").length →
    ∀ dom ∈ KNOWN_OAST_DOMAINS,
      ¬ ((bytes "xoast.pro").getD k 0 = 46
          ∧ k + 1 + dom.length ≤ (bytes "xoast.pro").length
          ∧ (∀ j, j < dom.length →
              tolower ((bytes "xoast.pro").getD (k + 1 + j) 0) = tolower (dom.getD j 0))
          ∧ (k + 1 + dom.length = (bytes "xoast.pro").length
              ∨ (is_subdomain_char ((bytes "xoast.pro").getD (k + 1 + dom.length) 0) = false
                  ∧ (bytes "xoast.pro").getD (k + 1 + dom.length) 0 ≠ 46))) := by
  decide

/-- Soundness on texts shorter than `2 ^ 31` bytes: every match `m` of `oast_extract` on a text, with `d = m.start_idx +
m.subdomain_len`, has `m.subdomain_len ≥ 33`, `text[d] = '.'`, a known suffix
`m.domain` standing at `d + 1` letter case apart, `m.end_idx = d + 1 +
length(m.domain) ≤ length(text)`, `m.full_len = m.end_idx - m.start_idx`, 20
leading base32hex bytes, and then only z-base-32 bytes, `-` or `_`. The text is
one whose offsets fit the `int` of `find_subdomain_start`. -/
theorem oast_extract_match_sound (text : List Nat) (hlen : text.length < 2 ^ 31)
    (m : oast_match_t) (hm : m ∈ oast_extract text) :
    33 ≤ m.subdomain_len
    ∧ text.getD (m.start_idx + m.subdomain_len) 0 = 46
    ∧ m.domain ∈ KNOWN_OAST_DOMAINS
    ∧ (∀ j, j < m.domain.length →
        tolower (text.getD (m.start_idx + m.subdomain_len + 1 + j) 0)
          = tolower (m.domain.getD j 0))
    ∧ m.end_idx = m.start_idx + m.subdomain_len + 1 + m.domain.length
    ∧ m.end_idx ≤ text.length
    ∧ m.full_len = m.end_idx - m.start_idx
    ∧ m.full = m.start_idx ∧ m.subdomain = m.start_idx
    ∧ (∀ i, i < 20 → in_base32hex (text.getD (m.start_idx + i) 0))
    ∧ (∀ i, 20 ≤ i → i < m.subdomain_len →
        in_zbase32 (text.getD (m.start_idx + i) 0)
          ∨ text.getD (m.start_idx + i) 0 = 45 ∨ text.getD (m.start_idx + i) 0 = 95) := by
  obtain ⟨h1, h2, h3, h4, h5, h6, h7, h8, h9, h10, h11, _⟩ := oast_extract_sound text hlen m hm
  exact ⟨h2, h3, h1, h4, h5, h6, h7, h8, h9, h10, h11⟩

set_option maxRecDepth 100000 in
/-- An example of soundness: a text with one domain in it. -/
theorem oast_extract_match_sound_witness :
    33 ≤ (33 : Nat)
    ∧ (bytes "see bst1o05anf609kg004m0ybndrfg8ejkmc.oast.pro!").getD (4 + 33) 0 = 46 :=
  ⟨(oast_extract_match_sound (bytes "see bst1o05anf609kg004m0ybndrfg8ejkmc.oast.pro!")
      (by decide)
      { full := 4, full_len := 42, subdomain := 4, subdomain_len := 33,
        domain := bytes "oast.pro", start_idx := 4, end_idx := 46 } (by decide)).1,
   (oast_extract_match_sound (bytes "see bst1o05anf609kg004m0ybndrfg8ejkmc.oast.pro!")
      (by decide)
      { full := 4, full_len := 42, subdomain := 4, subdomain_len := 33,
        domain := bytes "oast.pro", start_idx := 4, end_idx := 46 } (by decide)).2.1⟩

/-- C8: for every text and every match `m` of `oast_extract`, the byte just
before the matched suffix is a dot, the match starts the text or follows a byte
that is not a subdomain character (ASCII letter, digit, `-`, `_`), and it ends
the text or is followed by a byte that is neither a subdomain character nor a
dot. Hence a structurally valid subdomain followed by `.oast.pro.evil.com`, or
glued to `xoast.pro`, yields no match. -/
theorem oast_extract_boundaries :
    (∀ text : List Nat, ∀ m ∈ oast_extract text,
      text.getD (m.end_idx - m.domain.length - 1) 0 = 46
      ∧ (m.start_idx = 0 ∨ is_subdomain_char (text.getD (m.start_idx - 1) 0) = false)
      ∧ (m.end_idx = text.length
          ∨ (is_subdomain_char (text.getD m.end_idx 0) = false
              ∧ text.getD m.end_idx 0 ≠ 46)))
    ∧ (∀ c, is_subdomain_char c = true ↔
        (48 ≤ c ∧ c ≤ 57) ∨ (97 ≤ c ∧ c ≤ 122) ∨ (65 ≤ c ∧ c ≤ 90) ∨ c = 45 ∨ c = 95)
    ∧ (∀ S : List Nat, oast_is_valid_subdomain S = true →
        oast_extract (S ++ bytes ".oast.pro.evil.com") = [])
    ∧ (∀ S : List Nat, oast_is_valid_subdomain S = true →
        oast_extract (S ++ bytes "xoast.pro") = []) := by
  refine ⟨?_, is_subdomain_char_iff, ?_, ?_⟩
  · intro text m hm
    obtain ⟨p, hp0, hfit, _, _, hdot, hres, hafter, hstart, _, _, hend, _, _⟩ :=
      oast_extract_mem text m hm
    obtain ⟨s, hs, _, _, _, _, hstop, _⟩ := find_subdomain_start_nonneg text (p - 1) hres
    rw [hs, Int.toNat_ofNat] at hstart
    refine ⟨?_, ?_, ?_⟩
    · have e : m.end_idx - m.domain.length - 1 = p - 1 := by omega
      rw [e]; exact hdot
    · rw [hstart]
      rcases Nat.eq_zero_or_pos s with e | e
      · exact Or.inl e
      · exact Or.inr (hstop e)
    · rw [hend]; exact hafter
  · intro S hS
    exact extract_append_nil S _ (valid_subdomain_no_dot S hS) tail_evil_rejected
  · intro S hS
    exact extract_append_nil S _ (valid_subdomain_no_dot S hS) tail_glued_rejected

set_option maxRecDepth 100000 in
/-- A witness for C8: the subdomain `bst1o05anf609kg004m0ybndrfg8ejkmc`. -/
theorem oast_extract_boundaries_witness :
    oast_extract (bytes "bst1o05anf609kg004m0ybndrfg8ejkmc" ++ bytes ".oast.pro.evil.com") = []
    ∧ oast_extract (bytes "bst1o05anf609kg004m0ybndrfg8ejkmc" ++ bytes "xoast.pro") = [] :=
  ⟨oast_extract_boundaries.2.2.1 (bytes "bst1o05anf609kg004m0ybndrfg8ejkmc") (by decide),
   oast_extract_boundaries.2.2.2 (bytes "bst1o05anf609kg004m0ybndrfg8ejkmc") (by decide)⟩

theorem later_match_disjoint (text : List Nat) (a b : oast_match_t)
    (ha : sound_match text a) (hb : sound_match text b)
    (h : a.end_idx ≤ b.start_idx + b.subdomain_len + 1) : a.end_idx ≤ b.start_idx := by
  obtain ⟨hda, _, _, hsufa, henda, _, _, _, _, _, _, _, _, haftera⟩ := ha
  obtain ⟨hdb, _, hdotb, _, hendb, hleb, _, _, _, _, _, hsubb, _, _⟩ := hb
  obtain ⟨hla, hlasta⟩ := known_domain_last a.domain hda
  obtain ⟨hlb, _⟩ := known_domain_last b.domain hdb
  have hlt : a.end_idx < text.length := by omega
  rcases haftera with he | ⟨hns, hnd⟩
  · omega
  have hlast : text.getD (a.end_idx - 1) 0 ≠ 46 := by
    intro h46
    have := hsufa (a.domain.length - 1) (by omega)
    have e : a.start_idx + a.subdomain_len + 1 + (a.domain.length - 1) = a.end_idx - 1 := by
      omega
    rw [e, h46] at this
    apply hlasta
    rw [← this]
    decide
  by_contra hcon
  have h1 : b.start_idx + b.subdomain_len ≠ a.end_idx - 1 := by
    intro e; rw [e] at hdotb; exact hlast hdotb
  have h2 : b.start_idx + b.subdomain_len ≠ a.end_idx := by
    intro e; rw [e] at hdotb; exact hnd hdotb
  have := hsubb (a.end_idx - b.start_idx) (by omega)
  have e : b.start_idx + (a.end_idx - b.start_idx) = a.end_idx := by omega
  rw [e, hns] at this
  exact absurd this (by decide)

theorem scan_domain_cases (text domain : List Nat) (fuel pos : Nat) :
    scan_domain text domain (fuel + 1) pos = scan_domain text domain fuel (pos + 1)
    ∨ scan_domain text domain (fuel + 1) pos = []
    ∨ ∃ m, scan_domain text domain (fuel + 1) pos
          = m :: scan_domain text domain fuel (pos + domain.length - 1 + 1)
        ∧ m.end_idx = pos + domain.length := by
  rw [scan_domain_succ]
  split_ifs
  · exact Or.inl rfl
  · exact Or.inl rfl
  · exact Or.inl rfl
  · exact Or.inl rfl
  · exact Or.inl rfl
  · exact Or.inr (Or.inr ⟨_, rfl, rfl⟩)
  · exact Or.inr (Or.inl rfl)

theorem scan_domain_pairwise (text domain : List Nat) (hd : domain ∈ KNOWN_OAST_DOMAINS)
    (hlen : text.length < 2 ^ 31) (hdl : domain.length ≤ text.length) :
    ∀ (fuel pos : Nat),
      List.Pairwise (fun a b : oast_match_t => a.end_idx ≤ b.start_idx)
        (scan_domain text domain fuel pos) := by
  intro fuel
  induction fuel with
  | zero => intro pos; simp [scan_domain]
  | succ fuel ih =>
    intro pos
    rcases scan_domain_cases text domain fuel pos with h | h | ⟨m, h, hend⟩
    · rw [h]; exact ih _
    · rw [h]; exact List.Pairwise.nil
    · have hm : m ∈ scan_domain text domain (fuel + 1) pos := by
        rw [h]; exact List.mem_cons_self _ _
      obtain ⟨hsm, _, _⟩ := scan_domain_sound text domain hd hlen hdl _ _ m hm
      rw [h, List.pairwise_cons]
      refine ⟨?_, ih _⟩
      intro b hb
      obtain ⟨hsb, _, hpb⟩ := scan_domain_sound text domain hd hlen hdl _ _ b hb
      have := (known_domain_last domain hd).1
      exact later_match_disjoint text m b hsm hsb (by omega)

theorem known_domains_nodup : KNOWN_OAST_DOMAINS.Nodup := by
  decide

theorem extract_loop_pairwise (text : List Nat) (hlen : text.length < 2 ^ 31) :
    ∀ tbl : List (List Nat), (∀ d ∈ tbl, d ∈ KNOWN_OAST_DOMAINS) → tbl.Nodup →
      List.Pairwise (fun a b : oast_match_t => a.domain = b.domain → a.end_idx ≤ b.start_idx)
        (extract_loop text tbl) := by
  intro tbl
  induction tbl with
  | nil => intro _ _; simp [extract_loop]
  | cons d rest ih =>
    intro hk hnd
    have hrest := ih (fun x hx => hk x (List.mem_cons_of_mem _ hx)) (List.nodup_cons.1 hnd).2
    unfold extract_loop
    by_cases c : text.length < d.length
    · rw [if_pos c]; exact hrest
    · rw [if_neg c, List.pairwise_append]
      refine ⟨?_, hrest, ?_⟩
      · have hs := scan_domain_pairwise text d (hk d (List.mem_cons_self _ _)) hlen
          (by omega) (text.length + 1) 0
        exact List.Pairwise.imp (S := fun a b : oast_match_t =>
          a.domain = b.domain → a.end_idx ≤ b.start_idx) (fun h _ => h) hs
      · intro a ha b hb hab
        exfalso
        obtain ⟨_, ha2, _⟩ := scan_domain_sound text d (hk d (List.mem_cons_self _ _)) hlen
          (by omega) _ _ a ha
        obtain ⟨_, hb2⟩ := extract_loop_sound text hlen rest
          (fun x hx => hk x (List.mem_cons_of_mem _ hx)) b hb
        rw [← hab, ha2] at hb2
        exact (List.nodup_cons.1 hnd).1 hb2

/-- On texts shorter than `2 ^ 31` bytes two matches that `oast_extract` returns for the same known suffix do
not overlap: the one stored later starts at or after the end of the one stored
earlier. The text is one whose offsets fit the `int` of
`find_subdomain_start`. -/
theorem oast_extract_same_suffix_disjoint (text : List Nat) (hlen : text.length < 2 ^ 31)
    (i j : Nat) (a b : oast_match_t) (hij : i < j)
    (ha : (oast_extract text)[i]? = some a) (hb : (oast_extract text)[j]? = some b)
    (hdom : a.domain = b.domain) :
    a.end_idx ≤ b.start_idx ∧ a.start_idx < a.end_idx ∧ b.start_idx < b.end_idx := by
  have hp : List.Pairwise
      (fun a b : oast_match_t => a.domain = b.domain → a.end_idx ≤ b.start_idx)
      (oast_extract text) := by
    unfold oast_extract
    split_ifs
    · exact List.Pairwise.nil
    · exact extract_loop_pairwise text hlen KNOWN_OAST_DOMAINS (fun d hd => hd)
        known_domains_nodup
  rw [List.getElem?_eq_some_iff] at ha hb
  obtain ⟨hi, rfl⟩ := ha
  obtain ⟨hj, rfl⟩ := hb
  have hsa := oast_extract_sound text hlen _ (List.getElem_mem hi)
  have hsb := oast_extract_sound text hlen _ (List.getElem_mem hj)
  refine ⟨List.pairwise_iff_getElem.1 hp i j hi hj hij hdom, ?_, ?_⟩
  · obtain ⟨_, _, _, _, h5, _⟩ := hsa
    omega
  · obtain ⟨_, _, _, _, h5, _⟩ := hsb
    omega

set_option maxRecDepth 100000 in
/-- An example of disjoint matches: a text with two domains of the suffix `oast.pro`. -/
theorem oast_extract_same_suffix_disjoint_witness :
    (46 : Nat) ≤ 51 ∧ (4 : Nat) < 46 ∧ (51 : Nat) < 93 :=
  oast_extract_same_suffix_disjoint
    (bytes ("see bst1o05anf609kg004m0ybndrfg8ejkmc.oast.pro and "
      ++ "BST1o05anf609kg004m0ybndrfg8ejkmc.OAST.Pro!"))
    (by decide) 0 1
    { full := 4, full_len := 42, subdomain := 4, subdomain_len := 33,
      domain := bytes "oast.pro", start_idx := 4, end_idx := 46 }
    { full := 51, full_len := 42, subdomain := 51, subdomain_len := 33,
      domain := bytes "oast.pro", start_idx := 51, end_idx := 93 }
    (by decide) (by decide) (by decide) rfl

theorem scan_domain_fuel (text domain : List Nat) (hd : 0 < domain.length) :
    ∀ (fuel pos k : Nat), text.length + 1 ≤ fuel + pos →
      scan_domain text domain (fuel + k) pos = scan_domain text domain fuel pos := by
  intro fuel
  induction fuel with
  | zero =>
    intro pos k h
    have hc : ¬ pos ≤ text.length - domain.length := by omega
    cases k with
    | zero => rfl
    | succ k =>
      rw [Nat.zero_add, scan_domain_succ, if_neg hc]
      rfl
  | succ fuel ih =>
    intro pos k h
    have e : fuel + 1 + k = (fuel + k) + 1 := by omega
    rw [e, scan_domain_succ, scan_domain_succ, ih (pos + 1) k (by omega),
      ih (pos + domain.length - 1 + 1) k (by omega)]

theorem same_letters_base32hex (text text' : List Nat)
    (ht : ∀ i, tolower (text'.getD i 0) = tolower (text.getD i 0)) (i : Nat) :
    is_base32hex_char (text'.getD i 0) = is_base32hex_char (text.getD i 0) := by
  rw [← is_base32hex_char_tolower, ht, is_base32hex_char_tolower]

theorem same_letters_subdomain (text text' : List Nat)
    (ht : ∀ i, tolower (text'.getD i 0) = tolower (text.getD i 0)) (i : Nat) :
    is_subdomain_char (text'.getD i 0) = is_subdomain_char (text.getD i 0) := by
  rw [← is_subdomain_char_tolower, ht, is_subdomain_char_tolower]

theorem same_letters_dot (text text' : List Nat)
    (ht : ∀ i, tolower (text'.getD i 0) = tolower (text.getD i 0)) (i : Nat) :
    text'.getD i 0 = 46 ↔ text.getD i 0 = 46 := by
  rw [← tolower_eq_iff_of_nonletter (text'.getD i 0) 46 (by omega) (by omega), ht,
    tolower_eq_iff_of_nonletter _ 46 (by omega) (by omega)]

theorem same_letters_walk_back (text text' : List Nat)
    (ht : ∀ i, tolower (text'.getD i 0) = tolower (text.getD i 0)) :
    ∀ (fuel : Nat) (pos : Int), walk_back text' fuel pos = walk_back text fuel pos := by
  intro fuel
  induction fuel with
  | zero => intro pos; rfl
  | succ fuel ih =>
    intro pos
    unfold walk_back
    rw [same_letters_subdomain text text' ht, ih]

theorem same_letters_find (text text' : List Nat)
    (ht : ∀ i, tolower (text'.getD i 0) = tolower (text.getD i 0)) (dot_pos : Nat) :
    find_subdomain_start text' dot_pos = find_subdomain_start text dot_pos := by
  unfold find_subdomain_start
  simp only [same_letters_walk_back text text' ht, same_letters_base32hex text text' ht, ht]

theorem same_letters_domain_at (text text' : List Nat)
    (ht : ∀ i, tolower (text'.getD i 0) = tolower (text.getD i 0)) (domain : List Nat)
    (pos : Nat) : domain_at text' domain pos = domain_at text domain pos := by
  unfold domain_at
  simp only [ht]

theorem same_letters_scan (text text' : List Nat) (hl : text'.length = text.length)
    (ht : ∀ i, tolower (text'.getD i 0) = tolower (text.getD i 0)) (domain : List Nat) :
    ∀ (fuel pos : Nat), scan_domain text' domain fuel pos = scan_domain text domain fuel pos := by
  intro fuel
  induction fuel with
  | zero => intro pos; rfl
  | succ fuel ih =>
    intro pos
    have hdot : ∀ i, (text'.getD i 0 ≠ 46) = (text.getD i 0 ≠ 46) := by
      intro i
      simp only [ne_eq, same_letters_dot text text' ht i]
    have hdot' : ∀ i, (text'.getD i 0 = 46) = (text.getD i 0 = 46) := by
      intro i
      simp only [same_letters_dot text text' ht i]
    rw [scan_domain_succ, scan_domain_succ]
    simp only [hl, same_letters_domain_at text text' ht, same_letters_find text text' ht,
      same_letters_subdomain text text' ht, hdot, hdot', ih]

theorem same_letters_extract (text text' : List Nat) (hl : text'.length = text.length)
    (ht : ∀ i, tolower (text'.getD i 0) = tolower (text.getD i 0)) :
    oast_extract text' = oast_extract text := by
  have hloop : ∀ tbl, extract_loop text' tbl = extract_loop text tbl := by
    intro tbl
    induction tbl with
    | nil => rfl
    | cons d rest ih =>
      unfold extract_loop
      rw [hl, ih, same_letters_scan text text' hl ht]
  unfold oast_extract
  rw [hl, hloop]

set_option maxRecDepth 100000 in
/-- C10: `oast_extract` does not look at letter case: two texts of the same
length that agree byte for byte once lower-cased, so in particular a text and
the same text with any set of its ASCII letters switched to the other case, give
the same matches (same count, offsets, lengths and suffix); `<sub>.OAST.PRO`
matches as `<sub>.oast.pro` does. -/
theorem oast_extract_case_insensitive :
    (∀ text text' : List Nat, text'.length = text.length →
      (∀ i, tolower (text'.getD i 0) = tolower (text.getD i 0)) →
      oast_extract text' = oast_extract text)
    ∧ (∀ (text : List Nat) (mask : List Bool),
        oast_extract (switch_case mask text) = oast_extract text)
    ∧ oast_extract (bytes "bst1o05anf609kg004m0ybndrfg8ejkmc.OAST.PRO")
        = oast_extract (bytes "bst1o05anf609kg004m0ybndrfg8ejkmc.oast.pro")
    ∧ oast_extract (bytes "bst1o05anf609kg004m0ybndrfg8ejkmc.OAST.PRO")
        = [{ full := 0, full_len := 42, subdomain := 0, subdomain_len := 33,
             domain := bytes "oast.pro", start_idx := 0, end_idx := 42 }] := by
  have h1 : oast_extract (bytes "bst1o05anf609kg004m0ybndrfg8ejkmc.OAST.PRO")
      = [{ full := 0, full_len := 42, subdomain := 0, subdomain_len := 33,
           domain := bytes "oast.pro", start_idx := 0, end_idx := 42 }] := by rfl
  have h2 : oast_extract (bytes "bst1o05anf609kg004m0ybndrfg8ejkmc.oast.pro")
      = [{ full := 0, full_len := 42, subdomain := 0, subdomain_len := 33,
           domain := bytes "oast.pro", start_idx := 0, end_idx := 42 }] := by rfl
  refine ⟨same_letters_extract, ?_, h1.trans h2.symm, h1⟩
  intro text mask
  exact same_letters_extract text (switch_case mask text) (switch_case_length mask text)
    (switch_case_getD mask text)

set_option maxRecDepth 100000 in
/-- A witness for C10: a text and its upper-cased copy. -/
theorem oast_extract_case_insensitive_witness :
    oast_extract (bytes "X BST1O05ANF609KG004M0YBNDRFG8EJKMC.OAST.PRO")
      = oast_extract (bytes "x bst1o05anf609kg004m0ybndrfg8ejkmc.oast.pro") :=
  oast_extract_case_insensitive.1 (bytes "x bst1o05anf609kg004m0ybndrfg8ejkmc.oast.pro")
    (bytes "X BST1O05ANF609KG004M0YBNDRFG8EJKMC.OAST.PRO") (by decide) (by
      intro i
      by_cases h : i < 44
      · interval_cases i <;> decide
      · have h1 : (bytes "X BST1O05ANF609KG004M0YBNDRFG8EJKMC.OAST.PRO").getD i 0 = 0 :=
          List.getD_eq_default _ _ (by simp only [bytes]; simp; omega)
        have h2 : (bytes "x bst1o05anf609kg004m0ybndrfg8ejkmc.oast.pro").getD i 0 = 0 :=
          List.getD_eq_default _ _ (by simp only [bytes]; simp; omega)
        rw [h1, h2])

/-! ## The order of the matches -/

theorem extract_loop_ordered (text : List Nat) (hlen : text.length < 2 ^ 31) :
    ∀ tbl : List (List Nat), (∀ d ∈ tbl, d ∈ KNOWN_OAST_DOMAINS) → tbl.Nodup →
      List.Pairwise
        (fun a b : oast_match_t =>
          index_in tbl a.domain < index_in tbl b.domain
            ∨ (a.domain = b.domain ∧ a.end_idx ≤ b.start_idx))
        (extract_loop text tbl) := by
  intro tbl
  induction tbl with
  | nil => intro _ _; simp [extract_loop]
  | cons d rest ih =>
    intro hk hnd
    have hkr : ∀ x ∈ rest, x ∈ KNOWN_OAST_DOMAINS := fun x hx => hk x (List.mem_cons_of_mem _ hx)
    have hdn : d ∉ rest := (List.nodup_cons.1 hnd).1
    have hmem : ∀ m ∈ extract_loop text rest, m.domain ∈ rest :=
      fun m hm => (extract_loop_sound text hlen rest hkr m hm).2
    have hidx : ∀ m ∈ extract_loop text rest,
        index_in (d :: rest) m.domain = index_in rest m.domain + 1 := by
      intro m hm
      have hne : d ≠ m.domain := fun e => hdn (e ▸ hmem m hm)
      simp only [index_in, hne, if_false]
    have hrest : List.Pairwise
        (fun a b : oast_match_t =>
          index_in (d :: rest) a.domain < index_in (d :: rest) b.domain
            ∨ (a.domain = b.domain ∧ a.end_idx ≤ b.start_idx))
        (extract_loop text rest) := by
      refine List.Pairwise.imp_of_mem ?_ (ih hkr (List.nodup_cons.1 hnd).2)
      intro a b ha hb hab
      rw [hidx a ha, hidx b hb]
      rcases hab with h | h
      · exact Or.inl (by omega)
      · exact Or.inr h
    unfold extract_loop
    by_cases c : text.length < d.length
    · rw [if_pos c]; exact hrest
    · rw [if_neg c, List.pairwise_append]
      have hd := hk d (List.mem_cons_self _ _)
      refine ⟨?_, hrest, ?_⟩
      · have hs := scan_domain_pairwise text d hd hlen (by omega) (text.length + 1) 0
        refine List.Pairwise.imp_of_mem ?_ hs
        intro a b ha hb hab
        obtain ⟨_, ha2, _⟩ := scan_domain_sound text d hd hlen (by omega) _ _ a ha
        obtain ⟨_, hb2, _⟩ := scan_domain_sound text d hd hlen (by omega) _ _ b hb
        exact Or.inr ⟨by rw [ha2, hb2], hab⟩
      · intro a ha b hb
        obtain ⟨_, ha2, _⟩ := scan_domain_sound text d hd hlen (by omega) _ _ a ha
        left
        rw [hidx b hb, ha2]
        simp only [index_in, if_true]
        omega

theorem oast_extract_ordered (text : List Nat) (hlen : text.length < 2 ^ 31) :
    List.Pairwise
      (fun a b : oast_match_t =>
        suffix_index a < suffix_index b ∨ (a.domain = b.domain ∧ a.end_idx ≤ b.start_idx))
      (oast_extract text) := by
  unfold oast_extract
  split_ifs
  · exact List.Pairwise.nil
  · exact extract_loop_ordered text hlen KNOWN_OAST_DOMAINS (fun d hd => hd) known_domains_nodup

theorem index_in_spec (tbl : List (List Nat)) (x : List Nat) (hx : x ∈ tbl) :
    tbl[index_in tbl x]? = some x := by
  induction tbl with
  | nil => simp at hx
  | cons d rest ih =>
    by_cases hd : d = x
    · simp [index_in, hd]
    · rcases List.mem_cons.1 hx with h | h
      · exact absurd h.symm hd
      · simp only [index_in, hd, if_false, List.getElem?_cons_succ]
        exact ih h

set_option maxRecDepth 100000 in
/-- C11, as stated, fails: on a text with an `oast.live` domain before an
`oast.pro` domain the `oast.pro` match, found in the first pass over the table,
is stored first although it starts later. -/
theorem oast_extract_not_ascending :
    oast_extract
        (bytes ("bst1o05anf609kg004m0ybndrfg8ejkmc.oast.live "
          ++ "bst1o05anf609kg004m0ybndrfg8ejkmc.oast.pro"))
      = [{ full := 44, full_len := 42, subdomain := 44, subdomain_len := 33,
           domain := bytes "oast.pro", start_idx := 44, end_idx := 86 },
         { full := 0, full_len := 43, subdomain := 0, subdomain_len := 33,
           domain := bytes "oast.live", start_idx := 0, end_idx := 43 }]
    ∧ ¬ (∀ (i j : Nat) (a b : oast_match_t), i < j →
          (oast_extract
            (bytes ("bst1o05anf609kg004m0ybndrfg8ejkmc.oast.live "
              ++ "bst1o05anf609kg004m0ybndrfg8ejkmc.oast.pro")))[i]? = some a →
          (oast_extract
            (bytes ("bst1o05anf609kg004m0ybndrfg8ejkmc.oast.live "
              ++ "bst1o05anf609kg004m0ybndrfg8ejkmc.oast.pro")))[j]? = some b →
          a.start_idx ≤ b.start_idx) := by
  have h : oast_extract
        (bytes ("bst1o05anf609kg004m0ybndrfg8ejkmc.oast.live "
          ++ "bst1o05anf609kg004m0ybndrfg8ejkmc.oast.pro"))
      = [{ full := 44, full_len := 42, subdomain := 44, subdomain_len := 33,
           domain := bytes "oast.pro", start_idx := 44, end_idx := 86 },
         { full := 0, full_len := 43, subdomain := 0, subdomain_len := 33,
           domain := bytes "oast.live", start_idx := 0, end_idx := 43 }] := by rfl
  refine ⟨h, ?_⟩
  intro hall
  have := hall 0 1 _ _ (by decide) (by rw [h]; rfl) (by rw [h]; rfl)
  exact absurd this (by decide)

theorem scan_domain_starts (text domain : List Nat) (hd : 0 < domain.length)
    (hdl : domain.length ≤ text.length) (h64 : text.length < 2 ^ 64) :
    ∀ (fuel pos : Nat),
      List.Pairwise (fun a b : oast_match_t => a.start_idx < b.start_idx)
        (scan_domain text domain fuel pos) := by
  intro fuel
  induction fuel with
  | zero => intro pos; simp [scan_domain]
  | succ fuel ih =>
    intro pos
    rcases scan_domain_cases text domain fuel pos with h | h | ⟨m, h, hend⟩
    · rw [h]; exact ih _
    · rw [h]; exact List.Pairwise.nil
    · have hm : m ∈ scan_domain text domain (fuel + 1) pos := by
        rw [h]; exact List.mem_cons_self _ _
      obtain ⟨p, _, hp0, hfit, _, hdot, hres, _, hrec⟩ :=
        scan_domain_mem text domain hdl _ _ m hm
      have hp : p = pos := by
        rw [hrec] at hend
        dsimp only at hend
        omega
      subst hp
      obtain ⟨s, hs, hs33, _⟩ := find_subdomain_start_span text (p - 1) (by omega) hres
      rw [h, List.pairwise_cons]
      refine ⟨?_, ih _⟩
      intro b hb
      obtain ⟨q, hq, hq0, hqfit, _, _, hqres, _, hqrec⟩ :=
        scan_domain_mem text domain hdl _ _ b hb
      obtain ⟨sb, hsb, _, _, _, _, _, _, hfree, _⟩ :=
        find_subdomain_start_span text (q - 1) (by omega) hqres
      rw [hrec, hqrec]
      dsimp only
      rw [hs, hsb, Int.toNat_ofNat, Int.toNat_ofNat]
      by_contra hcon
      exact hfree (p - 1) (by omega) (by omega) hdot

theorem extract_loop_starts (text : List Nat) (h64 : text.length < 2 ^ 64) :
    ∀ tbl : List (List Nat), (∀ d ∈ tbl, d ∈ KNOWN_OAST_DOMAINS) → tbl.Nodup →
      List.Pairwise
        (fun a b : oast_match_t => a.domain = b.domain → a.start_idx < b.start_idx)
        (extract_loop text tbl) := by
  intro tbl
  induction tbl with
  | nil => intro _ _; simp [extract_loop]
  | cons d rest ih =>
    intro hk hnd
    have hrest := ih (fun x hx => hk x (List.mem_cons_of_mem _ hx)) (List.nodup_cons.1 hnd).2
    unfold extract_loop
    by_cases c : text.length < d.length
    · rw [if_pos c]; exact hrest
    · rw [if_neg c, List.pairwise_append]
      refine ⟨?_, hrest, ?_⟩
      · have hs := scan_domain_starts text d
          (known_suffix_length_pos d (hk d (List.mem_cons_self _ _))) (by omega) h64
          (text.length + 1) 0
        exact List.Pairwise.imp (S := fun a b : oast_match_t =>
          a.domain = b.domain → a.start_idx < b.start_idx) (fun h _ => h) hs
      · intro a ha b hb hab
        exfalso
        obtain ⟨_, _, _, _, _, _, _, _, ha2⟩ := scan_domain_mem text d (by omega) _ _ a ha
        obtain ⟨d', hd', hdl', hb1⟩ := extract_loop_mem text rest b hb
        obtain ⟨_, _, _, _, _, _, _, _, hb2⟩ := scan_domain_mem text d' hdl' _ _ b hb1
        rw [ha2, hb2] at hab
        dsimp only at hab
        rw [← hab] at hd'
        exact (List.nodup_cons.1 hnd).1 hd'

/-- C11, amended: among the matches of one known suffix the sequence returned
by `oast_extract` is ordered by ascending start offset: for indices `i < j`
whose matches have the same suffix, `matches[i].start_idx ≤ matches[j].start_idx`
(strictly). The text is any text whose length a `size_t` can hold. -/
theorem oast_extract_start_ascending_per_suffix (text : List Nat)
    (hlen : text.length < 2 ^ 64) (i j : Nat) (a b : oast_match_t) (hij : i < j)
    (ha : (oast_extract text)[i]? = some a) (hb : (oast_extract text)[j]? = some b)
    (hdom : a.domain = b.domain) :
    a.start_idx ≤ b.start_idx ∧ a.start_idx < b.start_idx := by
  have hp : List.Pairwise
      (fun a b : oast_match_t => a.domain = b.domain → a.start_idx < b.start_idx)
      (oast_extract text) := by
    unfold oast_extract
    split_ifs
    · exact List.Pairwise.nil
    · exact extract_loop_starts text hlen KNOWN_OAST_DOMAINS (fun d hd => hd)
        known_domains_nodup
  rw [List.getElem?_eq_some_iff] at ha hb
  obtain ⟨hi, rfl⟩ := ha
  obtain ⟨hj, rfl⟩ := hb
  have := List.pairwise_iff_getElem.1 hp i j hi hj hij hdom
  omega

set_option maxRecDepth 100000 in
/-- A witness for the amended C11: a text with two `oast.pro` domains. -/
theorem oast_extract_start_ascending_per_suffix_witness :
    (4 : Nat) ≤ 51 ∧ (4 : Nat) < 51 :=
  oast_extract_start_ascending_per_suffix
    (bytes ("see bst1o05anf609kg004m0ybndrfg8ejkmc.oast.pro and "
      ++ "BST1o05anf609kg004m0ybndrfg8ejkmc.OAST.Pro!"))
    (by decide) 0 1
    { full := 4, full_len := 42, subdomain := 4, subdomain_len := 33,
      domain := bytes "oast.pro", start_idx := 4, end_idx := 46 }
    { full := 51, full_len := 42, subdomain := 51, subdomain_len := 33,
      domain := bytes "oast.pro", start_idx := 51, end_idx := 93 }
    (by decide) (by decide) (by decide) rfl

/-- On texts shorter than `2 ^ 31` bytes the matches returned by `oast_extract` are ordered first by the index
of their suffix in the known-suffix list and then by position: for indices
`i < j` either the suffix of `matches[i]` comes earlier in the list than that of
`matches[j]`, or the suffixes are equal and `matches[i].end_idx ≤
matches[j].start_idx`. The text is one whose offsets fit the `int` of
`find_subdomain_start`. -/
theorem oast_extract_suffix_then_position (text : List Nat) (hlen : text.length < 2 ^ 31)
    (i j : Nat) (a b : oast_match_t) (hij : i < j)
    (ha : (oast_extract text)[i]? = some a) (hb : (oast_extract text)[j]? = some b) :
    KNOWN_OAST_DOMAINS[suffix_index a]? = some a.domain
    ∧ KNOWN_OAST_DOMAINS[suffix_index b]? = some b.domain
    ∧ (suffix_index a < suffix_index b
        ∨ (a.domain = b.domain ∧ suffix_index a = suffix_index b
            ∧ a.end_idx ≤ b.start_idx)) := by
  rw [List.getElem?_eq_some_iff] at ha hb
  obtain ⟨hi, rfl⟩ := ha
  obtain ⟨hj, rfl⟩ := hb
  have hp := List.pairwise_iff_getElem.1 (oast_extract_ordered text hlen) i j hi hj hij
  have hsa := (oast_extract_sound text hlen _ (List.getElem_mem hi)).1
  have hsb := (oast_extract_sound text hlen _ (List.getElem_mem hj)).1
  refine ⟨index_in_spec _ _ hsa, index_in_spec _ _ hsb, ?_⟩
  rcases hp with h | ⟨h1, h2⟩
  · exact Or.inl h
  · exact Or.inr ⟨h1, by unfold suffix_index; rw [h1], h2⟩

set_option maxRecDepth 100000 in
/-- An example of the order of the matches: an `oast.live` domain before an `oast.pro` domain. -/
theorem oast_extract_suffix_then_position_witness :
    suffix_index
        { full := 44, full_len := 42, subdomain := 44, subdomain_len := 33,
          domain := bytes "oast.pro", start_idx := 44, end_idx := 86 }
      < suffix_index
        { full := 0, full_len := 43, subdomain := 0, subdomain_len := 33,
          domain := bytes "oast.live", start_idx := 0, end_idx := 43 }
    ∨ (bytes "oast.pro" = bytes "oast.live"
        ∧ suffix_index
            { full := 44, full_len := 42, subdomain := 44, subdomain_len := 33,
              domain := bytes "oast.pro", start_idx := 44, end_idx := 86 }
          = suffix_index
            { full := 0, full_len := 43, subdomain := 0, subdomain_len := 33,
              domain := bytes "oast.live", start_idx := 0, end_idx := 43 }
        ∧ (86 : Nat) ≤ 0) :=
  (oast_extract_suffix_then_position
    (bytes ("bst1o05anf609kg004m0ybndrfg8ejkmc.oast.live "
      ++ "bst1o05anf609kg004m0ybndrfg8ejkmc.oast.pro"))
    (by decide) 0 1
    { full := 44, full_len := 42, subdomain := 44, subdomain_len := 33,
      domain := bytes "oast.pro", start_idx := 44, end_idx := 86 }
    { full := 0, full_len := 43, subdomain := 0, subdomain_len := 33,
      domain := bytes "oast.live", start_idx := 0, end_idx := 43 }
    (by decide) (by rfl) (by rfl)).2.2

/-! ## Matches of different suffixes -/

theorem known_domain_length_le : ∀ d ∈ KNOWN_OAST_DOMAINS, d.length ≤ 14 := by
  decide

theorem sound_matches_disjoint (text : List Nat) (a b : oast_match_t)
    (ha : sound_match text a) (hb : sound_match text b)
    (hlt : a.start_idx + a.subdomain_len < b.start_idx + b.subdomain_len) :
    a.end_idx ≤ b.start_idx := by
  have ha' := ha
  have hb' := hb
  obtain ⟨hda, _, hdota, _, henda, _⟩ := ha
  obtain ⟨_, h33, _, _, _, _, _, _, _, _, _, hsubb, _⟩ := hb
  have hla := known_domain_length_le a.domain hda
  have hgt : a.start_idx + a.subdomain_len < b.start_idx := by
    by_contra hcon
    have := hsubb (a.start_idx + a.subdomain_len - b.start_idx) (by omega)
    have e : b.start_idx + (a.start_idx + a.subdomain_len - b.start_idx)
        = a.start_idx + a.subdomain_len := by omega
    rw [e, hdota] at this
    exact absurd this (by decide)
  exact later_match_disjoint text a b ha' hb' (by omega)

theorem sound_matches_same_dot (text : List Nat) (a b : oast_match_t)
    (ha : sound_match text a) (hb : sound_match text b)
    (h : a.start_idx + a.subdomain_len = b.start_idx + b.subdomain_len) :
    a.domain = b.domain := by
  obtain ⟨hda, _, _, hsa, _⟩ := ha
  obtain ⟨hdb, _, _, hsb, _⟩ := hb
  rw [h] at hsa
  exact known_same_start text (b.start_idx + b.subdomain_len + 1) a.domain b.domain hda hdb
    hsa hsb

/-- On texts shorter than `2 ^ 31` bytes two matches at different positions of the sequence returned by
`oast_extract` have disjoint byte ranges `[start_idx, end_idx)`, whether or not
they belong to the same known suffix, and each range is non-empty, so no span
is reported twice. The text is one whose offsets fit the `int` of
`find_subdomain_start`. -/
theorem oast_extract_matches_disjoint (text : List Nat) (hlen : text.length < 2 ^ 31)
    (i j : Nat) (a b : oast_match_t) (hij : i < j)
    (ha : (oast_extract text)[i]? = some a) (hb : (oast_extract text)[j]? = some b) :
    (a.end_idx ≤ b.start_idx ∨ b.end_idx ≤ a.start_idx)
    ∧ a.start_idx < a.end_idx ∧ b.start_idx < b.end_idx
    ∧ (a.start_idx, a.end_idx) ≠ (b.start_idx, b.end_idx) := by
  rw [List.getElem?_eq_some_iff] at ha hb
  obtain ⟨hi, rfl⟩ := ha
  obtain ⟨hj, rfl⟩ := hb
  have hp := List.pairwise_iff_getElem.1 (oast_extract_ordered text hlen) i j hi hj hij
  have hsa := oast_extract_sound text hlen _ (List.getElem_mem hi)
  have hsb := oast_extract_sound text hlen _ (List.getElem_mem hj)
  have ea : (oast_extract text)[i].start_idx < (oast_extract text)[i].end_idx := by
    obtain ⟨_, _, _, _, h5, _⟩ := hsa
    omega
  have eb : (oast_extract text)[j].start_idx < (oast_extract text)[j].end_idx := by
    obtain ⟨_, _, _, _, h5, _⟩ := hsb
    omega
  have hdis : (oast_extract text)[i].end_idx ≤ (oast_extract text)[j].start_idx
      ∨ (oast_extract text)[j].end_idx ≤ (oast_extract text)[i].start_idx := by
    rcases hp with h | ⟨_, h⟩
    · have hne : (oast_extract text)[i].domain ≠ (oast_extract text)[j].domain := by
        intro e
        unfold suffix_index at h
        rw [e] at h
        omega
      rcases Nat.lt_trichotomy
          ((oast_extract text)[i].start_idx + (oast_extract text)[i].subdomain_len)
          ((oast_extract text)[j].start_idx + (oast_extract text)[j].subdomain_len)
        with c | c | c
      · exact Or.inl (sound_matches_disjoint text _ _ hsa hsb c)
      · exact absurd (sound_matches_same_dot text _ _ hsa hsb c) hne
      · exact Or.inr (sound_matches_disjoint text _ _ hsb hsa c)
    · exact Or.inl h
  refine ⟨hdis, ea, eb, ?_⟩
  intro e
  rw [Prod.mk.injEq] at e
  omega

set_option maxRecDepth 100000 in
/-- An example of disjoint matches of two suffixes: an `oast.live` domain before an `oast.pro` domain. -/
theorem oast_extract_matches_disjoint_witness :
    ((86 : Nat) ≤ 0 ∨ (43 : Nat) ≤ 44) :=
  (oast_extract_matches_disjoint
    (bytes ("bst1o05anf609kg004m0ybndrfg8ejkmc.oast.live "
      ++ "bst1o05anf609kg004m0ybndrfg8ejkmc.oast.pro"))
    (by decide) 0 1
    { full := 44, full_len := 42, subdomain := 44, subdomain_len := 33,
      domain := bytes "oast.pro", start_idx := 44, end_idx := 86 }
    { full := 0, full_len := 43, subdomain := 0, subdomain_len := 33,
      domain := bytes "oast.live", start_idx := 0, end_idx := 43 }
    (by decide) (by rfl) (by rfl)).1

/-! ## Completeness of the scan -/

theorem run_start_spec (text : List Nat) : ∀ d : Nat,
    run_start text d ≤ d
    ∧ (∀ j, run_start text d ≤ j → j < d → is_subdomain_char (text.getD j 0) = true)
    ∧ (0 < run_start text d →
        is_subdomain_char (text.getD (run_start text d - 1) 0) = false) := by
  intro d
  induction d with
  | zero => exact ⟨Nat.le_refl _, fun j _ h => by omega, fun h => by simp [run_start] at h⟩
  | succ d ih =>
    unfold run_start
    by_cases hc : is_subdomain_char (text.getD d 0) = true
    · rw [if_pos hc]
      obtain ⟨h1, h2, h3⟩ := ih
      refine ⟨by omega, ?_, h3⟩
      intro j hj1 hj2
      by_cases hj : j < d
      · exact h2 j hj1 hj
      · have : j = d := by omega
        subst this; exact hc
    · rw [if_neg hc]
      refine ⟨Nat.le_refl _, fun j h1 h2 => by omega, ?_⟩
      intro _
      simpa using hc

theorem run_start_unique (text : List Nat) (d s : Nat) (hle : s ≤ d)
    (hall : ∀ j, s ≤ j → j < d → is_subdomain_char (text.getD j 0) = true)
    (hstop : 0 < s → is_subdomain_char (text.getD (s - 1) 0) = false) :
    s = run_start text d := by
  obtain ⟨h1, h2, h3⟩ := run_start_spec text d
  rcases Nat.lt_trichotomy s (run_start text d) with c | c | c
  · exfalso
    have a := h3 (by omega)
    have b := hall (run_start text d - 1) (by omega) (by omega)
    rw [a] at b
    exact absurd b (by decide)
  · exact c
  · exfalso
    have a := hstop (by omega)
    have b := h2 (s - 1) (by omega) (by omega)
    rw [a] at b
    exact absurd b (by decide)

theorem subdomain_char_base32hex (c : Nat) (h : is_subdomain_char c = true) :
    is_base32hex_char c = decide (in_base32hex c) := by
  have hne := (is_subdomain_char_ne c h).1
  rw [Bool.eq_iff_iff, is_base32hex_char_iff, decide_eq_true_eq]
  constructor
  · rintro (e | e)
    · exact absurd e hne
    · exact e
  · exact Or.inr

theorem subdomain_char_nonce (c : Nat) (h : is_subdomain_char c = true) :
    (!(!is_zbase32_char (tolower c) && tolower c != 45 && tolower c != 95))
      = decide (in_zbase32 c ∨ c = 45 ∨ c = 95) := by
  have hne := (is_subdomain_char_ne c h).1
  have e45 := tolower_eq_iff_of_nonletter c 45 (by omega) (by omega)
  have e95 := tolower_eq_iff_of_nonletter c 95 (by omega) (by omega)
  have ez : is_zbase32_char c = true ↔ in_zbase32 c := by
    rw [is_zbase32_char_iff]
    constructor
    · rintro (e | e)
      · exact absurd e hne
      · exact e
    · exact Or.inr
  rw [Bool.eq_iff_iff, decide_eq_true_eq, is_zbase32_char_tolower]
  simp only [Bool.not_eq_true', Bool.and_eq_false_imp, Bool.and_eq_true, bne_iff_ne, ne_eq,
    Bool.not_eq_true', bne_eq_false_iff_eq]
  constructor
  · intro hh
    by_cases hz : is_zbase32_char c = true
    · exact Or.inl (ez.1 hz)
    · by_cases h45 : tolower c = 45
      · exact Or.inr (Or.inl (e45.1 h45))
      · exact Or.inr (Or.inr (e95.1 (hh ⟨by simpa using hz, h45⟩)))
  · rintro (hz | h45 | h95) ⟨hnz, hn45⟩
    · rw [ez.2 hz] at hnz
      exact absurd hnz (by decide)
    · exact absurd (e45.2 h45) hn45
    · exact e95.2 h95

theorem find_subdomain_start_run (text : List Nat) (d : Nat) (h0 : 0 < d) (h : d < 2 ^ 31) :
    (run_accepted text d = true ∧ find_subdomain_start text d = (run_start text d : Int))
    ∨ (run_accepted text d = false ∧ find_subdomain_start text d = -1) := by
  obtain ⟨s, hle, hall, hstop, heq⟩ := find_subdomain_start_eq text d h0 h
  have hs := run_start_unique text d s hle hall hstop
  subst hs
  rw [heq]
  unfold run_accepted
  by_cases c1 : d - run_start text d < 33
  · right
    have : ¬ 33 ≤ d - run_start text d := by omega
    simp only [c1, if_true, this, decide_False, Bool.false_and, and_self]
  · have c1' : 33 ≤ d - run_start text d := by omega
    have a1 : (List.range 20).all
          (fun i => is_base32hex_char (text.getD (run_start text d + i) 0))
        = (List.range 20).all
          (fun i => decide (in_base32hex (text.getD (run_start text d + i) 0))) := by
      apply all_congr_mem
      intro i hi
      rw [List.mem_range] at hi
      exact subdomain_char_base32hex _ (hall _ (by omega) (by omega))
    have a2 : (List.range' 20 (d - run_start text d - 20)).all
          (fun i =>
            !(!is_zbase32_char (tolower (text.getD (run_start text d + i) 0))
              && tolower (text.getD (run_start text d + i) 0) != 45
              && tolower (text.getD (run_start text d + i) 0) != 95))
        = (List.range' 20 (d - run_start text d - 20)).all
          (fun i => decide (in_zbase32 (text.getD (run_start text d + i) 0)
            ∨ text.getD (run_start text d + i) 0 = 45
            ∨ text.getD (run_start text d + i) 0 = 95)) := by
      apply all_congr_mem
      intro i hi
      rw [List.mem_range'_1] at hi
      exact subdomain_char_nonce _ (hall _ (by omega) (by omega))
    rw [if_neg c1, a1, a2]
    simp only [c1', decide_True, Bool.true_and]
    cases hA : (List.range 20).all
        (fun i => decide (in_base32hex (text.getD (run_start text d + i) 0)))
    · right
      simp
    · cases hB : (List.range' 20 (d - run_start text d - 20)).all
          (fun i => decide (in_zbase32 (text.getD (run_start text d + i) 0)
            ∨ text.getD (run_start text d + i) 0 = 45
            ∨ text.getD (run_start text d + i) 0 = 95))
      · right
        simp
      · left
        simp

theorem scan_body_eq (text s : List Nat) (pos : Nat) (hlen : text.length < 2 ^ 31)
    (hsl : s.length ≤ text.length) (hpos : pos ≤ text.length - s.length)
    (A B : List oast_match_t) :
    (if pos ≤ text.length - s.length then
        if !domain_at text s pos then A
        else if pos = 0 ∨ text.getD (pos - 1) 0 ≠ 46 then A
        else
          if find_subdomain_start text (pos - 1) < 0 then A
          else if 0 < find_subdomain_start text (pos - 1)
              ∧ is_subdomain_char
                  (text.getD (find_subdomain_start text (pos - 1) - 1).toNat 0) = true then A
          else
            if pos + s.length < text.length
                ∧ (is_subdomain_char (text.getD (pos + s.length) 0) = true
                    ∨ text.getD (pos + s.length) 0 = 46) then A
            else
              { full := (find_subdomain_start text (pos - 1)).toNat
                full_len := pos + s.length - (find_subdomain_start text (pos - 1)).toNat
                subdomain := (find_subdomain_start text (pos - 1)).toNat
                subdomain_len := pos - 1 - (find_subdomain_start text (pos - 1)).toNat
                domain := s
                start_idx := (find_subdomain_start text (pos - 1)).toNat
                end_idx := pos + s.length } :: B
      else [])
    = if is_candidate text s pos = true then match_at text s pos :: B else A := by
  have hfit : pos + s.length ≤ text.length := by omega
  have hcand : is_candidate text s pos
      = (domain_at text s pos && decide (0 < pos) && (text.getD (pos - 1) 0 == 46)
          && run_accepted text (pos - 1)
          && (decide (pos + s.length = text.length)
              || (!is_subdomain_char (text.getD (pos + s.length) 0)
                  && text.getD (pos + s.length) 0 != 46))) := by
    unfold is_candidate domain_at
    simp only [hfit, decide_True, Bool.true_and]
  rw [if_pos hpos, hcand]
  cases hdom : domain_at text s pos
  · simp
  by_cases hp0 : pos = 0
  · simp [hp0]
  by_cases hdot : text.getD (pos - 1) 0 = 46
  swap
  · simp [hp0, hdot, -List.getD_eq_getElem?_getD]
  have hp0' : 0 < pos := by omega
  by_cases hd0 : pos - 1 = 0
  · have hf : find_subdomain_start text (pos - 1) = -1 := by
      rw [hd0]; simp [find_subdomain_start]
    have hr : run_accepted text (pos - 1) = false := by
      rw [hd0]; simp [run_accepted, run_start]
    simp [hp0, hdot, hf, hr, -List.getD_eq_getElem?_getD]
  rcases find_subdomain_start_run text (pos - 1) (by omega) (by omega) with ⟨hr, hf⟩ | ⟨hr, hf⟩
  · obtain ⟨_, _, hstop⟩ := run_start_spec text (pos - 1)
    have hnb : ¬ (0 < (run_start text (pos - 1) : Int)
        ∧ is_subdomain_char
            (text.getD ((run_start text (pos - 1) : Int) - 1).toNat 0) = true) := by
      rintro ⟨h1, h2⟩
      have h1' : 0 < run_start text (pos - 1) := by omega
      have e : ((run_start text (pos - 1) : Int) - 1).toNat = run_start text (pos - 1) - 1 := by
        omega
      rw [e, hstop h1'] at h2
      exact absurd h2 (by decide)
    have hnn : ¬ ((run_start text (pos - 1) : Int) < 0) := by omega
    rw [hf]
    simp only [Bool.not_true, Bool.false_eq_true, if_false, hp0, hdot, ne_eq, not_true_eq_false,
      or_self, hnn, hnb, Int.toNat_ofNat, hp0', decide_True, Bool.true_and, beq_self_eq_true, hr]
    by_cases hafter : pos + s.length < text.length
        ∧ (is_subdomain_char (text.getD (pos + s.length) 0) = true
            ∨ text.getD (pos + s.length) 0 = 46)
    · rw [if_pos hafter]
      obtain ⟨h1, h2⟩ := hafter
      have hne : ¬ pos + s.length = text.length := by omega
      rcases h2 with h2 | h2
      · simp [hne, h2, -List.getD_eq_getElem?_getD]
      · simp [hne, h2, -List.getD_eq_getElem?_getD]
    · rw [if_neg hafter]
      have hok : (decide (pos + s.length = text.length)
              || (!is_subdomain_char (text.getD (pos + s.length) 0)
                  && text.getD (pos + s.length) 0 != 46)) = true := by
        by_cases he : pos + s.length = text.length
        · simp [he]
        · have hlt : pos + s.length < text.length := by omega
          have n1 : ¬ is_subdomain_char (text.getD (pos + s.length) 0) = true :=
            fun x => hafter ⟨hlt, Or.inl x⟩
          have n2 : ¬ text.getD (pos + s.length) 0 = 46 := fun x => hafter ⟨hlt, Or.inr x⟩
          simp [he, n1, n2, -List.getD_eq_getElem?_getD]
      rw [hok]
      simp only [if_true]
      rfl
  · rw [hf]
    simp [hp0, hdot, hr, -List.getD_eq_getElem?_getD]

theorem scan_domain_noskip_succ (text domain : List Nat) (fuel pos : Nat) :
    scan_domain_noskip text domain (fuel + 1) pos =
      if pos ≤ text.length - domain.length then
        if !domain_at text domain pos then scan_domain_noskip text domain fuel (pos + 1)
        else if pos = 0 ∨ text.getD (pos - 1) 0 ≠ 46 then
          scan_domain_noskip text domain fuel (pos + 1)
        else
          if find_subdomain_start text (pos - 1) < 0 then
            scan_domain_noskip text domain fuel (pos + 1)
          else if 0 < find_subdomain_start text (pos - 1)
              ∧ is_subdomain_char
                  (text.getD (find_subdomain_start text (pos - 1) - 1).toNat 0) = true then
            scan_domain_noskip text domain fuel (pos + 1)
          else
            if pos + domain.length < text.length
                ∧ (is_subdomain_char (text.getD (pos + domain.length) 0) = true
                    ∨ text.getD (pos + domain.length) 0 = 46) then
              scan_domain_noskip text domain fuel (pos + 1)
            else
              { full := (find_subdomain_start text (pos - 1)).toNat
                full_len := pos + domain.length - (find_subdomain_start text (pos - 1)).toNat
                subdomain := (find_subdomain_start text (pos - 1)).toNat
                subdomain_len := pos - 1 - (find_subdomain_start text (pos - 1)).toNat
                domain := domain
                start_idx := (find_subdomain_start text (pos - 1)).toNat
                end_idx := pos + domain.length } :: scan_domain_noskip text domain fuel (pos + 1)
      else [] := rfl

theorem scan_domain_step (text s : List Nat) (fuel pos : Nat) (hlen : text.length < 2 ^ 31)
    (hsl : s.length ≤ text.length) (hpos : pos ≤ text.length - s.length) :
    scan_domain text s (fuel + 1) pos
      = if is_candidate text s pos = true then
          match_at text s pos :: scan_domain text s fuel (pos + s.length - 1 + 1)
        else scan_domain text s fuel (pos + 1) := by
  rw [scan_domain_succ]
  exact scan_body_eq text s pos hlen hsl hpos _ _

theorem scan_domain_noskip_step (text s : List Nat) (fuel pos : Nat)
    (hlen : text.length < 2 ^ 31)
    (hsl : s.length ≤ text.length) (hpos : pos ≤ text.length - s.length) :
    scan_domain_noskip text s (fuel + 1) pos
      = if is_candidate text s pos = true then
          match_at text s pos :: scan_domain_noskip text s fuel (pos + 1)
        else scan_domain_noskip text s fuel (pos + 1) := by
  rw [scan_domain_noskip_succ]
  exact scan_body_eq text s pos hlen hsl hpos _ _

theorem is_candidate_fits (text s : List Nat) (p : Nat) (h : is_candidate text s p = true) :
    p + s.length ≤ text.length ∧ 0 < p ∧ text.getD (p - 1) 0 = 46
      ∧ run_accepted text (p - 1) = true := by
  unfold is_candidate at h
  simp only [Bool.and_eq_true, decide_eq_true_eq, beq_iff_eq] at h
  exact ⟨h.1.1.1.1.1, h.1.1.1.2, h.1.1.2, h.1.2⟩

/-- A candidate needs 33 subdomain characters before its dot, so none starts within
33 bytes after a dot. -/
theorem no_candidate_after_dot (text s : List Nat) (q p : Nat)
    (hdot : text.getD q 0 = 46) (h1 : q + 1 < p) (h2 : p ≤ q + 33) :
    is_candidate text s p = false := by
  cases hc : is_candidate text s p
  · rfl
  exfalso
  obtain ⟨_, hp0, _, hr⟩ := is_candidate_fits text s p hc
  unfold run_accepted at hr
  simp only [Bool.and_eq_true, decide_eq_true_eq] at hr
  obtain ⟨_, hall, _⟩ := run_start_spec text (p - 1)
  have := hall q (by omega) (by omega)
  rw [hdot] at this
  exact absurd this (by decide)

theorem candidates_after_match (text s : List Nat) (hs : s ∈ KNOWN_OAST_DOMAINS) (p : Nat)
    (hc : is_candidate text s p = true) :
    (List.range' (p + 1) (s.length - 1)).filter (is_candidate text s) = [] := by
  rw [List.filter_eq_nil_iff]
  intro a ha
  rw [List.mem_range'_1] at ha
  obtain ⟨_, hp0, hdot, _⟩ := is_candidate_fits text s p hc
  have hl := known_domain_length_le s hs
  rw [no_candidate_after_dot text s (p - 1) a hdot (by omega) (by omega)]
  decide

theorem candidates_beyond (text s : List Nat) (pos n : Nat)
    (h : text.length < pos + s.length) :
    (List.range' pos n).filter (is_candidate text s) = [] := by
  rw [List.filter_eq_nil_iff]
  intro a ha
  rw [List.mem_range'_1] at ha
  intro hc
  have := (is_candidate_fits text s a hc).1
  omega

theorem scan_domain_eq_filter (text s : List Nat) (hs : s ∈ KNOWN_OAST_DOMAINS)
    (hlen : text.length < 2 ^ 31) (hsl : s.length ≤ text.length) :
    ∀ fuel pos, text.length + 1 ≤ fuel + pos →
      scan_domain text s fuel pos
        = ((List.range' pos (text.length + 1 - pos)).filter (is_candidate text s)).map
            (match_at text s) := by
  have hl0 := known_suffix_length_pos s hs
  intro fuel
  induction fuel with
  | zero =>
    intro pos h
    have e : text.length + 1 - pos = 0 := by omega
    rw [e]
    rfl
  | succ fuel ih =>
    intro pos h
    by_cases hpos : pos ≤ text.length - s.length
    · rw [scan_domain_step text s fuel pos hlen hsl hpos]
      have e : text.length + 1 - pos = (text.length - pos) + 1 := by omega
      rw [e, List.range'_succ]
      by_cases hc : is_candidate text s pos = true
      · rw [if_pos hc, List.filter_cons_of_pos hc, List.map_cons]
        have e2 : pos + s.length - 1 + 1 = pos + s.length := by omega
        rw [e2, ih (pos + s.length) (by omega)]
        have e3 : List.range' (pos + 1) (text.length - pos)
            = List.range' (pos + 1) (s.length - 1)
              ++ List.range' (pos + s.length) (text.length + 1 - (pos + s.length)) := by
          have := List.range'_append (pos + 1) (s.length - 1)
            (text.length + 1 - (pos + s.length)) 1
          have e4 : pos + 1 + 1 * (s.length - 1) = pos + s.length := by omega
          have e5 : text.length + 1 - (pos + s.length) + (s.length - 1) = text.length - pos := by
            omega
          rw [e4, e5] at this
          exact this.symm
        rw [e3, List.filter_append, candidates_after_match text s hs pos hc, List.nil_append]
      · rw [if_neg hc, List.filter_cons_of_neg hc, ih (pos + 1) (by omega)]
        have e2 : text.length + 1 - (pos + 1) = text.length - pos := by omega
        rw [e2]
    · rw [scan_domain_succ, if_neg hpos, candidates_beyond text s pos _ (by omega)]
      rfl

theorem scan_domain_noskip_eq_filter (text s : List Nat)
    (hlen : text.length < 2 ^ 31) (hsl : s.length ≤ text.length) :
    ∀ fuel pos, text.length + 1 ≤ fuel + pos →
      scan_domain_noskip text s fuel pos
        = ((List.range' pos (text.length + 1 - pos)).filter (is_candidate text s)).map
            (match_at text s) := by
  intro fuel
  induction fuel with
  | zero =>
    intro pos h
    have e : text.length + 1 - pos = 0 := by omega
    rw [e]
    rfl
  | succ fuel ih =>
    intro pos h
    by_cases hpos : pos ≤ text.length - s.length
    · rw [scan_domain_noskip_step text s fuel pos hlen hsl hpos]
      have e : text.length + 1 - pos = (text.length - pos) + 1 := by omega
      have e2 : text.length + 1 - (pos + 1) = text.length - pos := by omega
      rw [e, List.range'_succ]
      by_cases hc : is_candidate text s pos = true
      · rw [if_pos hc, List.filter_cons_of_pos hc, List.map_cons, ih (pos + 1) (by omega), e2]
      · rw [if_neg hc, List.filter_cons_of_neg hc, ih (pos + 1) (by omega), e2]
    · rw [scan_domain_noskip_succ, if_neg hpos, candidates_beyond text s pos _ (by omega)]
      rfl

theorem extract_loop_cons (text s : List Nat) (rest : List (List Nat)) :
    extract_loop text (s :: rest)
      = if text.length < s.length then extract_loop text rest
        else scan_domain text s (text.length + 1) 0 ++ extract_loop text rest := rfl

theorem extract_loop_noskip_cons (text s : List Nat) (rest : List (List Nat)) :
    extract_loop_noskip text (s :: rest)
      = if text.length < s.length then extract_loop_noskip text rest
        else scan_domain_noskip text s (text.length + 1) 0 ++ extract_loop_noskip text rest :=
  rfl

/-- The candidates of one suffix in a text, in ascending order of offset, as matches. -/
theorem extract_loop_eq_candidates (text : List Nat) (hlen : text.length < 2 ^ 31) :
    ∀ tbl : List (List Nat), (∀ d ∈ tbl, d ∈ KNOWN_OAST_DOMAINS) →
      extract_loop text tbl
        = tbl.flatMap (fun s =>
            ((List.range (text.length + 1)).filter (is_candidate text s)).map
              (match_at text s)) := by
  intro tbl
  induction tbl with
  | nil => intro _; rfl
  | cons s rest ih =>
    intro h
    have hs := h s (List.mem_cons_self _ _)
    have ih2 := ih (fun d hd => h d (List.mem_cons_of_mem _ hd))
    rw [List.flatMap_cons, ← ih2, List.range_eq_range', extract_loop_cons]
    by_cases hsl : text.length < s.length
    · rw [if_pos hsl, candidates_beyond text s 0 _ (by omega)]
      rfl
    · rw [if_neg hsl, scan_domain_eq_filter text s hs hlen (by omega) (text.length + 1) 0
        (by omega)]
      rfl

theorem extract_loop_noskip_eq_candidates (text : List Nat) (hlen : text.length < 2 ^ 31) :
    ∀ tbl : List (List Nat),
      extract_loop_noskip text tbl
        = tbl.flatMap (fun s =>
            ((List.range (text.length + 1)).filter (is_candidate text s)).map
              (match_at text s)) := by
  intro tbl
  induction tbl with
  | nil => rfl
  | cons s rest ih =>
    rw [List.flatMap_cons, ← ih, List.range_eq_range', extract_loop_noskip_cons]
    by_cases hsl : text.length < s.length
    · rw [if_pos hsl, candidates_beyond text s 0 _ (by omega)]
      rfl
    · rw [if_neg hsl, scan_domain_noskip_eq_filter text s hlen (by omega) (text.length + 1) 0
        (by omega)]
      rfl

theorem candidates_of_empty (text : List Nat) (h : text.length = 0) :
    ∀ tbl : List (List Nat),
      tbl.flatMap (fun s =>
        ((List.range (text.length + 1)).filter (is_candidate text s)).map (match_at text s))
        = [] := by
  intro tbl
  induction tbl with
  | nil => rfl
  | cons s rest ih =>
    rw [List.flatMap_cons, ih, List.append_nil, h]
    have : (List.range (0 + 1)).filter (is_candidate text s) = [] := by
      rw [List.filter_eq_nil_iff]
      intro a ha hc
      have := (is_candidate_fits text s a hc).2.1
      simp at ha
      omega
    rw [this]
    rfl

theorem oast_extract_eq_candidates (text : List Nat) (hlen : text.length < 2 ^ 31) :
    oast_extract text
      = KNOWN_OAST_DOMAINS.flatMap (fun s =>
          ((List.range (text.length + 1)).filter (is_candidate text s)).map
            (match_at text s)) := by
  unfold oast_extract
  by_cases h : text.length = 0
  · rw [if_pos h, candidates_of_empty text h]
  · rw [if_neg h]
    exact extract_loop_eq_candidates text hlen _ (fun d hd => hd)

theorem oast_extract_noskip_eq_candidates (text : List Nat) (hlen : text.length < 2 ^ 31) :
    oast_extract_noskip text
      = KNOWN_OAST_DOMAINS.flatMap (fun s =>
          ((List.range (text.length + 1)).filter (is_candidate text s)).map
            (match_at text s)) := by
  unfold oast_extract_noskip
  by_cases h : text.length = 0
  · rw [if_pos h, candidates_of_empty text h]
  · rw [if_neg h]
    exact extract_loop_noskip_eq_candidates text hlen _

theorem boundary_check_never_fires (text : List Nat) (d : Nat) (hd : d < 2 ^ 31)
    (hn : ¬ find_subdomain_start text d < 0) :
    ¬ (0 < find_subdomain_start text d
        ∧ is_subdomain_char
            (text.getD (find_subdomain_start text d - 1).toNat 0) = true) := by
  by_cases hd0 : d = 0
  · exfalso
    apply hn
    rw [hd0]
    simp [find_subdomain_start]
  rcases find_subdomain_start_run text d (by omega) hd with ⟨_, hf⟩ | ⟨_, hf⟩
  · obtain ⟨_, _, hstop⟩ := run_start_spec text d
    rw [hf]
    rintro ⟨h1, h2⟩
    have h1' : 0 < run_start text d := by omega
    have e : ((run_start text d : Int) - 1).toNat = run_start text d - 1 := by omega
    rw [e, hstop h1'] at h2
    exact absurd h2 (by decide)
  · exfalso
    apply hn
    rw [hf]
    decide

theorem filter_flatMap_domain (F : List Nat → List oast_match_t)
    (hF : ∀ s, ∀ m ∈ F s, m.domain = s) :
    ∀ tbl : List (List Nat), tbl.Nodup → ∀ s ∈ tbl,
      (tbl.flatMap F).filter (fun m => decide (m.domain = s)) = F s := by
  have hnone : ∀ (tbl : List (List Nat)) (s : List Nat), s ∉ tbl →
      (tbl.flatMap F).filter (fun m => decide (m.domain = s)) = [] := by
    intro tbl s hs
    rw [List.filter_eq_nil_iff]
    intro m hm
    rw [List.mem_flatMap] at hm
    obtain ⟨a, ha, hma⟩ := hm
    have := hF a m hma
    rw [decide_eq_true_eq, this]
    intro e
    exact hs (e ▸ ha)
  intro tbl
  induction tbl with
  | nil => intro _ s hs; simp at hs
  | cons a rest ih =>
    intro hnd s hs
    rw [List.nodup_cons] at hnd
    rw [List.flatMap_cons, List.filter_append]
    by_cases e : a = s
    · subst e
      rw [hnone rest a hnd.1, List.append_nil, List.filter_eq_self]
      intro m hm
      rw [decide_eq_true_eq]
      exact hF a m hm
    · have hs2 : s ∈ rest := by
        rcases List.mem_cons.1 hs with h | h
        · exact absurd h.symm e
        · exact h
      rw [ih hnd.2 s hs2]
      have : (F a).filter (fun m => decide (m.domain = s)) = [] := by
        rw [List.filter_eq_nil_iff]
        intro m hm
        rw [decide_eq_true_eq, hF a m hm]
        exact e
      rw [this, List.nil_append]

theorem candidates_domain (text : List Nat) (s : List Nat) :
    ∀ m ∈ ((List.range (text.length + 1)).filter (is_candidate text s)).map (match_at text s),
      m.domain = s := by
  intro m hm
  rw [List.mem_map] at hm
  obtain ⟨p, _, rfl⟩ := hm
  rfl

/-- Extraction is complete on texts shorter than `2 ^ 31` bytes. For a text
whose offsets fit the `int` of
`find_subdomain_start`, `oast_extract` returns, suffix after suffix in table order,
the matches at exactly the candidate offsets in ascending order: the offsets `p`
where the suffix occurs case-insensitively, `p > 0`, `text[p-1]` is a dot, the
maximal run of subdomain characters before that dot has at least 33 bytes, 20
base32hex symbols followed by z-base-32 symbols, `-` or `_`, and the byte after
the suffix is absent or neither a subdomain character nor a dot. The matches
reported for one known suffix are exactly its candidates; the variant without
the line `pos = domain_end - 1` returns the same sequence; and whenever
`find_subdomain_start` returns a start, the boundary check before it does not
reject. -/
theorem oast_extract_complete (text : List Nat) (hlen : text.length < 2 ^ 31) :
    oast_extract text
        = KNOWN_OAST_DOMAINS.flatMap (fun s =>
            ((List.range (text.length + 1)).filter (is_candidate text s)).map
              (match_at text s))
    ∧ (∀ s ∈ KNOWN_OAST_DOMAINS,
        (oast_extract text).filter (fun m => decide (m.domain = s))
          = ((List.range (text.length + 1)).filter (is_candidate text s)).map
              (match_at text s))
    ∧ oast_extract_noskip text = oast_extract text
    ∧ (∀ d, d < 2 ^ 31 → ¬ find_subdomain_start text d < 0 →
        ¬ (0 < find_subdomain_start text d
            ∧ is_subdomain_char
                (text.getD (find_subdomain_start text d - 1).toNat 0) = true))
    ∧ (∀ d, run_start text d ≤ d
        ∧ (∀ j, run_start text d ≤ j → j < d → is_subdomain_char (text.getD j 0) = true)
        ∧ (0 < run_start text d →
            is_subdomain_char (text.getD (run_start text d - 1) 0) = false)) := by
  refine ⟨oast_extract_eq_candidates text hlen, ?_, ?_, ?_, run_start_spec text⟩
  · intro s hs
    rw [oast_extract_eq_candidates text hlen]
    exact filter_flatMap_domain _ (candidates_domain text) _ known_domains_nodup s hs
  · rw [oast_extract_eq_candidates text hlen, oast_extract_noskip_eq_candidates text hlen]
  · intro d hd hn
    exact boundary_check_never_fires text d hd hn

set_option maxRecDepth 100000 in
/-- An example of complete extraction: on a text with one `oast.fun` domain the variant without the
cursor skip returns the same sequence. -/
theorem oast_extract_complete_witness :
    oast_extract_noskip (bytes "see bst1o05anf609kg004m0ybndrfg8ejkmc.oast.fun now")
      = oast_extract (bytes "see bst1o05anf609kg004m0ybndrfg8ejkmc.oast.fun now") :=
  (oast_extract_complete (bytes "see bst1o05anf609kg004m0ybndrfg8ejkmc.oast.fun now")
    (by decide)).2.2.1

/-! ## The validator and the extractor on whole domains -/

theorem getD_sub_dot_suffix (sub s : List Nat) :
    (∀ j, j < sub.length → (sub ++ [46] ++ s).getD j 0 = sub.getD j 0)
    ∧ (sub ++ [46] ++ s).getD sub.length 0 = 46
    ∧ (∀ j, (sub ++ [46] ++ s).getD (sub.length + 1 + j) 0 = s.getD j 0) := by
  refine ⟨?_, ?_, ?_⟩
  · intro j hj
    rw [List.append_assoc, List.getD_append _ _ _ _ hj]
  · rw [List.append_assoc, List.getD_append_right _ _ _ _ (Nat.le_refl _), Nat.sub_self]
    rfl
  · intro j
    rw [List.getD_append_right _ _ _ _ (by simp)]
    have : sub.length + 1 + j - (sub ++ [46]).length = j := by simp
    rw [this]

/-- The facts about a validated text `sub ++ "." ++ s` without NUL bytes that make
offset `sub.length + 1` a candidate. -/
theorem whole_domain_candidate (sub s : List Nat)
    (hv : oast_is_valid_subdomain sub = true) (hnul : ∀ c ∈ sub, c ≠ 0) :
    (∀ j, j < sub.length → is_subdomain_char ((sub ++ [46] ++ s).getD j 0) = true)
    ∧ run_start (sub ++ [46] ++ s) sub.length = 0
    ∧ is_candidate (sub ++ [46] ++ s) s (sub.length + 1) = true := by
  obtain ⟨g1, g2, g3⟩ := getD_sub_dot_suffix sub s
  obtain ⟨h33, hpre, hnonce⟩ := valid_subdomain_parts sub hv
  rw [forall_mem_take_iff _ sub 20 (by omega)] at hpre
  rw [forall_mem_drop_iff] at hnonce
  rw [forall_mem_iff_getD] at hnul
  have hpre2 : ∀ i, i < 20 → in_base32hex (sub.getD i 0) := by
    intro i hi
    rcases (is_base32hex_char_iff _).1 (hpre i hi) with e | e
    · exact absurd e (hnul i (by omega))
    · exact e
  have hnonce2 : ∀ i, 20 ≤ i → i < sub.length → in_zbase32 (sub.getD i 0) := by
    intro i h1 h2
    rcases (is_zbase32_char_iff _).1 (hnonce i h1 h2) with e | e
    · exact absurd e (hnul i h2)
    · exact e
  have hsub : ∀ j, j < sub.length →
      is_subdomain_char ((sub ++ [46] ++ s).getD j 0) = true := by
    intro j hj
    rw [g1 j hj]
    by_cases c : j < 20
    · exact in_base32hex_subdomain_char _ (hpre2 j c)
    · exact in_zbase32_subdomain_char _ (hnonce2 j (by omega) hj)
  have hrun : run_start (sub ++ [46] ++ s) sub.length = 0 :=
    (run_start_unique (sub ++ [46] ++ s) sub.length 0 (Nat.zero_le _)
      (fun j _ hj => hsub j hj) (fun h => absurd h (by omega))).symm
  refine ⟨hsub, hrun, ?_⟩
  have hlen : (sub ++ [46] ++ s).length = sub.length + 1 + s.length := by
    simp only [List.length_append, List.length_singleton]
  have hacc : run_accepted (sub ++ [46] ++ s) sub.length = true := by
    unfold run_accepted
    rw [hrun]
    simp only [Bool.and_eq_true, decide_eq_true_eq, List.all_eq_true, List.mem_range,
      List.mem_range'_1, Nat.sub_zero, Nat.zero_add]
    refine ⟨⟨h33, ?_⟩, ?_⟩
    · intro i hi
      rw [g1 i (by omega)]
      exact hpre2 i hi
    · intro i hi
      rw [g1 i (by omega)]
      exact Or.inl (hnonce2 i (by omega) (by omega))
  unfold is_candidate
  simp only [Bool.and_eq_true, Bool.or_eq_true, decide_eq_true_eq, beq_iff_eq, List.all_eq_true,
    List.mem_range, Nat.add_sub_cancel]
  refine ⟨⟨⟨⟨⟨by omega, ?_⟩, by omega⟩, g2⟩, hacc⟩, Or.inl (by omega)⟩
  intro j _
  rw [g3 j]

theorem all_equal_pairwise_length {α : Type} (R : α → α → Prop) (M : α) (hR : ¬ R M M) :
    ∀ l : List α, (∀ m ∈ l, m = M) → l.Pairwise R → M ∈ l → l = [M] := by
  intro l hall hp hmem
  match l, hall, hp, hmem with
  | [], _, _, hmem => simp at hmem
  | [a], hall, _, _ => rw [hall a (List.mem_singleton_self a)]
  | a :: b :: rest, hall, hp, _ =>
    exfalso
    have ha := hall a (List.mem_cons_self _ _)
    have hb := hall b (List.mem_cons_of_mem _ (List.mem_cons_self _ _))
    rw [List.pairwise_cons] at hp
    have := hp.1 b (List.mem_cons_self _ _)
    rw [ha, hb] at this
    exact hR this

theorem oast_extract_whole_domain (sub s : List Nat) (hs : s ∈ KNOWN_OAST_DOMAINS)
    (hv : oast_is_valid_subdomain sub = true) (hnul : ∀ c ∈ sub, c ≠ 0)
    (hlen : (sub ++ [46] ++ s).length < 2 ^ 31) :
    oast_extract (sub ++ [46] ++ s)
      = [{ full := 0, full_len := (sub ++ [46] ++ s).length, subdomain := 0,
           subdomain_len := sub.length, domain := s, start_idx := 0,
           end_idx := (sub ++ [46] ++ s).length }] := by
  obtain ⟨hsub, hrun, hcand⟩ := whole_domain_candidate sub s hv hnul
  obtain ⟨g1, g2, g3⟩ := getD_sub_dot_suffix sub s
  have htl : (sub ++ [46] ++ s).length = sub.length + 1 + s.length := by
    simp only [List.length_append, List.length_singleton]
  have hM : match_at (sub ++ [46] ++ s) s (sub.length + 1)
      = { full := 0, full_len := (sub ++ [46] ++ s).length, subdomain := 0,
          subdomain_len := sub.length, domain := s, start_idx := 0,
          end_idx := (sub ++ [46] ++ s).length } := by
    unfold match_at
    rw [Nat.add_sub_cancel, hrun, htl]
    rfl
  have hmem : match_at (sub ++ [46] ++ s) s (sub.length + 1) ∈ oast_extract (sub ++ [46] ++ s) := by
    rw [oast_extract_eq_candidates _ hlen, List.mem_flatMap]
    refine ⟨s, hs, ?_⟩
    rw [List.mem_map]
    refine ⟨sub.length + 1, ?_, rfl⟩
    rw [List.mem_filter, List.mem_range]
    exact ⟨by omega, hcand⟩
  rw [hM] at hmem
  have hMs := oast_extract_sound _ hlen _ hmem
  have hsl := known_suffix_length_pos s hs
  apply all_equal_pairwise_length _ _ _ _ _ (oast_extract_ordered _ hlen) hmem
  · simp only [suffix_index, Nat.lt_irrefl, true_and, false_or]
    omega
  · intro m hm
    have hms := oast_extract_sound _ hlen _ hm
    have hms2 := hms
    obtain ⟨hd, h33, hdot, hsuf, hend, hle, hfl, hfull, hsubd, _, _, hchars, hbefore, _⟩ := hms2
    have hl0 := known_suffix_length_pos _ hd
    have hdoteq : m.start_idx + m.subdomain_len = sub.length := by
      rcases Nat.lt_trichotomy (m.start_idx + m.subdomain_len) sub.length with c | c | c
      · have := sound_matches_disjoint _ _ _ hms hMs (by dsimp only; omega)
        dsimp only at this
        omega
      · exact c
      · have := sound_matches_disjoint _ _ _ hMs hms (by dsimp only; omega)
        dsimp only at this
        omega
    have hdom : m.domain = s := sound_matches_same_dot _ _ _ hms hMs (by dsimp only; omega)
    have hstart : m.start_idx = 0 := by
      rcases hbefore with h | h
      · exact h
      · rw [hsub (m.start_idx - 1) (by omega)] at h
        exact absurd h (by decide)
    cases m
    simp only at hdom hstart hdoteq hend hfl hfull hsubd
    subst hdom hstart
    simp only [oast_match_t.mk.injEq]
    rw [htl] at *
    refine ⟨?_, ?_, ?_, ?_, trivial, trivial, ?_⟩ <;> omega

/-- On texts shorter than `2 ^ 31` bytes the validator and the extractor agree on whole domains. For a text without
a NUL byte, of a length that fits the `int` of `find_subdomain_start`, that
`oast_validate` accepts, `oast_extract` returns exactly one match: it starts at
offset 0, ends at the length of the text, carries the suffix that
`is_known_oast_domain` found for the validator, and its subdomain length is the
length of the text less the suffix and the dot. -/
theorem oast_validate_extract_agree (t : List Nat) (hnul : ∀ c ∈ t, c ≠ 0)
    (hlen : t.length < 2 ^ 31) (hv : oast_validate t = true) :
    ∃ s, is_known_oast_domain t = some s
      ∧ oast_extract t
          = [{ full := 0, full_len := t.length, subdomain := 0,
               subdomain_len := t.length - s.length - 1, domain := s, start_idx := 0,
               end_idx := t.length }] := by
  obtain ⟨sub, s, hs, hvs, rfl⟩ := oast_validate_parts t hv
  obtain ⟨g1, g2, g3⟩ := getD_sub_dot_suffix sub s
  have htl : (sub ++ [46] ++ s).length = sub.length + 1 + s.length := by
    simp only [List.length_append, List.length_singleton]
  refine ⟨s, ?_, ?_⟩
  · rw [is_known_oast_domain_iff]
    refine ⟨hs, by omega, ?_, Or.inr ?_⟩
    · have e : (sub ++ [46] ++ s).length - s.length = (sub ++ [46]).length := by
        rw [htl]; simp
      rw [e, List.drop_left]
    · have e : (sub ++ [46] ++ s).length - s.length - 1 = sub.length := by omega
      rw [e, g2]
  · have e : (sub ++ [46] ++ s).length - s.length - 1 = sub.length := by omega
    rw [e]
    exact oast_extract_whole_domain sub s hs hvs
      (fun c hc => hnul c (by simp [hc])) hlen

set_option maxRecDepth 100000 in
/-- An example of the agreement: the validated domain `bst1o05anf609kg004m0ybndrfg8ejkmc.oast.fun`
is extracted as one match over the whole text. -/
theorem oast_validate_extract_agree_witness :
    ∃ s, is_known_oast_domain (bytes "bst1o05anf609kg004m0ybndrfg8ejkmc.oast.fun") = some s
      ∧ oast_extract (bytes "bst1o05anf609kg004m0ybndrfg8ejkmc.oast.fun")
          = [{ full := 0,
               full_len := (bytes "bst1o05anf609kg004m0ybndrfg8ejkmc.oast.fun").length,
               subdomain := 0,
               subdomain_len :=
                 (bytes "bst1o05anf609kg004m0ybndrfg8ejkmc.oast.fun").length - s.length - 1,
               domain := s, start_idx := 0,
               end_idx := (bytes "bst1o05anf609kg004m0ybndrfg8ejkmc.oast.fun").length }] :=
  oast_validate_extract_agree (bytes "bst1o05anf609kg004m0ybndrfg8ejkmc.oast.fun")
    (by decide) (by decide) (by decide)

/-! ## Decoding an extracted match -/

theorem first_dot_eq (l : List Nat) (n : Nat) (hn : n < l.length)
    (hbefore : ∀ i, i < n → l.getD i 0 ≠ 46) (hdot : l.getD n 0 = 46) : first_dot l = n := by
  obtain ⟨h1, h2⟩ := first_dot_spec l
  rcases Nat.lt_trichotomy (first_dot l) n with c | c | c
  · exact absurd (h2 (by omega)) (hbefore _ c)
  · exact c
  · exact absurd hdot (h1 n c)

theorem getD_drop_take (text : List Nat) (a n i : Nat) (hi : i < n) :
    ((text.drop a).take n).getD i 0 = text.getD (a + i) 0 := by
  rw [List.getD_eq_getElem?_getD, List.getD_eq_getElem?_getD, List.getElem?_take_of_lt hi,
    List.getElem?_drop]

/-- The bytes `full[0 .. full_len)` of a match of `oast_extract` whose subdomain
has at most 255 bytes, on a text of any length: the dot of such a match stands
below offset `2 ^ 31`, where the cast to `int` keeps it. -/
theorem matched_bytes_short (text : List Nat) (m : oast_match_t) (hm : m ∈ oast_extract text)
    (h255 : m.subdomain_len ≤ 255) :
    (text.drop m.full).take m.full_len = (text.take m.end_idx).drop m.start_idx
    ∧ ((text.drop m.full).take m.full_len).length = m.full_len
    ∧ 33 ≤ m.subdomain_len
    ∧ first_dot ((text.drop m.full).take m.full_len) = m.subdomain_len
    ∧ (∀ c ∈ ((text.drop m.full).take m.full_len).take 20, in_base32hex c) := by
  obtain ⟨p, hp0, hfit, hdom, _, hdot, hres, _, hstart, hfull, _, hend, hfl, hsl⟩ :=
    oast_extract_mem text m hm
  obtain ⟨s, hs, _, hk, hle, _⟩ := find_subdomain_start_nonneg text (p - 1) hres
  rw [hs, Int.toNat_ofNat] at hstart
  have hsmall : p - 1 < 2 ^ 31 := by omega
  obtain ⟨s', hs', hs33, hall, _, hpre, _⟩ :=
    find_subdomain_start_sound text (p - 1) hsmall hres
  have hss : s' = s := by
    rw [hs] at hs'
    exact (Int.ofNat_inj.1 hs').symm
  subst hss
  have hdl := known_suffix_length_pos _ hdom
  rw [hfull]
  have hXlen : ((text.drop m.start_idx).take m.full_len).length = m.full_len := by
    rw [List.length_take, List.length_drop]
    omega
  have hget : ∀ i, i < m.full_len →
      ((text.drop m.start_idx).take m.full_len).getD i 0 = text.getD (m.start_idx + i) 0 :=
    fun i hi => getD_drop_take text _ _ i hi
  refine ⟨?_, hXlen, by omega, ?_, ?_⟩
  · rw [hfl, List.drop_take]
  · apply first_dot_eq
    · omega
    · intro i hi
      rw [hget i (by omega)]
      exact (is_subdomain_char_ne _ (hall _ (by omega) (by omega))).2
    · rw [hget _ (by omega)]
      have e : m.start_idx + m.subdomain_len = p - 1 := by omega
      rw [e]
      exact hdot
  · rw [forall_mem_take_iff _ _ 20 (by omega)]
    intro i hi
    rw [hget i (by omega), hstart]
    exact hpre i hi

/-- The bytes `full[0 .. full_len)` of a match of `oast_extract` on a text whose
length a `size_t` can hold: the bytes from the start to the dot passed the two
loops of `find_subdomain_start`, so the first dot is the dot of the match. -/
theorem matched_bytes_first_dot (text : List Nat) (hlen : text.length < 2 ^ 64)
    (m : oast_match_t) (hm : m ∈ oast_extract text) :
    ((text.drop m.full).take m.full_len).length = m.full_len
    ∧ 33 ≤ m.subdomain_len
    ∧ first_dot ((text.drop m.full).take m.full_len) = m.subdomain_len := by
  obtain ⟨p, hp0, hfit, hdom, _, hdot, hres, _, hstart, hfull, _, hend, hfl, hsl⟩ :=
    oast_extract_mem text m hm
  obtain ⟨s, hs, hs33, hk, hle, _, _, _, hfree, _⟩ :=
    find_subdomain_start_span text (p - 1) (by omega) hres
  rw [hs, Int.toNat_ofNat] at hstart
  have hdl := known_suffix_length_pos _ hdom
  rw [hfull]
  have hXlen : ((text.drop m.start_idx).take m.full_len).length = m.full_len := by
    rw [List.length_take, List.length_drop]
    omega
  have hget : ∀ i, i < m.full_len →
      ((text.drop m.start_idx).take m.full_len).getD i 0 = text.getD (m.start_idx + i) 0 :=
    fun i hi => getD_drop_take text _ _ i hi
  refine ⟨hXlen, by omega, ?_⟩
  apply first_dot_eq
  · omega
  · intro i hi
    rw [hget i (by omega)]
    exact hfree _ (by omega) (by omega)
  · rw [hget _ (by omega)]
    have e : m.start_idx + m.subdomain_len = p - 1 := by omega
    rw [e]
    exact hdot

/-- C28: every extracted domain decodes. For every text and every match `m`
returned by `oast_extract` with `subdomain_len` at most 255, `oast_decode` on
the matched bytes `full[0 .. full_len)`, which are `text[start_idx .. end_idx)`,
returns 0 with `valid = true`, and `ksort` (6 bytes) followed by `campaign`
(5 bytes) are the lower-cased first 11 bytes of the match. For every text whose
length a `size_t` can hold and every match with `subdomain_len` 256 or more,
`oast_decode` on the matched bytes returns -1 with `valid = false` and the error
`subdomain too long`. -/
theorem oast_extract_match_decodes :
    (∀ (text : List Nat) (m : oast_match_t), m ∈ oast_extract text →
      m.subdomain_len ≤ 255 →
        (text.drop m.full).take m.full_len = (text.take m.end_idx).drop m.start_idx
        ∧ (oast_decode ((text.drop m.full).take m.full_len)).1 = 0
        ∧ (oast_decode ((text.drop m.full).take m.full_len)).2.valid = true
        ∧ (oast_decode ((text.drop m.full).take m.full_len)).2.ksort
            ++ (oast_decode ((text.drop m.full).take m.full_len)).2.campaign
            = (((text.drop m.full).take m.full_len).take 11).map tolower
        ∧ (oast_decode ((text.drop m.full).take m.full_len)).2.ksort.length = 6
        ∧ (oast_decode ((text.drop m.full).take m.full_len)).2.campaign.length = 5)
    ∧ (∀ (text : List Nat) (m : oast_match_t), text.length < 2 ^ 64 →
      m ∈ oast_extract text → 256 ≤ m.subdomain_len →
        (oast_decode ((text.drop m.full).take m.full_len)).1 = -1
        ∧ (oast_decode ((text.drop m.full).take m.full_len)).2.valid = false
        ∧ (oast_decode ((text.drop m.full).take m.full_len)).2.error
            = "subdomain too long") := by
  constructor
  · intro text m hm h255
    obtain ⟨hbytes, hXlen, h33, hfd, hpre⟩ := matched_bytes_short text m hm h255
    have hsucc := oast_decode_success _ (by rw [hfd]; omega) (by rw [hfd]; exact h255) hpre
    rw [hsucc]
    dsimp only
    rw [hfd]
    have hle := first_dot_le ((text.drop m.full).take m.full_len)
    rw [hfd, hXlen] at hle
    refine ⟨hbytes, rfl, rfl, ?_, ?_, ?_⟩
    · rw [← List.take_add, ← List.map_take, List.take_take, Nat.min_eq_left (by omega)]
    · rw [List.length_take, List.length_map, List.length_take, hXlen]
      omega
    · rw [List.length_take, List.length_drop, List.length_map, List.length_take, hXlen]
      omega
  · intro text m hlen hm h256
    obtain ⟨hXlen, h33, hfd⟩ := matched_bytes_first_dot text hlen m hm
    have hnot : ¬ (20 ≤ first_dot ((text.drop m.full).take m.full_len)
        ∧ first_dot ((text.drop m.full).take m.full_len) ≤ 255
        ∧ ∀ c ∈ ((text.drop m.full).take m.full_len).take 20, in_base32hex c) := by
      rw [hfd]
      omega
    have hne : ¬ ((text.drop m.full).take m.full_len).length = 0 := by
      have := (first_dot_le ((text.drop m.full).take m.full_len))
      rw [hfd] at this
      omega
    obtain ⟨r1, r2⟩ := oast_decode_failure _ hnot
    refine ⟨r1, r2, ?_⟩
    rw [(oast_decode_failure_fields _ hnot).2.2.2.2.2.2.2, hfd, if_neg hne, if_pos h256]

set_option maxRecDepth 100000 in
theorem overlong_match_extracted :
    ({ full := 0, full_len := 265, subdomain := 0, subdomain_len := 256,
       domain := bytes "oast.fun", start_idx := 0, end_idx := 265 } : oast_match_t)
      ∈ oast_extract (overlong_subdomain ++ [46] ++ bytes "oast.fun") := by
  rw [oast_extract_whole_domain overlong_subdomain (bytes "oast.fun") (by decide) (by decide)
    (by decide) (by decide)]
  exact List.mem_singleton.2 (by decide)

set_option maxRecDepth 100000 in
/-- A witness for C28: the match of `bst1o05anf609kg004m0ybndrfg8ejkmc.oast.fun` in a
sentence decodes with `valid = true`, and the match of a domain with a 256-byte
subdomain decodes with the error `subdomain too long`. -/
theorem oast_extract_match_decodes_witness :
    ((oast_decode ((List.drop 4
          (bytes "see bst1o05anf609kg004m0ybndrfg8ejkmc.oast.fun now")).take 42)).1 = 0
      ∧ (oast_decode ((List.drop 4
          (bytes "see bst1o05anf609kg004m0ybndrfg8ejkmc.oast.fun now")).take 42)).2.valid = true)
    ∧ (oast_decode ((List.drop 0
          (overlong_subdomain ++ [46] ++ bytes "oast.fun")).take 265)).2.error
        = "subdomain too long" :=
  ⟨⟨(oast_extract_match_decodes.1 (bytes "see bst1o05anf609kg004m0ybndrfg8ejkmc.oast.fun now")
      { full := 4, full_len := 42, subdomain := 4, subdomain_len := 33,
        domain := bytes "oast.fun", start_idx := 4, end_idx := 46 }
      (by decide) (by decide)).2.1,
    (oast_extract_match_decodes.1 (bytes "see bst1o05anf609kg004m0ybndrfg8ejkmc.oast.fun now")
      { full := 4, full_len := 42, subdomain := 4, subdomain_len := 33,
        domain := bytes "oast.fun", start_idx := 4, end_idx := 46 }
      (by decide) (by decide)).2.2.1⟩,
   (oast_extract_match_decodes.2 (overlong_subdomain ++ [46] ++ bytes "oast.fun")
      { full := 0, full_len := 265, subdomain := 0, subdomain_len := 256,
        domain := bytes "oast.fun", start_idx := 0, end_idx := 265 }
      (by decide) overlong_match_extracted (by decide)).2.2⟩

/-! ## Texts of 2 GiB and more

`find_subdomain_start` casts the offset of the dot to `int`. The two texts of
this section show what that does to `oast_extract`: a domain whose dot stands at
an offset between `2 ^ 31` and `2 ^ 32` is not found, and behind offset `2 ^ 32`
the walk back starts at the wrong byte. -/

theorem known_suffix_after_dot : ∀ s ∈ KNOWN_OAST_DOMAINS, ∀ k, k < s.length →
    s.getD k 0 = 46 → s.length - (k + 1) < 7 := by
  decide

theorem known_suffix_length_ge : ∀ s ∈ KNOWN_OAST_DOMAINS, 7 ≤ s.length := by
  decide

/-- A whole domain whose dot stands at an offset that the cast to `int` makes
negative is not extracted. -/
theorem oast_extract_wrapped_domain (sub s0 : List Nat) (hs0 : s0 ∈ KNOWN_OAST_DOMAINS)
    (hsub : ∀ c ∈ sub, c ≠ 46) (hwrap : 2 ^ 31 ≤ sub.length % 2 ^ 32) :
    oast_extract (sub ++ [46] ++ s0) = [] := by
  rw [List.eq_nil_iff_forall_not_mem]
  intro m hm
  obtain ⟨p, hp0, hfit, hdom, hat, hdot, hres, _⟩ := oast_extract_mem _ m hm
  obtain ⟨g1, g2, g3⟩ := getD_sub_dot_suffix sub s0
  have htl : (sub ++ [46] ++ s0).length = sub.length + 1 + s0.length := by
    simp only [List.length_append, List.length_singleton]
  rcases Nat.lt_trichotomy (p - 1) sub.length with c | c | c
  · rw [g1 _ c, List.getD_eq_getElem _ _ c] at hdot
    exact hsub _ (List.getElem_mem _) hdot
  · rw [c] at hres
    exact hres (find_subdomain_start_wrap _ _ hwrap)
  · obtain ⟨k, hk⟩ : ∃ k, p - 1 = sub.length + 1 + k := ⟨p - 1 - (sub.length + 1), by omega⟩
    rw [hk, g3 k] at hdot
    have h7 := known_suffix_length_ge _ hdom
    have := known_suffix_after_dot s0 hs0 k (by omega) hdot
    omega

theorem long_domain_facts (n : Nat) (h13 : 13 ≤ n) (hw : 2 ^ 31 ≤ (20 + n) % 2 ^ 32) :
    (∀ c ∈ long_domain_of n, c ≠ 0)
    ∧ (long_domain_of n).length = n + 29
    ∧ oast_validate (long_domain_of n) = true
    ∧ is_known_oast_domain (long_domain_of n) = some (bytes "oast.pro")
    ∧ is_candidate (long_domain_of n) (bytes "oast.pro") (n + 21) = true
    ∧ oast_extract (long_domain_of n) = [] := by
  have hP : (bytes "bst1o05anf609kg004m0").length = 20 := by decide
  have hs : bytes "oast.pro" ∈ KNOWN_OAST_DOMAINS := by decide
  have hsl : (bytes "oast.pro").length = 8 := by decide
  have hsubl : (bytes "bst1o05anf609kg004m0" ++ List.replicate n 121).length = 20 + n := by
    rw [List.length_append, List.length_replicate, hP]
  have hnul : ∀ c ∈ bytes "bst1o05anf609kg004m0" ++ List.replicate n 121, c ≠ 0 := by
    intro c hc
    rcases List.mem_append.1 hc with h | h
    · have key : ∀ x ∈ bytes "bst1o05anf609kg004m0", x ≠ 0 := by decide
      exact key c h
    · rw [(List.mem_replicate.1 h).2]
      decide
  have hv : oast_is_valid_subdomain (bytes "bst1o05anf609kg004m0" ++ List.replicate n 121)
      = true := by
    apply valid_subdomain_of_parts _ _ hP (by decide)
    · rw [List.length_replicate]; exact h13
    · intro c hc
      rw [(List.mem_replicate.1 hc).2]
      decide
  have hne : bytes "bst1o05anf609kg004m0" ++ List.replicate n 121 ≠ [] := by
    intro e
    have := congrArg List.length e
    rw [hsubl] at this
    simp at this
  obtain ⟨_, _, hcand⟩ := whole_domain_candidate _ (bytes "oast.pro") hv hnul
  rw [hsubl] at hcand
  have e21 : 20 + n + 1 = n + 21 := by omega
  rw [e21] at hcand
  have hlen : (long_domain_of n).length = n + 29 := by
    unfold long_domain_of
    rw [List.length_append, List.length_append, hsubl, hsl]
    simp only [List.length_singleton]
    omega
  refine ⟨?_, hlen, ?_, ?_, hcand, ?_⟩
  · intro c hc
    unfold long_domain_of at hc
    rcases List.mem_append.1 hc with h | h
    · rcases List.mem_append.1 h with h' | h'
      · exact hnul c h'
      · rw [List.mem_singleton.1 h']
        decide
    · have key : ∀ x ∈ bytes "oast.pro", x ≠ 0 := by decide
      exact key c h
  · unfold long_domain_of
    rw [oast_validate_of_parts _ _ hs hne]
    exact hv
  · obtain ⟨g1, g2, g3⟩ := getD_sub_dot_suffix
      (bytes "bst1o05anf609kg004m0" ++ List.replicate n 121) (bytes "oast.pro")
    have hlen' : (bytes "bst1o05anf609kg004m0" ++ List.replicate n 121 ++ [46]
        ++ bytes "oast.pro").length = n + 29 := hlen
    unfold long_domain_of
    rw [is_known_oast_domain_iff]
    refine ⟨hs, by rw [hlen', hsl]; omega, ?_, Or.inr ?_⟩
    · have e : (bytes "bst1o05anf609kg004m0" ++ List.replicate n 121 ++ [46]
          ++ bytes "oast.pro").length - (bytes "oast.pro").length
          = (bytes "bst1o05anf609kg004m0" ++ List.replicate n 121 ++ [46]).length := by
        rw [hlen', hsl, List.length_append, hsubl]
        simp only [List.length_singleton]
        omega
      rw [e, List.drop_left]
    · have e : (bytes "bst1o05anf609kg004m0" ++ List.replicate n 121 ++ [46]
          ++ bytes "oast.pro").length - (bytes "oast.pro").length - 1
          = (bytes "bst1o05anf609kg004m0" ++ List.replicate n 121).length := by
        rw [hlen', hsl, hsubl]
        omega
      rw [e, g2]
  · unfold long_domain_of
    apply oast_extract_wrapped_domain _ _ hs (valid_subdomain_no_dot _ hv)
    rw [hsubl]
    exact hw

theorem overlap_getD (n i : Nat) :
    (overlap_text_of n).getD i 0 =
      if i < 43 then (List.replicate 33 97 ++ bytes ".oast.pro" ++ [0]).getD i 0
      else if i < 43 + n then 97
      else (bytes ".oast.pro").getD (i - 43 - n) 0 := by
  have hA : (List.replicate 33 97 ++ bytes ".oast.pro" ++ [0]).length = 43 := by decide
  have hAR : (List.replicate 33 97 ++ bytes ".oast.pro" ++ [0]
      ++ List.replicate n 97).length = 43 + n := by
    rw [List.length_append, hA, List.length_replicate]
  unfold overlap_text_of
  by_cases c1 : i < 43
  · rw [if_pos c1, List.getD_append _ _ _ _ (by rw [hAR]; omega),
      List.getD_append _ _ _ _ (by rw [hA]; exact c1)]
  · rw [if_neg c1]
    by_cases c2 : i < 43 + n
    · rw [if_pos c2, List.getD_append _ _ _ _ (by rw [hAR]; exact c2),
        List.getD_append_right _ _ _ _ (by rw [hA]; omega), hA, List.getD_eq_getElem?_getD,
        List.getElem?_replicate, if_pos (by omega)]
      rfl
    · rw [if_neg c2, List.getD_append_right _ _ _ _ (by rw [hAR]; omega), hAR]
      congr 1
      omega

set_option maxRecDepth 100000 in
theorem overlap_head_chars :
    (∀ j, j < 33 → (List.replicate 33 97 ++ bytes ".oast.pro" ++ [0]).getD j 0 = 97)
    ∧ (∀ j, j < 8 → (List.replicate 33 97 ++ bytes ".oast.pro" ++ [0]).getD (34 + j) 0
        = (bytes "oast.pro").getD j 0)
    ∧ (∀ i, i < 43 → (List.replicate 33 97 ++ bytes ".oast.pro" ++ [0]).getD i 0 = 46 →
        i = 33 ∨ i = 38)
    ∧ (List.replicate 33 97 ++ bytes ".oast.pro" ++ [0]).getD 33 0 = 46
    ∧ (List.replicate 33 97 ++ bytes ".oast.pro" ++ [0]).getD 42 0 = 0
    ∧ (∀ j, j < 8 → (bytes ".oast.pro").getD (1 + j) 0 = (bytes "oast.pro").getD j 0)
    ∧ (∀ k, k < 9 → (bytes ".oast.pro").getD k 0 = 46 → k = 0 ∨ k = 5) := by
  decide

theorem overlap_chars (n : Nat) :
    (∀ j, j < 33 → (overlap_text_of n).getD j 0 = 97)
    ∧ (overlap_text_of n).getD 33 0 = 46
    ∧ (∀ j, j < 8 → (overlap_text_of n).getD (34 + j) 0 = (bytes "oast.pro").getD j 0)
    ∧ (overlap_text_of n).getD 42 0 = 0
    ∧ (∀ j, 43 ≤ j → j < 43 + n → (overlap_text_of n).getD j 0 = 97)
    ∧ (overlap_text_of n).getD (43 + n) 0 = 46
    ∧ (∀ j, j < 8 → (overlap_text_of n).getD (43 + n + 1 + j) 0
        = (bytes "oast.pro").getD j 0)
    ∧ (overlap_text_of n).length = n + 52
    ∧ (∀ i, (overlap_text_of n).getD i 0 = 46 →
        i = 33 ∨ i = 38 ∨ i = 43 + n ∨ i = 43 + n + 5) := by
  obtain ⟨a1, a3, a5, a2, a4, b2, b3⟩ := overlap_head_chars
  refine ⟨?_, ?_, ?_, ?_, ?_, ?_, ?_, ?_, ?_⟩
  · intro j hj
    rw [overlap_getD, if_pos (by omega)]
    exact a1 j hj
  · rw [overlap_getD, if_pos (by omega)]
    exact a2
  · intro j hj
    rw [overlap_getD, if_pos (by omega)]
    exact a3 j hj
  · rw [overlap_getD, if_pos (by omega)]
    exact a4
  · intro j h1 h2
    rw [overlap_getD, if_neg (by omega), if_pos h2]
  · rw [overlap_getD, if_neg (by omega), if_neg (by omega)]
    have e : 43 + n - 43 - n = 0 := by omega
    rw [e]
    rfl
  · intro j hj
    rw [overlap_getD, if_neg (by omega), if_neg (by omega)]
    have e : 43 + n + 1 + j - 43 - n = 1 + j := by omega
    rw [e]
    exact b2 j hj
  · have hA : (List.replicate 33 97 ++ bytes ".oast.pro" ++ [0]).length = 43 := by decide
    have hB : (bytes ".oast.pro").length = 9 := by decide
    unfold overlap_text_of
    rw [List.length_append, List.length_append, hA, List.length_replicate, hB]
    omega
  · intro i hi
    rw [overlap_getD] at hi
    by_cases c1 : i < 43
    · rw [if_pos c1] at hi
      rcases a5 i c1 hi with e | e
      · exact Or.inl e
      · exact Or.inr (Or.inl e)
    · rw [if_neg c1] at hi
      by_cases c2 : i < 43 + n
      · rw [if_pos c2] at hi
        exact absurd hi (by decide)
      · rw [if_neg c2] at hi
        by_cases c3 : i - 43 - n < 9
        · rcases b3 _ c3 hi with e | e
          · right; right; left; omega
          · right; right; right; omega
        · have hB : (bytes ".oast.pro").length = 9 := by decide
          rw [List.getD_eq_default _ _ (by rw [hB]; omega)] at hi
          exact absurd hi (by decide)

theorem domain_at_of_getD (text domain : List Nat) (p : Nat)
    (h : ∀ j, j < domain.length → text.getD (p + j) 0 = domain.getD j 0) :
    domain_at text domain p = true := by
  unfold domain_at
  rw [List.all_eq_true]
  intro j hj
  rw [List.mem_range] at hj
  rw [h j hj]
  exact beq_self_eq_true _

/-- The first domain of the text: the hit at offset 34 and its record. -/
theorem overlap_first_match (n : Nat) :
    scan_hit (overlap_text_of n) (bytes "oast.pro") 34
    ∧ scan_record (overlap_text_of n) (bytes "oast.pro") 34
        = { full := 0, full_len := 42, subdomain := 0, subdomain_len := 33,
            domain := bytes "oast.pro", start_idx := 0, end_idx := 42 } := by
  obtain ⟨c1, c2, c3, c4, c5, c6, c7, c8, c9⟩ := overlap_chars n
  have hsl : (bytes "oast.pro").length = 8 := by decide
  have hf : find_subdomain_start (overlap_text_of n) 33 = ((0 : Nat) : Int) := by
    apply find_subdomain_start_of_run _ 33 0 (by omega) (by omega) (by omega) (by omega)
    · intro j _ hj
      have e : 33 % 2 ^ 32 = 33 := by omega
      rw [e] at hj
      rw [c1 j hj]
      decide
    · intro h; omega
    · omega
    · intro i hi
      rw [Nat.zero_add, c1 i (by omega)]
      decide
    · intro i h1 h2
      rw [Nat.zero_add, c1 i (by omega)]
      decide
  refine ⟨⟨?_, by omega, c2, ?_, ?_, ?_⟩, ?_⟩
  · apply domain_at_of_getD
    intro j hj
    rw [hsl] at hj
    exact c3 j hj
  · show ¬ find_subdomain_start (overlap_text_of n) 33 < 0
    rw [hf]
    omega
  · show ¬ (0 < find_subdomain_start (overlap_text_of n) 33 ∧ _)
    rw [hf]
    intro h
    omega
  · rw [hsl]
    rintro ⟨_, h | h⟩
    · rw [c4] at h
      exact absurd h (by decide)
    · rw [c4] at h
      exact absurd h (by decide)
  · unfold scan_record
    show _ = _
    have e : (34 : Nat) - 1 = 33 := rfl
    rw [e, hf, hsl]
    rfl

/-- The second domain of the text, whose dot stands at offset `43 + n` with
`(43 + n) % 2 ^ 32 = 42`: the walk back starts at offset 41, inside the first
domain, and stops at the dot of its suffix, so the subdomain reported starts at
offset 39. -/
theorem overlap_second_match (n : Nat) (hn : 29 ≤ n) (h64 : 43 + n < 2 ^ 64)
    (hw : (43 + n) % 2 ^ 32 = 42) :
    scan_hit (overlap_text_of n) (bytes "oast.pro") (44 + n)
    ∧ scan_record (overlap_text_of n) (bytes "oast.pro") (44 + n)
        = { full := 39, full_len := n + 13, subdomain := 39, subdomain_len := n + 4,
            domain := bytes "oast.pro", start_idx := 39, end_idx := n + 52 } := by
  obtain ⟨c1, c2, c3, c4, c5, c6, c7, c8, c9⟩ := overlap_chars n
  have hsl : (bytes "oast.pro").length = 8 := by decide
  have e1 : 44 + n - 1 = 43 + n := by omega
  have h38 : (overlap_text_of n).getD 38 0 = 46 := by
    have := c3 4 (by omega)
    rw [this]
    decide
  have hpro : ∀ j, 39 ≤ j → j < 42 →
      is_subdomain_char ((overlap_text_of n).getD j 0) = true
      ∧ is_base32hex_char ((overlap_text_of n).getD j 0) = true := by
    intro j h1 h2
    obtain ⟨k, rfl⟩ : ∃ k, j = 34 + k := ⟨j - 34, by omega⟩
    rw [c3 k (by omega)]
    have key : ∀ k, 5 ≤ k → k < 8 →
        is_subdomain_char ((bytes "oast.pro").getD k 0) = true
        ∧ is_base32hex_char ((bytes "oast.pro").getD k 0) = true := by decide
    exact key k (by omega) (by omega)
  have hf : find_subdomain_start (overlap_text_of n) (43 + n) = ((39 : Nat) : Int) := by
    apply find_subdomain_start_of_run _ (43 + n) 39 (by omega) h64 (by omega) (by omega)
    · intro j h1 h2
      rw [hw] at h2
      exact (hpro j h1 h2).1
    · intro _
      have e : 39 - 1 = 38 := rfl
      rw [e, h38]
      decide
    · omega
    · intro i hi
      by_cases a : i < 3
      · exact (hpro (39 + i) (by omega) (by omega)).2
      · by_cases b : i = 3
        · subst b
          have e : 39 + 3 = 42 := rfl
          rw [e, c4]
          decide
        · rw [c5 (39 + i) (by omega) (by omega)]
          decide
    · intro i h1 h2
      rw [c5 (39 + i) (by omega) (by omega)]
      decide
  refine ⟨⟨?_, by omega, ?_, ?_, ?_, ?_⟩, ?_⟩
  · apply domain_at_of_getD
    intro j hj
    rw [hsl] at hj
    have e : 44 + n + j = 43 + n + 1 + j := by omega
    rw [e]
    exact c7 j hj
  · rw [e1]; exact c6
  · rw [e1, hf]
    omega
  · rw [e1, hf]
    rintro ⟨_, h⟩
    have e : (((39 : Nat) : Int) - 1).toNat = 38 := by decide
    rw [e, h38] at h
    exact absurd h (by decide)
  · rw [hsl, c8]
    rintro ⟨h, _⟩
    omega
  · unfold scan_record
    rw [e1, hf, hsl]
    have a1 : (((39 : Nat) : Int)).toNat = 39 := rfl
    rw [a1]
    have a2 : 44 + n + 8 - 39 = n + 13 := by omega
    have a3 : 43 + n - 39 = n + 4 := by omega
    have a4 : 44 + n + 8 = n + 52 := by omega
    rw [a2, a3, a4]

/-- Both domains of the text are matches of `oast_extract`. -/
theorem overlap_matches (n : Nat) (hn : 29 ≤ n) (h64 : 43 + n < 2 ^ 64)
    (hw : (43 + n) % 2 ^ 32 = 42) :
    ({ full := 0, full_len := 42, subdomain := 0, subdomain_len := 33,
       domain := bytes "oast.pro", start_idx := 0, end_idx := 42 } : oast_match_t)
      ∈ oast_extract (overlap_text_of n)
    ∧ ({ full := 39, full_len := n + 13, subdomain := 39, subdomain_len := n + 4,
         domain := bytes "oast.pro", start_idx := 39, end_idx := n + 52 } : oast_match_t)
      ∈ oast_extract (overlap_text_of n) := by
  obtain ⟨c1, c2, c3, c4, c5, c6, c7, c8, c9⟩ := overlap_chars n
  obtain ⟨hit1, rec1⟩ := overlap_first_match n
  obtain ⟨hit2, rec2⟩ := overlap_second_match n hn h64 hw
  have hs : bytes "oast.pro" ∈ KNOWN_OAST_DOMAINS := by decide
  have hsl : (bytes "oast.pro").length = 8 := by decide
  have hdots : ∀ q, q < 44 + n → scan_hit (overlap_text_of n) (bytes "oast.pro") q → q = 34 := by
    intro q hq hh
    obtain ⟨hat, hq0, hdot, _⟩ := hh
    rcases c9 _ hdot with e | e | e | e
    · omega
    · exfalso
      have hq39 : q = 39 := by omega
      subst hq39
      have := domain_at_spec _ _ _ hat 0 (by rw [hsl]; omega)
      have e5 : 39 + 0 = 34 + 5 := rfl
      rw [e5, c3 5 (by omega)] at this
      exact absurd this (by decide)
    · omega
    · omega
  constructor
  · rw [← rec1]
    apply oast_extract_of_hit _ _ hs 34 (by rw [hsl, c8]; omega) hit1
    intro q hq hh
    have := hdots q (by omega) hh
    omega
  · rw [← rec2]
    apply oast_extract_of_hit _ _ hs (44 + n) (by rw [hsl, c8]; omega) hit2
    intro q hq hh
    have := hdots q hq hh
    rw [hsl]
    omega

theorem long_domain_extract :
    (∀ c ∈ long_domain, c ≠ 0)
    ∧ long_domain.length = 2 ^ 31 + 29
    ∧ oast_validate long_domain = true
    ∧ is_known_oast_domain long_domain = some (bytes "oast.pro")
    ∧ is_candidate long_domain (bytes "oast.pro") (2 ^ 31 + 21) = true
    ∧ oast_extract long_domain = [] :=
  long_domain_facts (2 ^ 31) (by norm_num) (by norm_num)

/-- C26 fails on the code for the domain of `2 ^ 31 + 29` bytes made of the
preamble `bst1o05anf609kg004m0`, `2 ^ 31` times `y` and `.oast.pro`: the offset
`2 ^ 31 + 21` of its suffix is a candidate in the sense of the claim, but
`find_subdomain_start` casts the offset `2 ^ 31 + 20` of the dot to a negative
`int` and returns a negative start, so `oast_extract` reports nothing. For
every text shorter than `2 ^ 31` bytes the claim holds: `oast_extract` returns
the matches at exactly the candidate offsets, suffix after suffix in ascending
order, the variant without the line `pos = domain_end - 1` returns the same
sequence, and the boundary check before the subdomain does not reject. -/
theorem oast_extract_misses_candidate_beyond_int :
    (long_domain.length = 2 ^ 31 + 29
      ∧ bytes "oast.pro" ∈ KNOWN_OAST_DOMAINS
      ∧ is_candidate long_domain (bytes "oast.pro") (2 ^ 31 + 21) = true
      ∧ find_subdomain_start long_domain (2 ^ 31 + 20) < 0
      ∧ oast_extract long_domain = []
      ∧ oast_extract long_domain
          ≠ KNOWN_OAST_DOMAINS.flatMap (fun s =>
              ((List.range (long_domain.length + 1)).filter (is_candidate long_domain s)).map
                (match_at long_domain s)))
    ∧ (∀ text : List Nat, text.length < 2 ^ 31 →
        oast_extract text
            = KNOWN_OAST_DOMAINS.flatMap (fun s =>
                ((List.range (text.length + 1)).filter (is_candidate text s)).map
                  (match_at text s))
        ∧ (∀ s ∈ KNOWN_OAST_DOMAINS,
            (oast_extract text).filter (fun m => decide (m.domain = s))
              = ((List.range (text.length + 1)).filter (is_candidate text s)).map
                  (match_at text s))
        ∧ oast_extract_noskip text = oast_extract text
        ∧ (∀ d, d < 2 ^ 31 → ¬ find_subdomain_start text d < 0 →
            ¬ (0 < find_subdomain_start text d
                ∧ is_subdomain_char
                    (text.getD (find_subdomain_start text d - 1).toNat 0) = true))
        ∧ (∀ d, run_start text d ≤ d
            ∧ (∀ j, run_start text d ≤ j → j < d →
                is_subdomain_char (text.getD j 0) = true)
            ∧ (0 < run_start text d →
                is_subdomain_char (text.getD (run_start text d - 1) 0) = false))) := by
  obtain ⟨_, hl, _, _, hc, he⟩ := long_domain_extract
  have hs : bytes "oast.pro" ∈ KNOWN_OAST_DOMAINS := by decide
  refine ⟨⟨hl, hs, hc, find_subdomain_start_wrap _ _ (by norm_num), he, ?_⟩,
    fun text hlen => oast_extract_complete text hlen⟩
  rw [he]
  intro h
  have hmem : match_at long_domain (bytes "oast.pro") (2 ^ 31 + 21)
      ∈ KNOWN_OAST_DOMAINS.flatMap (fun s =>
          ((List.range (long_domain.length + 1)).filter (is_candidate long_domain s)).map
            (match_at long_domain s)) := by
    rw [List.mem_flatMap]
    refine ⟨bytes "oast.pro", hs, ?_⟩
    rw [List.mem_map]
    refine ⟨2 ^ 31 + 21, ?_, rfl⟩
    rw [List.mem_filter, List.mem_range, hl]
    exact ⟨by norm_num, hc⟩
  rw [← h] at hmem
  exact absurd hmem (List.not_mem_nil _)

/-- C27 fails on the code for the domain of `2 ^ 31 + 29` bytes made of the
preamble `bst1o05anf609kg004m0`, `2 ^ 31` times `y` and `.oast.pro`: it has no
NUL byte and `oast_validate` accepts it with the suffix `oast.pro`, but
`find_subdomain_start` casts the offset `2 ^ 31 + 20` of its dot to a negative
`int`, so `oast_extract` returns no match. For every text shorter than
`2 ^ 31` bytes the claim holds. -/
theorem oast_validate_without_extract_beyond_int :
    ((∀ c ∈ long_domain, c ≠ 0)
      ∧ long_domain.length = 2 ^ 31 + 29
      ∧ oast_validate long_domain = true
      ∧ is_known_oast_domain long_domain = some (bytes "oast.pro")
      ∧ oast_extract long_domain = [])
    ∧ (∀ t : List Nat, (∀ c ∈ t, c ≠ 0) → t.length < 2 ^ 31 → oast_validate t = true →
        ∃ s, is_known_oast_domain t = some s
          ∧ oast_extract t
              = [{ full := 0, full_len := t.length, subdomain := 0,
                   subdomain_len := t.length - s.length - 1, domain := s, start_idx := 0,
                   end_idx := t.length }]) := by
  obtain ⟨hn, hl, hv, hk, _, he⟩ := long_domain_extract
  exact ⟨⟨hn, hl, hv, hk, he⟩, fun t h1 h2 h3 => oast_validate_extract_agree t h1 h2 h3⟩

end Oast
